import Mathlib

/-!
A shallow embedding of `cpp_map` (`src/lib.rs`), an arena-backed doubly linked
list emulating a C++ `std::map`, together with a verification of its main
behavioural properties.

Modelling conventions:
* `usize` indices are `Nat`; the sentinel `OUT_OF_BOUNDS = usize::MAX` is the
  literal `2 ^ 64 - 1`.  `Vec<Option<Node>>` is `List (Option (Node K V))`;
  `Vec::get i` is `List[i]?` (both return nothing for an index past the
  end, and `usize::MAX` is always past the end of any realizable vector).
* A Rust method on `&mut self` returning `Result<T, MapError>` becomes a
  function `LinkedList K V → … → Except MapError T × LinkedList K V`; the
  second component is the (possibly partially mutated) state of `self` when
  the method returns, also on the error paths.
* The `while` loops of `ordered_insert_pos`, `lower_bound` and the iterators
  become fuel-indexed recursions.  The fuel used at every call site is
  `nodes_.length + 1`, which is shown to be enough on every well-formed
  state; exhausting it is modelled as a distinguished error that a Rust
  execution would instead spend looping over a (necessarily corrupted) chain.
* The `Rc<RefCell<…>>` shared handle of `PIterator` is modelled by passing
  the list state explicitly; the claims verified here are single-threaded
  with no concurrently live borrows, so `try_borrow` always succeeds.
* Error messages keep the source strings, dropping the `file!()/line!()`
  suffixes.  A reached `unwrap()` panic is modelled as an error value.
-/

deriving instance DecidableEq for Except

namespace CppMap

/-- `pub const OUT_OF_BOUNDS: usize = usize::MAX;` -/
def OUT_OF_BOUNDS : Nat := 2 ^ 64 - 1

/-- `enum MapError { InternalError(String), BorrowError, BorrowMutError }` -/
inductive MapError where
  | InternalError (msg : String)
  | BorrowError
  | BorrowMutError
deriving DecidableEq

/-- `struct Node<K, V> { prev_: usize, next_: usize, key_: K, value_: V }` -/
structure Node (K V : Type) where
  prev_ : Nat
  next_ : Nat
  key_ : K
  value_ : V
deriving DecidableEq

/-- `struct LinkedList<K, V> { head_: usize, tail_: usize, nodes_: Vec<Option<Node<K,V>>>, id_pool_: Vec<usize> }` -/
structure LinkedList (K V : Type) where
  head_ : Nat
  tail_ : Nat
  nodes_ : List (Option (Node K V))
  id_pool_ : List Nat
deriving DecidableEq

/-- `struct EraseOperation { change_prev_: Option<(usize, usize)>, erase_: usize, change_next_: Option<(usize, usize)> }` -/
structure EraseOperation where
  change_prev_ : Option (Nat × Nat)
  erase_ : Nat
  change_next_ : Option (Nat × Nat)
deriving DecidableEq

/-- `impl Default for LinkedList`: empty list, head and tail at the sentinel. -/
def LinkedList.default {K V : Type} : LinkedList K V :=
  { head_ := OUT_OF_BOUNDS, tail_ := OUT_OF_BOUNDS, nodes_ := [], id_pool_ := [] }

namespace LinkedList

variable {K V : Type}

/-- `pub fn len(&self) -> usize { self.nodes_.len() - self.id_pool_.len() }` -/
def len (l : LinkedList K V) : Nat :=
  l.nodes_.length - l.id_pool_.length

/-- `pub fn is_empty(&self) -> bool { self.len() == 0 }` -/
def is_empty (l : LinkedList K V) : Bool :=
  l.len == 0

/-- `pub fn clear(&mut self)` -/
def clear (_l : LinkedList K V) : LinkedList K V :=
  { head_ := OUT_OF_BOUNDS, tail_ := OUT_OF_BOUNDS, nodes_ := [], id_pool_ := [] }

/-- `pub fn next_free_index(&self) -> usize`: top of the free stack if any,
else the append position.  (`last().unwrap()` is guarded by the emptiness
check, so the `getLastD` default is unreachable.) -/
def next_free_index (l : LinkedList K V) : Nat :=
  if l.id_pool_.isEmpty then l.nodes_.length else l.id_pool_.getLastD 0

/-- The allocation expression inlined in `push_front_`, `push_back_` and
`insert_before_`: `if !self.id_pool_.is_empty() { self.id_pool_.pop().unwrap() } else { self.nodes_.len() }`.
Returns the insertion index together with the free stack after the `pop`. -/
def alloc (l : LinkedList K V) : Nat × List Nat :=
  if l.id_pool_.isEmpty then (l.nodes_.length, l.id_pool_)
  else (l.id_pool_.getLastD 0, l.id_pool_.dropLast)

/-- `pub fn get_k(&self, index: usize) -> Result<&K, MapError>` -/
def get_k (l : LinkedList K V) (index : Nat) : Except MapError K :=
  match l.nodes_[index]? with
  | none => .error (.InternalError "error, item not found")
  | some none => .error (.InternalError "error, item was not active")
  | some (some rv) => .ok rv.key_

/-- `pub fn get_v(&self, index: usize) -> Result<&V, MapError>` -/
def get_v (l : LinkedList K V) (index : Nat) : Except MapError V :=
  match l.nodes_[index]? with
  | none => .error (.InternalError "error, item not found")
  | some none => .error (.InternalError "error, item was not active")
  | some (some rv) => .ok rv.value_

/-- `pub fn get(&self, index: usize) -> Result<(&K, &V), MapError>` -/
def get (l : LinkedList K V) (index : Nat) : Except MapError (K × V) :=
  if index = OUT_OF_BOUNDS then
    .error (.InternalError "Invalid pointer (moved past start/end).")
  else
    match l.nodes_[index]? with
    | none => .error (.InternalError "error, item not found")
    | some none => .error (.InternalError "error, item was not active")
    | some (some rv) => .ok (rv.key_, rv.value_)

/-- `pub fn get_prev_k(&self, index: usize) -> Result<&K, MapError>` -/
def get_prev_k (l : LinkedList K V) (index : Nat) : Except MapError K :=
  match l.nodes_[index]? with
  | none => .error (.InternalError "error, item not found")
  | some none => .error (.InternalError "error, item was None")
  | some (some nd) =>
    match l.nodes_[nd.prev_]? with
    | none => .error (.InternalError "error, prev item not found")
    | some none => .error (.InternalError "error, item was not active")
    | some (some node) => .ok node.key_

/-- `pub fn tail(&self) -> usize` -/
def tail (l : LinkedList K V) : Nat := l.tail_

/-- `pub fn head(&self) -> usize` -/
def head (l : LinkedList K V) : Nat := l.head_

/-- `pub fn peek_front_k(&self) -> Option<&K>` -/
def peek_front_k (l : LinkedList K V) : Option K :=
  match l.nodes_[l.head_]? with
  | some (some node) => some node.key_
  | _ => none

/-- `pub fn peek_back_k(&self) -> Option<&K>` -/
def peek_back_k (l : LinkedList K V) : Option K :=
  match l.nodes_[l.tail_]? with
  | some (some node) => some node.key_
  | _ => none

/-- `fn replace_or_push_(&mut self, insertion_index: usize, new_node: Node<K, V>) -> usize`:
push at the end when the index is the append position, otherwise overwrite the
slot in place.  (The source's `get_mut(..).unwrap()` cannot fail because the
insertion index always comes from the free stack, whose entries are in range.) -/
def replace_or_push_ (l : LinkedList K V) (insertion_index : Nat) (new_node : Node K V) :
    Nat × LinkedList K V :=
  if insertion_index = l.nodes_.length then
    (insertion_index, { l with nodes_ := l.nodes_ ++ [some new_node] })
  else
    (insertion_index, { l with nodes_ := l.nodes_.set insertion_index (some new_node) })

/-- `fn push_front_(&mut self, key: K, value: V) -> Result<usize, MapError>` -/
def push_front_ (l : LinkedList K V) (key : K) (value : V) :
    Except MapError Nat × LinkedList K V :=
  let insertion_index := (alloc l).1
  let l1 : LinkedList K V := { l with id_pool_ := (alloc l).2 }
  match l1.nodes_[l1.head_]? with
  | some (some prev_head) =>
    -- there was a previous head
    let new_node : Node K V :=
      { next_ := l1.head_, prev_ := OUT_OF_BOUNDS, key_ := key, value_ := value }
    let l2 : LinkedList K V :=
      { l1 with nodes_ := l1.nodes_.set l1.head_ (some { prev_head with prev_ := insertion_index }),
                head_ := insertion_index }
    (.ok (replace_or_push_ l2 insertion_index new_node).1,
     (replace_or_push_ l2 insertion_index new_node).2)
  | some none => (.error (.InternalError "Should not happen error"), l1)
  | none =>
    -- this will be the first element in the list
    let new_node : Node K V :=
      { next_ := OUT_OF_BOUNDS, prev_ := OUT_OF_BOUNDS, key_ := key, value_ := value }
    let l2 : LinkedList K V := { l1 with head_ := insertion_index, tail_ := insertion_index }
    (.ok (replace_or_push_ l2 insertion_index new_node).1,
     (replace_or_push_ l2 insertion_index new_node).2)

/-- `fn push_back_(&mut self, key: K, value: V) -> Result<usize, MapError>` -/
def push_back_ (l : LinkedList K V) (key : K) (value : V) :
    Except MapError Nat × LinkedList K V :=
  let insertion_index := (alloc l).1
  let l1 : LinkedList K V := { l with id_pool_ := (alloc l).2 }
  match l1.nodes_[l1.tail_]? with
  | some (some prev_tail) =>
    -- there was a previous tail
    let new_node : Node K V :=
      { next_ := OUT_OF_BOUNDS, prev_ := l1.tail_, key_ := key, value_ := value }
    let l2 : LinkedList K V :=
      { l1 with nodes_ := l1.nodes_.set l1.tail_ (some { prev_tail with next_ := insertion_index }),
                tail_ := insertion_index }
    (.ok (replace_or_push_ l2 insertion_index new_node).1,
     (replace_or_push_ l2 insertion_index new_node).2)
  | some none => (.error (.InternalError "Should not happen error"), l1)
  | none =>
    -- this will be the first element in the list
    let new_node : Node K V :=
      { next_ := OUT_OF_BOUNDS, prev_ := OUT_OF_BOUNDS, key_ := key, value_ := value }
    let l2 : LinkedList K V := { l1 with head_ := insertion_index, tail_ := insertion_index }
    (.ok (replace_or_push_ l2 insertion_index new_node).1,
     (replace_or_push_ l2 insertion_index new_node).2)

/-- The common tail of `insert_before_` after the new node has been built:
`replace_or_push_`, then relink the predecessor (`prev_node.next_ = insertion_index`)
or, when there is no predecessor, make the new node the head. -/
def insert_before_finish (l : LinkedList K V) (insertion_index : Nat) (new_node : Node K V) :
    Except MapError Nat × LinkedList K V :=
  let prev_node := new_node.prev_
  let l1 := (replace_or_push_ l insertion_index new_node).2
  if prev_node = OUT_OF_BOUNDS then
    -- we just pushed at the first position
    (.ok insertion_index, { l1 with head_ := insertion_index })
  else
    match l1.nodes_[prev_node]? with
    | some (some pn) =>
      (.ok insertion_index,
       { l1 with nodes_ := l1.nodes_.set prev_node (some { pn with next_ := insertion_index }) })
    | some none => (.error (.InternalError "Should not happen error"), l1)
    | none => (.error (.InternalError "Should not happen error"), l1)

/-- `fn insert_before_(&mut self, index: usize, key: K, value: V) -> Result<usize, MapError>` -/
def insert_before_ (l : LinkedList K V) (index : Nat) (key : K) (value : V) :
    Except MapError Nat × LinkedList K V :=
  if index = OUT_OF_BOUNDS then push_front_ l key value
  else
    let insertion_index := (alloc l).1
    let l1 : LinkedList K V := { l with id_pool_ := (alloc l).2 }
    match l1.nodes_[index]? with
    | some (some next_node) =>
      let new_node : Node K V :=
        { next_ := index, prev_ := next_node.prev_, key_ := key, value_ := value }
      let l2 : LinkedList K V :=
        { l1 with nodes_ := l1.nodes_.set index (some { next_node with prev_ := insertion_index }) }
      insert_before_finish l2 insertion_index new_node
    | some none => (.error (.InternalError "Should not happen error"), l1)
    | none =>
      -- the source treats an out-of-range index like the first insertion
      let new_node : Node K V :=
        { next_ := OUT_OF_BOUNDS, prev_ := OUT_OF_BOUNDS, key_ := key, value_ := value }
      let l2 : LinkedList K V := { l1 with head_ := insertion_index, tail_ := insertion_index }
      insert_before_finish l2 insertion_index new_node

end LinkedList

/-- `key.cmp(&other)`: the canonical comparator of the total order on `K`
(`Ordering::Less/Equal/Greater`). -/
def keyCmp {K : Type} [LinearOrder K] (a b : K) : Ordering :=
  if a < b then .lt else if a = b then .eq else .gt

/-- Result of the forward scan loop inside `ordered_insert_pos`. -/
inductive FwdScan where
  | existing (i : Nat)
  | before (i : Nat)
  | atEnd
  | fuelOut
deriving DecidableEq

/-- Result of the backward scan loop inside `ordered_insert_pos`. -/
inductive BwdScan where
  | existing (i : Nat)
  | done (insert_before : Option Nat)
  | fuelOut
deriving DecidableEq

/-- The "search down the list" loop of `ordered_insert_pos` (key not below the
anchor): follow `next_` while the key is greater than the sample, no-op on an
equal key, record "insert before" at the first strictly greater sample, fall
off the end (or hit a dead slot) to append at the back. -/
def scanFwd {K V : Type} [LinearOrder K] (nodes : List (Option (Node K V))) (key : K) :
    Nat → Nat → FwdScan
  | 0, _ => .fuelOut
  | fuel + 1, curr_index =>
    match nodes[curr_index]? with
    | some (some sample) =>
      match keyCmp key sample.key_ with
      | .eq => .existing curr_index
      | .lt => .before curr_index
      | .gt => scanFwd nodes key fuel sample.next_
    | _ => .atEnd

/-- The "search up the list" loop of `ordered_insert_pos` (key below the
anchor): follow `prev_` while the key is less than the sample, recording each
visited node as the insertion position; no-op on an equal key; stop on the
first sample not greater than the key (or past the head). -/
def scanBwd {K V : Type} [LinearOrder K] (nodes : List (Option (Node K V))) (key : K) :
    Nat → Nat → Option Nat → BwdScan
  | 0, _, _ => .fuelOut
  | fuel + 1, curr_index, insert_before =>
    match nodes[curr_index]? with
    | some (some sample) =>
      match keyCmp key sample.key_ with
      | .eq => .existing curr_index
      | .lt => scanBwd nodes key fuel sample.prev_ (some curr_index)
      | .gt => .done insert_before
    | _ => .done insert_before

namespace LinkedList

variable {K V : Type} [LinearOrder K]

/-- The body of `ordered_insert_pos` once the anchor (`curr_index`, holding
`first_node`) has been resolved: compare and run the forward or the backward
scan, then perform the recorded insertion (`insert_before_` / `push_back_`),
or return the existing index unchanged. -/
def oipCore (l : LinkedList K V) (key : K) (value : V) (curr_index : Nat)
    (first_node : Node K V) : Except MapError Nat × LinkedList K V :=
  match keyCmp key first_node.key_ with
  | .gt | .eq =>
    -- we are searching down the list, stop at first Less
    match scanFwd l.nodes_ key (l.nodes_.length + 1) curr_index with
    | .existing i => (.ok i, l) -- insert with an already existing key is a nop
    | .before i => insert_before_ l i key value
    | .atEnd => push_back_ l key value
    | .fuelOut => (.error (.InternalError "fuel exhausted in scanFwd"), l)
  | .lt =>
    -- we are searching up the list, stop at first Equal or Greater
    match scanBwd l.nodes_ key (l.nodes_.length + 1) curr_index (some curr_index) with
    | .existing i => (.ok i, l) -- insert with an already existing key is a nop
    | .done (some i) => insert_before_ l i key value
    | .done none => push_back_ l key value
    | .fuelOut => (.error (.InternalError "fuel exhausted in scanBwd"), l)

/-- `pub fn ordered_insert_pos(&mut self, key: K, value: V, position: usize) -> Result<usize, MapError>`:
resolve the hint (falling back to the head when the hinted slot is not live),
then `oipCore`. -/
def ordered_insert_pos (l : LinkedList K V) (key : K) (value : V) (position : Nat) :
    Except MapError Nat × LinkedList K V :=
  if l.head_ = OUT_OF_BOUNDS then
    -- list is empty, ignore position and insert
    push_back_ l key value
  else
    match l.nodes_[position]? with
    | some (some first_node) => oipCore l key value position first_node
    | _ =>
      match l.nodes_[l.head_]? with
      | some (some first_node) => oipCore l key value l.head_ first_node
      | some none => (.error (.InternalError "head_ item was None"), l)
      | none => (.error (.InternalError "panic: unwrap of nodes_.get(head_)"), l)

/-- `pub fn ordered_insert(&mut self, key: K, value: V) -> Result<usize, MapError>`:
`ordered_insert_pos` with `self.head_` as position hint. -/
def ordered_insert (l : LinkedList K V) (key : K) (value : V) :
    Except MapError Nat × LinkedList K V :=
  ordered_insert_pos l key value l.head_

/-- The sequential-search-from-the-rear loop of `lower_bound`: walk `prev_`
from the tail remembering every index whose key is not greater than the query,
returning the remembered index as soon as a strictly greater key shows up, or
when the walk falls off the head. `none` = fuel exhausted. -/
def lbScan {K V : Type} [LinearOrder K] (nodes : List (Option (Node K V))) (key : K) :
    Nat → Nat → Option Nat → Option (Option Nat)
  | 0, _, _ => none
  | fuel + 1, curr_index, last_match =>
    match nodes[curr_index]? with
    | some (some sample) =>
      if keyCmp key sample.key_ ≠ .gt then lbScan nodes key fuel sample.prev_ (some curr_index)
      else some last_match
    | _ => some last_match

/-- `pub fn lower_bound(&self, key: K) -> Result<Option<usize>, MapError>` -/
def lower_bound (l : LinkedList K V) (key : K) : Except MapError (Option Nat) :=
  if l.tail_ = OUT_OF_BOUNDS then .ok none
  else
    match lbScan l.nodes_ key (l.nodes_.length + 1) l.tail_ none with
    | some r => .ok r
    | none => .error (.InternalError "fuel exhausted in lower_bound")

/-- `fn erase_node_(&mut self, operation: EraseOperation) -> Result<(usize, (K, V), usize), MapError>` -/
def erase_node_ (l : LinkedList K V) (operation : EraseOperation) :
    Except MapError (Nat × (K × V) × Nat) × LinkedList K V :=
  let step1 : Except MapError Unit × LinkedList K V :=
    match operation.change_prev_, operation.change_next_ with
    | some (prev_i, new_next), some (next_i, new_prev) =>
      match l.nodes_[prev_i]? with
      | some (some node) =>
        let la : LinkedList K V :=
          { l with nodes_ := l.nodes_.set prev_i (some { node with next_ := new_next }) }
        match la.nodes_[next_i]? with
        | some (some node2) =>
          (.ok (),
           { la with nodes_ := la.nodes_.set next_i (some { node2 with prev_ := new_prev }) })
        | _ => (.error (.InternalError "Should not happen error"), la)
      | _ => (.error (.InternalError "Should not happen error"), l)
    | none, some (new_head, new_head_prev) =>
      match l.nodes_[new_head]? with
      | some (some node) =>
        (.ok (),
         { l with nodes_ := l.nodes_.set new_head (some { node with prev_ := new_head_prev }),
                  head_ := new_head })
      | _ => (.error (.InternalError "Should not happen error"), l)
    | some (new_tail, new_tail_next), none =>
      match l.nodes_[new_tail]? with
      | some (some node) =>
        (.ok (),
         { l with nodes_ := l.nodes_.set new_tail (some { node with next_ := new_tail_next }),
                  tail_ := new_tail })
      | _ => (.error (.InternalError "Should not happen error"), l)
    | none, none =>
      (.ok (), { l with head_ := OUT_OF_BOUNDS, tail_ := OUT_OF_BOUNDS })
  match step1 with
  | (.error e, lb) => (.error e, lb)
  | (.ok _, lb) =>
    match lb.nodes_[operation.erase_]? with
    | some (some old_head) =>
      (.ok (old_head.prev_, (old_head.key_, old_head.value_), old_head.next_),
       { lb with nodes_ := lb.nodes_.set operation.erase_ none,
                 id_pool_ := lb.id_pool_ ++ [operation.erase_] })
    | some none => (.error (.InternalError "Should not happen error"), lb)
    | none => (.error (.InternalError "Should not happen error, element to erase not found"), lb)

/-- `fn remove__(&mut self, index: usize) -> Result<(usize, (K, V), usize), MapError>`:
compute the `EraseOperation` for the node at `index` and apply it. -/
def remove__ (l : LinkedList K V) (index : Nat) :
    Except MapError (Nat × (K × V) × Nat) × LinkedList K V :=
  if l.head_ = OUT_OF_BOUNDS then
    (.error (.InternalError "Could not find element to remove"), l)
  else
    match l.nodes_[index]? with
    | some (some node) =>
      -- check node next
      match l.nodes_[node.next_]? with
      | some (some _) =>
        -- check prev node
        match l.nodes_[node.prev_]? with
        | some (some _) =>
          erase_node_ l
            { change_prev_ := some (node.prev_, node.next_), erase_ := index,
              change_next_ := some (node.next_, node.prev_) }
        | some none => (.error (.InternalError "Should not happen error"), l)
        | none =>
          erase_node_ l
            { change_prev_ := none, erase_ := index,
              change_next_ := some (node.next_, node.prev_) }
      | some none => (.error (.InternalError "Should not happen error"), l)
      | none =>
        match l.nodes_[node.prev_]? with
        | some (some _) =>
          erase_node_ l
            { change_prev_ := some (node.prev_, node.next_), erase_ := index,
              change_next_ := none }
        | some none => (.error (.InternalError "Should not happen error"), l)
        | none =>
          erase_node_ l
            { change_prev_ := none, erase_ := index, change_next_ := none }
    | some none => (.error (.InternalError "Should not happen error"), l)
    | none =>
      -- index was not found
      (.error (.InternalError "Could not find element to remove"), l)

/-- `fn remove_(&mut self, index: usize) -> Result<Option<(K, V)>, MapError>` -/
def remove_ (l : LinkedList K V) (index : Nat) :
    Except MapError (Option (K × V)) × LinkedList K V :=
  match remove__ l index with
  | (.ok rv, l1) => (.ok (some rv.2.1), l1)
  | (.error e, l1) => (.error e, l1)

/-- `pub fn pop_front(&mut self) -> Result<Option<(K, V)>, MapError>` -/
def pop_front (l : LinkedList K V) : Except MapError (Option (K × V)) × LinkedList K V :=
  remove_ l l.head_

/-- `pub fn pop_back(&mut self) -> Result<Option<(K, V)>, MapError>` -/
def pop_back (l : LinkedList K V) : Except MapError (Option (K × V)) × LinkedList K V :=
  remove_ l l.tail_

end LinkedList

/-- One step of `ListIterator::next` (`impl Iterator`): the iterator state is
the `my_next_` index; `iter()` starts it at `head_`. Yields the entry and the
next cursor, or `none` when the traversal is over. -/
def iterNext {K V : Type} (l : LinkedList K V) (my_next_ : Nat) : Option ((K × V) × Nat) :=
  if my_next_ = OUT_OF_BOUNDS then none
  else
    match l.nodes_[my_next_]? with
    | none => none
    | some none => none
    | some (some node) =>
      some ((node.key_, node.value_), if my_next_ = l.tail_ then OUT_OF_BOUNDS else node.next_)

/-- One step of `ListIterator::next_back` (`impl DoubleEndedIterator`).  Note
that it shares the single `my_next_` cursor with `next` and follows `prev_`;
there is no initial `OUT_OF_BOUNDS` test in the source (the slot lookup fails
there anyway). -/
def iterNextBack {K V : Type} (l : LinkedList K V) (my_next_ : Nat) : Option ((K × V) × Nat) :=
  match l.nodes_[my_next_]? with
  | none => none
  | some none => none
  | some (some node) =>
    some ((node.key_, node.value_), if my_next_ = l.tail_ then OUT_OF_BOUNDS else node.prev_)

/-- Drive `ListIterator::next` to exhaustion (fuel-indexed). -/
def iterGo {K V : Type} (l : LinkedList K V) : Nat → Nat → List (K × V)
  | 0, _ => []
  | fuel + 1, my_next_ =>
    match iterNext l my_next_ with
    | none => []
    | some (entry, nxt) => entry :: iterGo l fuel nxt

/-- All entries produced by a fresh `self.iter()` driven only forward. -/
def iter_collect {K V : Type} (l : LinkedList K V) : List (K × V) :=
  iterGo l (l.nodes_.length + 1) l.head_

/-- Drive `ListIterator::next_back` to exhaustion (fuel-indexed). -/
def iterGoBack {K V : Type} (l : LinkedList K V) : Nat → Nat → List (K × V)
  | 0, _ => []
  | fuel + 1, my_next_ =>
    match iterNextBack l my_next_ with
    | none => []
    | some (entry, nxt) => entry :: iterGoBack l fuel nxt

/-- All entries produced by a fresh `self.iter()` driven only backward
(`next_back`).  The fresh iterator's cursor is `head_`, as built by `iter()`. -/
def iter_collect_back {K V : Type} (l : LinkedList K V) : List (K × V) :=
  iterGoBack l (l.nodes_.length + 1) l.head_

namespace PIterator

variable {K V : Type}

/-- `PIterator::get_k`: clone of the key at the current position, via `LinkedList::get`. -/
def get_k (l : LinkedList K V) (current : Nat) : Except MapError K :=
  match l.get current with
  | .ok kv => .ok kv.1
  | .error e => .error e

/-- `PIterator::get_v`: clone of the value at the current position, via `LinkedList::get`. -/
def get_v (l : LinkedList K V) (current : Nat) : Except MapError V :=
  match l.get current with
  | .ok kv => .ok kv.2
  | .error e => .error e

/-- `PIterator::replace_key`: overwrite the key of the node at the current
position in place; silently does nothing when the position does not address a
live node. -/
def replace_key (l : LinkedList K V) (current : Nat) (key : K) :
    Except MapError Unit × LinkedList K V :=
  match l.nodes_[current]? with
  | some (some node) =>
    (.ok (), { l with nodes_ := l.nodes_.set current (some { node with key_ := key }) })
  | _ => (.ok (), l)

/-- `PIterator::next`: move the cursor one step along `next_`; an in-range dead
slot is an error, walking past the end parks the cursor at the sentinel. -/
def next (l : LinkedList K V) (current : Nat) : Except MapError Nat :=
  match l.nodes_[current]? with
  | some (some node) => .ok node.next_
  | some none => .error (.InternalError "next() failed")
  | none => .ok OUT_OF_BOUNDS

/-- `PIterator::prev`: move the cursor one step along `prev_`. -/
def prev (l : LinkedList K V) (current : Nat) : Except MapError Nat :=
  match l.nodes_[current]? with
  | some (some node) => .ok node.prev_
  | some none => .error (.InternalError "prev() failed")
  | none => .ok OUT_OF_BOUNDS

/-- `PIterator::is_ok`: the cursor addresses a live slot. -/
def is_ok (l : LinkedList K V) (current : Nat) : Bool :=
  current ≠ OUT_OF_BOUNDS &&
    match l.nodes_[current]? with
    | some (some _) => true
    | _ => false

/-- `PIterator::remove_current`: remove the node under the cursor, repositioning
the cursor at the former `prev_` when one exists, else at the former `next_`.
Returns the removed entry, the new cursor and the new list state. -/
def remove_current [LinearOrder K] (l : LinkedList K V) (current : Nat) :
    Except MapError ((K × V) × Nat) × LinkedList K V :=
  match LinkedList.remove__ l current with
  | (.ok rv, l1) =>
    (.ok (rv.2.1, if rv.1 ≠ OUT_OF_BOUNDS then rv.1 else rv.2.2), l1)
  | (.error e, l1) => (.error e, l1)

end PIterator

/-! ### The structural invariant

A `LinkedList` state is well formed when some duplicate-free list `c` of slot
indices (`head` to `tail` order) is realized by it: following `next_` from
`head_` walks exactly `c` and falls off at the sentinel after `tail_`, every
`prev_` points back, the live slots are exactly the members of `c`, and the
free stack holds exactly the dead in-range slots. -/

/-- First index of a chain, or the sentinel for the empty chain. -/
def front (c : List Nat) : Nat := c.headD OUT_OF_BOUNDS

/-- Last index of a chain, or the sentinel for the empty chain. -/
def back (c : List Nat) : Nat := c.getLastD OUT_OF_BOUNDS

/-- Does this index address a live (`Some`) slot? -/
def isLive {K V : Type} (nodes : List (Option (Node K V))) (i : Nat) : Bool :=
  match nodes[i]? with
  | some (some _) => true
  | _ => false

/-- Does this index address an in-range dead (`None`) slot? -/
def isTomb {K V : Type} (nodes : List (Option (Node K V))) (i : Nat) : Bool :=
  match nodes[i]? with
  | some none => true
  | _ => false

/-- `segB nodes p c after`: the indices `c` form a doubly linked segment in
`nodes`; the first node's `prev_` is `p`, consecutive nodes point at each
other, and the last node's `next_` is `after`. -/
def segB {K V : Type} (nodes : List (Option (Node K V))) : Nat → List Nat → Nat → Bool
  | _, [], _ => true
  | p, i :: rest, after =>
    match nodes[i]? with
    | some (some nd) => nd.prev_ == p && nd.next_ == rest.headD after && segB nodes i rest after
    | _ => false

/-- `segRB nodes nret c before`: the mirror of `segB` along `prev_` pointers:
the indices `c` (tail-to-head order) form a backward-linked segment, the first
node's `next_` is `nret`, consecutive nodes point at each other via `prev_`,
and the last node's `prev_` is `before`. -/
def segRB {K V : Type} (nodes : List (Option (Node K V))) : Nat → List Nat → Nat → Bool
  | _, [], _ => true
  | nret, i :: rest, before =>
    match nodes[i]? with
    | some (some nd) => nd.next_ == nret && nd.prev_ == rest.headD before && segRB nodes i rest before
    | _ => false

/-- The full well-formedness invariant of a `LinkedList` state with respect to
its head-to-tail index chain `c`. -/
def Realizes {K V : Type} (l : LinkedList K V) (c : List Nat) : Prop :=
  segB l.nodes_ OUT_OF_BOUNDS c OUT_OF_BOUNDS = true ∧
  l.head_ = front c ∧
  l.tail_ = back c ∧
  c.Nodup ∧
  (∀ i, i < l.nodes_.length → (isLive l.nodes_ i = true ↔ i ∈ c)) ∧
  l.id_pool_.Nodup ∧
  (∀ i, i < l.nodes_.length → (isTomb l.nodes_ i = true ↔ i ∈ l.id_pool_)) ∧
  (∀ i ∈ l.id_pool_, i < l.nodes_.length) ∧
  l.nodes_.length < OUT_OF_BOUNDS

/-- The key stored at a slot, when it is live. -/
def keyAt {K V : Type} (nodes : List (Option (Node K V))) (i : Nat) : Option K :=
  match nodes[i]? with
  | some (some nd) => some nd.key_
  | _ => none

/-- The entry stored at a slot, when it is live. -/
def entryAt {K V : Type} (nodes : List (Option (Node K V))) (i : Nat) : Option (K × V) :=
  match nodes[i]? with
  | some (some nd) => some (nd.key_, nd.value_)
  | _ => none

/-- The keys stored along a chain. -/
def chainKeys {K V : Type} (nodes : List (Option (Node K V))) (c : List Nat) : List K :=
  c.filterMap (keyAt nodes)

/-- The entries stored along a chain. -/
def chainEntries {K V : Type} (nodes : List (Option (Node K V))) (c : List Nat) : List (K × V) :=
  c.filterMap (entryAt nodes)

/-- The keys along the chain are strictly increasing (the reject-duplicates
ordered-insert discipline yields distinct keys). -/
def SortedChain {K V : Type} [LinearOrder K] (nodes : List (Option (Node K V))) (c : List Nat) : Prop :=
  List.Chain' (· < ·) (chainKeys nodes c)

/-- Run a sequence of `ordered_insert(key, value)` calls (default head hint)
starting from the empty list, keeping the list state each call leaves behind. -/
def runInserts {K V : Type} [LinearOrder K] (ops : List (K × V)) : LinkedList K V :=
  ops.foldl (fun l kv => (l.ordered_insert kv.1 kv.2).2) LinkedList.default

/-- The states reachable from the empty list through successful public
operations: ordered inserts (any hint, which subsumes `ordered_insert`),
the unordered end inserts, pops, cursor removals and key replacements, and
`clear`.  The arithmetic side condition on the inserts says the arena is not
about to overflow the index space: a Rust `Vec` aborts on capacity overflow
long before `nodes_.len()` can reach `usize::MAX`, so every successful Rust
insert satisfies it. -/
inductive Reachable {K V : Type} [LinearOrder K] : LinkedList K V → Prop where
  | init : Reachable LinkedList.default
  | ordered_insert_pos (l : LinkedList K V) (k : K) (v : V) (pos i : Nat) (l' : LinkedList K V) :
      Reachable l → l.nodes_.length + 1 < OUT_OF_BOUNDS →
      l.ordered_insert_pos k v pos = (.ok i, l') → Reachable l'
  | push_front (l : LinkedList K V) (k : K) (v : V) (i : Nat) (l' : LinkedList K V) :
      Reachable l → l.nodes_.length + 1 < OUT_OF_BOUNDS →
      l.push_front_ k v = (.ok i, l') → Reachable l'
  | push_back (l : LinkedList K V) (k : K) (v : V) (i : Nat) (l' : LinkedList K V) :
      Reachable l → l.nodes_.length + 1 < OUT_OF_BOUNDS →
      l.push_back_ k v = (.ok i, l') → Reachable l'
  | pop_front (l : LinkedList K V) (r : Option (K × V)) (l' : LinkedList K V) :
      Reachable l → l.pop_front = (.ok r, l') → Reachable l'
  | pop_back (l : LinkedList K V) (r : Option (K × V)) (l' : LinkedList K V) :
      Reachable l → l.pop_back = (.ok r, l') → Reachable l'
  | remove_current (l : LinkedList K V) (cur : Nat) (r : (K × V) × Nat) (l' : LinkedList K V) :
      Reachable l → PIterator.remove_current l cur = (.ok r, l') → Reachable l'
  | replace_key (l : LinkedList K V) (cur : Nat) (k : K) :
      Reachable l → Reachable (PIterator.replace_key l cur k).2
  | clear (l : LinkedList K V) :
      Reachable l → Reachable l.clear

/-! ### Basic lemmas about the comparator and chain segments -/

variable {K V : Type}

theorem keyCmp_eq_lt [LinearOrder K] {a b : K} : keyCmp a b = .lt ↔ a < b := by
  unfold keyCmp
  split_ifs with h1 h2 <;> simp_all

theorem keyCmp_eq_eq [LinearOrder K] {a b : K} : keyCmp a b = .eq ↔ a = b := by
  unfold keyCmp
  split_ifs with h1 h2
  · simp [ne_of_lt h1]
  · simp [h2]
  · simp [h2]

theorem keyCmp_eq_gt [LinearOrder K] {a b : K} : keyCmp a b = .gt ↔ b < a := by
  unfold keyCmp
  split_ifs with h1 h2
  · simp [lt_asymm h1]
  · simp [h2, lt_irrefl]
  · simpa using lt_of_le_of_ne (not_lt.mp h1) (fun he => h2 he.symm)

theorem headD_append (a b : List Nat) (d : Nat) : (a ++ b).headD d = a.headD (b.headD d) := by
  cases a <;> simp

theorem getLastD_reverse (l : List Nat) (d : Nat) : l.reverse.getLastD d = l.headD d := by
  rw [List.getLastD_eq_getLast?, List.getLast?_reverse]
  cases l <;> simp

theorem segB_nil {nodes : List (Option (Node K V))} {p after : Nat} :
    segB nodes p [] after = true := rfl

theorem segB_cons {nodes : List (Option (Node K V))} {p i after : Nat} {rest : List Nat} :
    segB nodes p (i :: rest) after =
      match nodes[i]? with
      | some (some nd) => nd.prev_ == p && nd.next_ == rest.headD after && segB nodes i rest after
      | _ => false := rfl

theorem segRB_nil {nodes : List (Option (Node K V))} {p after : Nat} :
    segRB nodes p [] after = true := rfl

theorem segRB_cons {nodes : List (Option (Node K V))} {nret i before : Nat} {rest : List Nat} :
    segRB nodes nret (i :: rest) before =
      match nodes[i]? with
      | some (some nd) =>
        nd.next_ == nret && nd.prev_ == rest.headD before && segRB nodes i rest before
      | _ => false := rfl

theorem segB_append {nodes : List (Option (Node K V))} (p after : Nat) (a b : List Nat) :
    segB nodes p (a ++ b) after =
      (segB nodes p a (b.headD after) && segB nodes (a.getLastD p) b after) := by
  induction a generalizing p with
  | nil => simp [segB]
  | cons x a ih =>
    rw [List.cons_append, segB_cons, segB_cons]
    cases hx : nodes[x]? with
    | none => simp
    | some o =>
      cases o with
      | none => simp
      | some nd =>
        rw [List.getLastD_cons, headD_append, ih]
        simp [Bool.and_assoc]

theorem segRB_append {nodes : List (Option (Node K V))} (nret before : Nat) (a b : List Nat) :
    segRB nodes nret (a ++ b) before =
      (segRB nodes nret a (b.headD before) && segRB nodes (a.getLastD nret) b before) := by
  induction a generalizing nret with
  | nil => simp [segRB]
  | cons x a ih =>
    rw [List.cons_append, segRB_cons, segRB_cons]
    cases hx : nodes[x]? with
    | none => simp
    | some o =>
      cases o with
      | none => simp
      | some nd =>
        rw [List.getLastD_cons, headD_append, ih]
        simp [Bool.and_assoc]

theorem segRB_of_segB {nodes : List (Option (Node K V))} {p after : Nat} {c : List Nat}
    (h : segB nodes p c after = true) : segRB nodes after c.reverse p = true := by
  induction c generalizing p with
  | nil => rfl
  | cons i rest ih =>
    rw [segB_cons] at h
    cases hx : nodes[i]? with
    | none => rw [hx] at h; exact absurd h (by simp)
    | some o =>
      cases o with
      | none => rw [hx] at h; exact absurd h (by simp)
      | some nd =>
        rw [hx] at h
        simp only [Bool.and_eq_true, beq_iff_eq] at h
        obtain ⟨⟨h1, h2⟩, h3⟩ := h
        rw [List.reverse_cons, segRB_append, getLastD_reverse]
        simp only [Bool.and_eq_true]
        refine ⟨ih h3, ?_⟩
        rw [segRB_cons, hx]
        simp [h1, h2, segRB_nil]

theorem segB_set_of_not_mem {nodes : List (Option (Node K V))} {j : Nat}
    {x : Option (Node K V)} {p after : Nat} {c : List Nat} (h : j ∉ c) :
    segB (nodes.set j x) p c after = segB nodes p c after := by
  induction c generalizing p with
  | nil => rfl
  | cons i rest ih =>
    have hji : j ≠ i := fun he => h (he ▸ List.mem_cons_self i rest)
    rw [segB_cons, segB_cons, List.getElem?_set_ne hji,
      ih (fun hm => h (List.mem_cons_of_mem i hm))]

theorem segB_append_nodes {nodes ext : List (Option (Node K V))} {p after : Nat} {c : List Nat}
    (h : ∀ i ∈ c, i < nodes.length) :
    segB (nodes ++ ext) p c after = segB nodes p c after := by
  induction c generalizing p with
  | nil => rfl
  | cons i rest ih =>
    rw [segB_cons, segB_cons, List.getElem?_append_left (h i (List.mem_cons_self i rest)),
      ih (fun m hm => h m (List.mem_cons_of_mem i hm))]

theorem segB_live {nodes : List (Option (Node K V))} {p after : Nat} {c : List Nat}
    (h : segB nodes p c after = true) {i : Nat} (hm : i ∈ c) :
    ∃ nd, nodes[i]? = some (some nd) := by
  induction c generalizing p with
  | nil => cases hm
  | cons x rest ih =>
    rw [segB_cons] at h
    cases hx : nodes[x]? with
    | none => rw [hx] at h; exact absurd h (by simp)
    | some o =>
      cases o with
      | none => rw [hx] at h; exact absurd h (by simp)
      | some nd =>
        rw [hx] at h
        simp only [Bool.and_eq_true] at h
        rcases List.mem_cons.mp hm with he | hm2
        · exact ⟨nd, he ▸ hx⟩
        · exact ih h.2 hm2

theorem segB_lt_length {nodes : List (Option (Node K V))} {p after : Nat} {c : List Nat}
    (h : segB nodes p c after = true) {i : Nat} (hm : i ∈ c) : i < nodes.length := by
  obtain ⟨nd, hnd⟩ := segB_live h hm
  by_contra hlt
  rw [List.getElem?_eq_none (Nat.le_of_not_lt hlt)] at hnd
  cases hnd

theorem segB_node_at {nodes : List (Option (Node K V))} {p after i : Nat} {a b : List Nat}
    (h : segB nodes p (a ++ i :: b) after = true) :
    ∃ nd, nodes[i]? = some (some nd) ∧ nd.prev_ = a.getLastD p ∧ nd.next_ = b.headD after := by
  rw [segB_append] at h
  simp only [Bool.and_eq_true] at h
  have h2 := h.2
  rw [segB_cons] at h2
  cases hx : nodes[i]? with
  | none => rw [hx] at h2; exact absurd h2 (by simp)
  | some o =>
    cases o with
    | none => rw [hx] at h2; exact absurd h2 (by simp)
    | some nd =>
      rw [hx] at h2
      simp only [Bool.and_eq_true, beq_iff_eq] at h2
      exact ⟨nd, rfl, h2.1.1, h2.1.2⟩

/-! ### Lemmas about the invariant -/

theorem Realizes.seg {l : LinkedList K V} {c : List Nat} (h : Realizes l c) :
    segB l.nodes_ OUT_OF_BOUNDS c OUT_OF_BOUNDS = true := h.1

theorem Realizes.headEq {l : LinkedList K V} {c : List Nat} (h : Realizes l c) :
    l.head_ = front c := h.2.1

theorem Realizes.tailEq {l : LinkedList K V} {c : List Nat} (h : Realizes l c) :
    l.tail_ = back c := h.2.2.1

theorem Realizes.nodup {l : LinkedList K V} {c : List Nat} (h : Realizes l c) :
    c.Nodup := h.2.2.2.1

theorem Realizes.live_iff {l : LinkedList K V} {c : List Nat} (h : Realizes l c) :
    ∀ i, i < l.nodes_.length → (isLive l.nodes_ i = true ↔ i ∈ c) := h.2.2.2.2.1

theorem Realizes.poolNodup {l : LinkedList K V} {c : List Nat} (h : Realizes l c) :
    l.id_pool_.Nodup := h.2.2.2.2.2.1

theorem Realizes.tomb_iff {l : LinkedList K V} {c : List Nat} (h : Realizes l c) :
    ∀ i, i < l.nodes_.length → (isTomb l.nodes_ i = true ↔ i ∈ l.id_pool_) := h.2.2.2.2.2.2.1

theorem Realizes.poolLt {l : LinkedList K V} {c : List Nat} (h : Realizes l c) :
    ∀ i ∈ l.id_pool_, i < l.nodes_.length := h.2.2.2.2.2.2.2.1

theorem Realizes.lenLt {l : LinkedList K V} {c : List Nat} (h : Realizes l c) :
    l.nodes_.length < OUT_OF_BOUNDS := h.2.2.2.2.2.2.2.2

theorem Realizes.mem_live {l : LinkedList K V} {c : List Nat} (h : Realizes l c) {i : Nat}
    (hm : i ∈ c) : ∃ nd, l.nodes_[i]? = some (some nd) := segB_live h.seg hm

theorem Realizes.mem_lt {l : LinkedList K V} {c : List Nat} (h : Realizes l c) {i : Nat}
    (hm : i ∈ c) : i < l.nodes_.length := segB_lt_length h.seg hm

theorem Realizes.mem_of_live {l : LinkedList K V} {c : List Nat} (h : Realizes l c) {i : Nat}
    {nd : Node K V} (hnd : l.nodes_[i]? = some (some nd)) : i ∈ c := by
  have hlt : i < l.nodes_.length := by
    by_contra hlt
    rw [List.getElem?_eq_none (Nat.le_of_not_lt hlt)] at hnd
    cases hnd
  exact (h.live_iff i hlt).mp (by unfold isLive; rw [hnd])

theorem Realizes.getElem_OOB {l : LinkedList K V} {c : List Nat} (h : Realizes l c) :
    l.nodes_[OUT_OF_BOUNDS]? = none :=
  List.getElem?_eq_none (Nat.le_of_lt h.lenLt)

theorem Realizes.mem_ne_OOB {l : LinkedList K V} {c : List Nat} (h : Realizes l c) {i : Nat}
    (hm : i ∈ c) : i ≠ OUT_OF_BOUNDS :=
  Nat.ne_of_lt (Nat.lt_of_lt_of_le (h.mem_lt hm) (Nat.le_of_lt h.lenLt))

theorem Realizes.pool_not_mem {l : LinkedList K V} {c : List Nat} (h : Realizes l c) {i : Nat}
    (hp : i ∈ l.id_pool_) : i ∉ c := by
  intro hm
  obtain ⟨nd, hnd⟩ := h.mem_live hm
  have := (h.tomb_iff i (h.poolLt i hp)).mpr hp
  unfold isTomb at this
  rw [hnd] at this
  cases this

theorem Realizes.not_mem_pool {l : LinkedList K V} {c : List Nat} (h : Realizes l c) {i : Nat}
    (hm : i ∈ c) : i ∉ l.id_pool_ := fun hp => h.pool_not_mem hp hm

theorem Realizes.head_mem {l : LinkedList K V} {c : List Nat} (h : Realizes l c)
    (hne : c ≠ []) : l.head_ ∈ c := by
  rw [h.headEq]
  cases c with
  | nil => exact absurd rfl hne
  | cons x rest => exact List.mem_cons_self x rest

theorem Realizes.len_eq {l : LinkedList K V} {c : List Nat} (h : Realizes l c) :
    l.len = c.length := by
  classical
  set n := l.nodes_.length with hn
  have hcfin : c.toFinset = (Finset.range n).filter (fun i => isLive l.nodes_ i = true) := by
    ext i
    simp only [List.mem_toFinset, Finset.mem_filter, Finset.mem_range]
    constructor
    · intro hm
      exact ⟨h.mem_lt hm, (h.live_iff i (h.mem_lt hm)).mpr hm⟩
    · intro ⟨hlt, hl⟩
      exact (h.live_iff i hlt).mp hl
  have hpfin : l.id_pool_.toFinset = (Finset.range n).filter (fun i => ¬ isLive l.nodes_ i = true) := by
    ext i
    simp only [List.mem_toFinset, Finset.mem_filter, Finset.mem_range]
    constructor
    · intro hp
      refine ⟨h.poolLt i hp, ?_⟩
      have := (h.tomb_iff i (h.poolLt i hp)).mpr hp
      unfold isTomb at this
      unfold isLive
      cases hx : l.nodes_[i]? with
      | none => simp
      | some o => cases o with
        | none => simp
        | some nd => rw [hx] at this; exact absurd this (by simp)
    · intro ⟨hlt, hnl⟩
      refine (h.tomb_iff i hlt).mp ?_
      unfold isLive at hnl
      unfold isTomb
      cases hx : l.nodes_[i]? with
      | none =>
        exfalso
        rw [List.getElem?_eq_none_iff] at hx
        exact Nat.not_lt.mpr hx hlt
      | some o => cases o with
        | none => simp
        | some nd => rw [hx] at hnl; simp at hnl
  have hcard : c.length + l.id_pool_.length = n := by
    rw [← List.toFinset_card_of_nodup h.nodup, ← List.toFinset_card_of_nodup h.poolNodup,
      hcfin, hpfin]
    exact Finset.filter_card_add_filter_neg_card_eq_card (fun i => isLive l.nodes_ i = true)
      |>.trans (Finset.card_range n)
  unfold LinkedList.len
  omega

theorem Realizes.chain_len_le {l : LinkedList K V} {c : List Nat} (h : Realizes l c) :
    c.length ≤ l.nodes_.length := by
  have := h.len_eq
  unfold LinkedList.len at this
  omega

theorem Realizes.nil_of_len_zero {l : LinkedList K V} {c : List Nat} (h : Realizes l c)
    (hz : l.len = 0) : c = [] := by
  have := h.len_eq
  rw [hz] at this
  exact List.eq_nil_of_length_eq_zero this.symm

theorem back_mem {c : List Nat} (h : c ≠ []) : back c ∈ c := by
  unfold back
  rw [List.getLastD_eq_getLast? , List.getLast?_eq_getLast c h]
  simp [List.getLast_mem h]

theorem front_mem {c : List Nat} (h : c ≠ []) : front c ∈ c := by
  unfold front
  cases c with
  | nil => exact absurd rfl h
  | cons x rest => exact List.mem_cons_self x rest

/-! ### Allocation lemmas -/

theorem alloc_fst {l : LinkedList K V} : (l.alloc).1 = l.next_free_index := by
  unfold LinkedList.alloc LinkedList.next_free_index
  split <;> rfl

theorem alloc_cases (l : LinkedList K V) :
    (l.id_pool_ = [] ∧ (l.alloc).1 = l.nodes_.length ∧ (l.alloc).2 = []) ∨
    (l.id_pool_ = (l.alloc).2 ++ [(l.alloc).1] ∧ (l.alloc).2 = l.id_pool_.dropLast) := by
  unfold LinkedList.alloc
  by_cases he : l.id_pool_.isEmpty
  · left
    have : l.id_pool_ = [] := List.isEmpty_iff.mp he
    simp [he, this]
  · right
    have hne : l.id_pool_ ≠ [] := fun hh => he (List.isEmpty_iff.mpr hh)
    have hlast : l.id_pool_.getLastD 0 = l.id_pool_.getLast hne := by
      rw [List.getLastD_eq_getLast?, List.getLast?_eq_getLast _ hne]
      rfl
    simp only [he, if_false]
    exact ⟨by rw [hlast]; exact (List.dropLast_append_getLast hne).symm, rfl⟩

theorem alloc_mem_pool {l : LinkedList K V} (hne : l.id_pool_ ≠ []) :
    (l.alloc).1 ∈ l.id_pool_ := by
  rcases alloc_cases l with ⟨h1, _, _⟩ | ⟨h1, _⟩
  · exact absurd h1 hne
  · rw [h1]
    simp

theorem alloc_lt_of_reuse {l : LinkedList K V} {c : List Nat} (h : Realizes l c)
    (hne : l.id_pool_ ≠ []) : (l.alloc).1 < l.nodes_.length :=
  h.poolLt _ (alloc_mem_pool hne)

theorem alloc_le_length {l : LinkedList K V} {c : List Nat} (h : Realizes l c) :
    (l.alloc).1 ≤ l.nodes_.length := by
  rcases alloc_cases l with ⟨_, h2, _⟩ | ⟨h1, _⟩
  · exact le_of_eq h2
  · refine le_of_lt (alloc_lt_of_reuse h ?_)
    rw [h1]
    simp

theorem alloc_not_mem {l : LinkedList K V} {c : List Nat} (h : Realizes l c) :
    (l.alloc).1 ∉ c := by
  rcases alloc_cases l with ⟨_, h2, _⟩ | ⟨h1, _⟩
  · rw [h2]
    intro hm
    exact absurd (h.mem_lt hm) (lt_irrefl _)
  · refine h.pool_not_mem (alloc_mem_pool ?_)
    rw [h1]
    simp

theorem alloc_pool_nodup {l : LinkedList K V} {c : List Nat} (h : Realizes l c) :
    (l.alloc).2.Nodup := by
  rcases alloc_cases l with ⟨_, _, h3⟩ | ⟨_, h2⟩
  · rw [h3]; exact List.nodup_nil
  · rw [h2]
    exact h.poolNodup.sublist (List.dropLast_sublist _)

theorem alloc_pool_lt {l : LinkedList K V} {c : List Nat} (h : Realizes l c) :
    ∀ i ∈ (l.alloc).2, i < l.nodes_.length := by
  intro i hi
  rcases alloc_cases l with ⟨_, _, h3⟩ | ⟨h1, _⟩
  · rw [h3] at hi; cases hi
  · exact h.poolLt i (by rw [h1]; exact List.mem_append_left _ hi)

theorem mem_alloc_pool_iff {l : LinkedList K V} {c : List Nat} (h : Realizes l c) {i : Nat} :
    i ∈ (l.alloc).2 ↔ i ∈ l.id_pool_ ∧ i ≠ (l.alloc).1 := by
  rcases alloc_cases l with ⟨h1, h2, h3⟩ | ⟨h1, h2⟩
  · rw [h3, h1]
    simp
  · have hnd : l.id_pool_.Nodup := h.poolNodup
    rw [h1] at hnd
    constructor
    · intro hm
      refine ⟨by rw [h1]; exact List.mem_append_left _ hm, ?_⟩
      intro he
      rw [List.nodup_append] at hnd
      exact hnd.2.2 (he ▸ hm) (by simp)
    · intro ⟨hm, hne⟩
      rw [h1] at hm
      rcases List.mem_append.mp hm with hm1 | hm1
      · exact hm1
      · simp at hm1
        exact absurd hm1 hne

/-! ### `replace_or_push_` lemmas -/

theorem replace_or_push_fst {l : LinkedList K V} {idx : Nat} {new : Node K V} :
    (l.replace_or_push_ idx new).1 = idx := by
  unfold LinkedList.replace_or_push_
  split <;> rfl

theorem replace_or_push_head {l : LinkedList K V} {idx : Nat} {new : Node K V} :
    ((l.replace_or_push_ idx new).2).head_ = l.head_ := by
  unfold LinkedList.replace_or_push_
  split <;> rfl

theorem replace_or_push_tail {l : LinkedList K V} {idx : Nat} {new : Node K V} :
    ((l.replace_or_push_ idx new).2).tail_ = l.tail_ := by
  unfold LinkedList.replace_or_push_
  split <;> rfl

theorem replace_or_push_pool {l : LinkedList K V} {idx : Nat} {new : Node K V} :
    ((l.replace_or_push_ idx new).2).id_pool_ = l.id_pool_ := by
  unfold LinkedList.replace_or_push_
  split <;> rfl

theorem replace_or_push_self {l : LinkedList K V} {idx : Nat} {new : Node K V}
    (hle : idx ≤ l.nodes_.length) :
    ((l.replace_or_push_ idx new).2).nodes_[idx]? = some (some new) := by
  unfold LinkedList.replace_or_push_
  split
  next h =>
    subst h
    exact List.getElem?_concat_length _ _
  next h =>
    exact List.getElem?_set_self (lt_of_le_of_ne hle h)

theorem replace_or_push_other {l : LinkedList K V} {idx : Nat} {new : Node K V} {j : Nat}
    (hne : j ≠ idx) :
    ((l.replace_or_push_ idx new).2).nodes_[j]? = l.nodes_[j]? := by
  unfold LinkedList.replace_or_push_
  split
  next h =>
    subst h
    rcases Nat.lt_or_ge j l.nodes_.length with hj | hj
    · exact List.getElem?_append_left hj
    · rw [List.getElem?_eq_none hj, List.getElem?_eq_none]
      simp only [List.length_append, List.length_cons, List.length_nil]
      omega
  next h =>
    exact List.getElem?_set_ne (Ne.symm hne)

theorem replace_or_push_length {l : LinkedList K V} {idx : Nat} {new : Node K V} :
    ((l.replace_or_push_ idx new).2).nodes_.length =
      if idx = l.nodes_.length then l.nodes_.length + 1 else l.nodes_.length := by
  unfold LinkedList.replace_or_push_
  split
  next h => simp [h]
  next h => simp

theorem segB_replace_or_push_not_mem {l : LinkedList K V} {idx : Nat} {new : Node K V}
    {p after : Nat} {cs : List Nat} (hnm : idx ∉ cs) (hlt : ∀ i ∈ cs, i < l.nodes_.length) :
    segB ((l.replace_or_push_ idx new).2).nodes_ p cs after = segB l.nodes_ p cs after := by
  unfold LinkedList.replace_or_push_
  split
  next h => exact segB_append_nodes hlt
  next h => exact segB_set_of_not_mem hnm

/-! ### Shared live/tomb/pool bookkeeping after an insertion or an erase -/

theorem insert_bookkeeping {l : LinkedList K V} {c : List Nat} (h : Realizes l c)
    (nodes' : List (Option (Node K V))) (c' : List Nat)
    (hb : l.id_pool_.isEmpty = true → l.nodes_.length + 1 < OUT_OF_BOUNDS)
    (hlen : nodes'.length = if l.id_pool_.isEmpty then l.nodes_.length + 1 else l.nodes_.length)
    (hidx : isLive nodes' (l.alloc).1 = true)
    (hsame : ∀ j, j ≠ (l.alloc).1 →
      isLive nodes' j = isLive l.nodes_ j ∧ isTomb nodes' j = isTomb l.nodes_ j)
    (hc' : ∀ j, j ∈ c' ↔ j ∈ c ∨ j = (l.alloc).1) :
    (∀ i, i < nodes'.length → (isLive nodes' i = true ↔ i ∈ c')) ∧
    (∀ i, i < nodes'.length → (isTomb nodes' i = true ↔ i ∈ (l.alloc).2)) ∧
    (l.alloc).2.Nodup ∧
    (∀ i ∈ (l.alloc).2, i < nodes'.length) ∧
    nodes'.length < OUT_OF_BOUNDS := by
  have hlen_le : l.nodes_.length ≤ nodes'.length := by
    rw [hlen]; split <;> omega
  refine ⟨?_, ?_, alloc_pool_nodup h, ?_, ?_⟩
  · intro i hi
    by_cases hii : i = (l.alloc).1
    · subst hii
      simp [hidx, (hc' _).mpr (Or.inr rfl)]
    · have hilt : i < l.nodes_.length := by
        rcases alloc_cases l with ⟨h1, h2, _⟩ | ⟨h1, _⟩
        · have : l.id_pool_.isEmpty := by rw [h1]; rfl
          rw [hlen, if_pos this] at hi
          omega
        · have : ¬ l.id_pool_.isEmpty := by
            intro hh
            rw [List.isEmpty_iff.mp hh] at h1
            exact absurd h1.symm (by simp)
          rw [hlen, if_neg this] at hi
          exact hi
      rw [(hsame i hii).1, h.live_iff i hilt, hc' i]
      constructor
      · exact Or.inl
      · rintro (hm | he)
        · exact hm
        · exact absurd he hii
  · intro i hi
    by_cases hii : i = (l.alloc).1
    · subst hii
      have : isTomb nodes' (l.alloc).1 = false := by
        unfold isLive at hidx
        unfold isTomb
        cases hx : nodes'[(l.alloc).1]? with
        | none => rfl
        | some o => cases o with
          | none => rw [hx] at hidx; exact absurd hidx (by simp)
          | some nd => rfl
      rw [this]
      simp only [Bool.false_eq_true, false_iff]
      intro hm
      exact absurd rfl (((mem_alloc_pool_iff h).mp hm).2)
    · rcases Nat.lt_or_ge i l.nodes_.length with hilt | hige
      · rw [(hsame i hii).2, h.tomb_iff i hilt, mem_alloc_pool_iff h]
        exact ⟨fun hm => ⟨hm, hii⟩, fun hm => hm.1⟩
      · have : isTomb nodes' i = isTomb l.nodes_ i := (hsame i hii).2
        rw [this]
        unfold isTomb
        rw [List.getElem?_eq_none hige]
        simp only [Bool.false_eq_true, false_iff]
        intro hm
        exact absurd (h.poolLt i (((mem_alloc_pool_iff h).mp hm).1)) (Nat.not_lt.mpr hige)
  · intro i hi
    exact lt_of_lt_of_le (alloc_pool_lt h i hi) hlen_le
  · rw [hlen]
    split
    next he => exact hb he
    next he => exact h.lenLt

theorem back_eq_getLast {c : List Nat} (h : c ≠ []) : back c = c.getLast h := by
  unfold back
  rw [List.getLastD_eq_getLast?, List.getLast?_eq_getLast _ h]
  rfl

theorem chain_decomp_back {c : List Nat} (h : c ≠ []) : c = c.dropLast ++ [back c] := by
  rw [back_eq_getLast h]
  exact (List.dropLast_append_getLast h).symm

theorem front_append {c : List Nat} (h : c ≠ []) (d : List Nat) : front (c ++ d) = front c := by
  cases c with
  | nil => exact absurd rfl h
  | cons x rest => rfl

theorem back_not_mem_dropLast {c : List Nat} (hnd : c.Nodup) (h : c ≠ []) :
    back c ∉ c.dropLast := by
  intro hm
  have hd := chain_decomp_back h
  rw [hd, List.nodup_append] at hnd
  exact hnd.2.2 hm (by simp)

theorem alloc_eq_length_iff {l : LinkedList K V} {c : List Nat} (h : Realizes l c) :
    (l.alloc).1 = l.nodes_.length ↔ l.id_pool_.isEmpty = true := by
  rcases alloc_cases l with ⟨h1, h2, _⟩ | ⟨h1, _⟩
  · simp [h2, List.isEmpty_iff, h1]
  · have hne : l.id_pool_ ≠ [] := by rw [h1]; simp
    have hlt := alloc_lt_of_reuse h hne
    constructor
    · intro he
      exact absurd he (Nat.ne_of_lt hlt)
    · intro he
      exact absurd (List.isEmpty_iff.mp he) hne

theorem isLive_congr {nodes nodes2 : List (Option (Node K V))} {j : Nat}
    (h : nodes[j]? = nodes2[j]?) : isLive nodes j = isLive nodes2 j := by
  unfold isLive
  rw [h]

theorem isTomb_congr {nodes nodes2 : List (Option (Node K V))} {j : Nat}
    (h : nodes[j]? = nodes2[j]?) : isTomb nodes j = isTomb nodes2 j := by
  unfold isTomb
  rw [h]

theorem keyAt_congr {nodes nodes2 : List (Option (Node K V))} {j : Nat}
    (h : nodes[j]? = nodes2[j]?) : keyAt nodes j = keyAt nodes2 j := by
  unfold keyAt
  rw [h]

theorem erase_bookkeeping {l : LinkedList K V} {c : List Nat} (h : Realizes l c)
    (nodes' : List (Option (Node K V))) (c' : List Nat) {i : Nat} (hi : i ∈ c)
    (hlen : nodes'.length = l.nodes_.length)
    (hdead : isLive nodes' i = false ∧ isTomb nodes' i = true)
    (hsame : ∀ j, j ≠ i →
      isLive nodes' j = isLive l.nodes_ j ∧ isTomb nodes' j = isTomb l.nodes_ j)
    (hc' : ∀ j, j ∈ c' ↔ j ∈ c ∧ j ≠ i) :
    (∀ m, m < nodes'.length → (isLive nodes' m = true ↔ m ∈ c')) ∧
    (∀ m, m < nodes'.length → (isTomb nodes' m = true ↔ m ∈ l.id_pool_ ++ [i])) ∧
    (l.id_pool_ ++ [i]).Nodup ∧
    (∀ m ∈ l.id_pool_ ++ [i], m < nodes'.length) ∧
    nodes'.length < OUT_OF_BOUNDS := by
  refine ⟨?_, ?_, ?_, ?_, by rw [hlen]; exact h.lenLt⟩
  · intro m hm
    by_cases hmi : m = i
    · subst hmi
      rw [hdead.1]
      simp only [Bool.false_eq_true, false_iff]
      intro hmem
      exact absurd rfl ((hc' m).mp hmem).2
    · rw [(hsame m hmi).1, h.live_iff m (hlen ▸ hm), hc' m]
      exact ⟨fun hx => ⟨hx, hmi⟩, fun hx => hx.1⟩
  · intro m hm
    by_cases hmi : m = i
    · subst hmi
      rw [hdead.2]
      simp
    · rw [(hsame m hmi).2, h.tomb_iff m (hlen ▸ hm)]
      simp only [List.mem_append, List.mem_singleton]
      exact ⟨Or.inl, fun hx => hx.resolve_right hmi⟩
  · rw [List.nodup_append]
    exact ⟨h.poolNodup, List.nodup_singleton i,
      fun a ha hb => by simp at hb; exact h.pool_not_mem ha (hb ▸ hi)⟩
  · intro m hm
    rw [hlen]
    rcases List.mem_append.mp hm with hm1 | hm1
    · exact h.poolLt m hm1
    · simp at hm1
      exact hm1 ▸ h.mem_lt hi

/-! ### `push_back_` -/

theorem push_back_spec {l : LinkedList K V} {c : List Nat} (h : Realizes l c) (k : K) (v : V)
    (hb : l.id_pool_.isEmpty = true → l.nodes_.length + 1 < OUT_OF_BOUNDS) :
    ∃ l', l.push_back_ k v = (.ok (l.alloc).1, l') ∧
      Realizes l' (c ++ [(l.alloc).1]) ∧
      l'.nodes_[(l.alloc).1]? = some (some ⟨back c, OUT_OF_BOUNDS, k, v⟩) ∧
      (∀ j, j ≠ (l.alloc).1 → keyAt l'.nodes_ j = keyAt l.nodes_ j) ∧
      l'.nodes_.length ≤ l.nodes_.length + 1 := by
  have hle : (l.alloc).1 ≤ l.nodes_.length := alloc_le_length h
  have hnm : (l.alloc).1 ∉ c := alloc_not_mem h
  by_cases hc : c = []
  · subst hc
    have hget : l.nodes_[l.tail_]? = none := by
      rw [h.tailEq]; exact h.getElem_OOB
    set l2 : LinkedList K V :=
      { head_ := (l.alloc).1, tail_ := (l.alloc).1, nodes_ := l.nodes_,
        id_pool_ := (l.alloc).2 } with hl2
    set nn : Node K V := ⟨OUT_OF_BOUNDS, OUT_OF_BOUNDS, k, v⟩ with hnn
    have hstep : l.push_back_ k v =
        (.ok (l2.replace_or_push_ (l.alloc).1 nn).1, (l2.replace_or_push_ (l.alloc).1 nn).2) := by
      unfold LinkedList.push_back_
      simp only [hget]
    have hself : ((l2.replace_or_push_ (l.alloc).1 nn).2).nodes_[(l.alloc).1]? =
        some (some nn) := replace_or_push_self hle
    have hother : ∀ j, j ≠ (l.alloc).1 →
        ((l2.replace_or_push_ (l.alloc).1 nn).2).nodes_[j]? = l.nodes_[j]? :=
      fun j hj => replace_or_push_other hj
    have hlen : ((l2.replace_or_push_ (l.alloc).1 nn).2).nodes_.length =
        if l.id_pool_.isEmpty then l.nodes_.length + 1 else l.nodes_.length := by
      by_cases hpe : l.id_pool_.isEmpty
      · rw [if_pos hpe, replace_or_push_length, if_pos ((alloc_eq_length_iff h).mpr hpe)]
      · rw [if_neg hpe, replace_or_push_length, if_neg (fun hh => hpe ((alloc_eq_length_iff h).mp hh))]
    obtain ⟨hlive, htomb, hpnd, hplt, hlenlt⟩ :=
      insert_bookkeeping h ((l2.replace_or_push_ (l.alloc).1 nn).2).nodes_ ([] ++ [(l.alloc).1]) hb hlen
        (by unfold isLive; rw [hself])
        (fun j hj => ⟨isLive_congr (hother j hj), isTomb_congr (hother j hj)⟩)
        (by intro j; simp)
    have hpool : ((l2.replace_or_push_ (l.alloc).1 nn).2).id_pool_ = (l.alloc).2 :=
      replace_or_push_pool
    refine ⟨(l2.replace_or_push_ (l.alloc).1 nn).2, by rw [hstep, replace_or_push_fst], ?_, ?_, ?_, ?_⟩
    · refine ⟨?_, ?_, ?_, by simp, hlive, by rw [hpool]; exact hpnd, ?_, ?_, hlenlt⟩
      · rw [List.nil_append, segB_cons, hself]
        simp [segB_nil]
      · rw [replace_or_push_head]
        rfl
      · rw [replace_or_push_tail]
        rfl
      · rw [hpool]
        exact htomb
      · rw [hpool]
        exact hplt
    · exact hself
    · exact fun j hj => keyAt_congr (hother j hj)
    · have hl2len : l2.nodes_.length = l.nodes_.length := rfl
      rw [replace_or_push_length, hl2len]
      split <;> omega
  · have hdec : c = c.dropLast ++ [back c] := chain_decomp_back hc
    have htmem : back c ∈ c := back_mem hc
    have htlt : back c < l.nodes_.length := h.mem_lt htmem
    have hidxt : (l.alloc).1 ≠ back c := fun he => hnm (he ▸ htmem)
    obtain ⟨pt, hpt, hptprev, hptnext⟩ : ∃ nd, l.nodes_[back c]? = some (some nd) ∧
        nd.prev_ = (c.dropLast).getLastD OUT_OF_BOUNDS ∧ nd.next_ = OUT_OF_BOUNDS := by
      have hseg := h.seg
      rw [hdec] at hseg
      obtain ⟨nd, h1, h2, h3⟩ := segB_node_at hseg
      exact ⟨nd, h1, h2, by simpa using h3⟩
    have hget : l.nodes_[l.tail_]? = some (some pt) := by rw [h.tailEq]; exact hpt
    set l2 : LinkedList K V :=
      { head_ := l.head_, tail_ := (l.alloc).1,
        nodes_ := l.nodes_.set l.tail_ (some { pt with next_ := (l.alloc).1 }),
        id_pool_ := (l.alloc).2 } with hl2
    set nn : Node K V := ⟨l.tail_, OUT_OF_BOUNDS, k, v⟩ with hnn
    have hl2len : l2.nodes_.length = l.nodes_.length := by
      rw [hl2]
      simp
    have hstep : l.push_back_ k v =
        (.ok (l2.replace_or_push_ (l.alloc).1 nn).1, (l2.replace_or_push_ (l.alloc).1 nn).2) := by
      unfold LinkedList.push_back_
      simp only [hget]
    have hle2 : (l.alloc).1 ≤ l2.nodes_.length := by rw [hl2len]; exact hle
    have hself : ((l2.replace_or_push_ (l.alloc).1 nn).2).nodes_[(l.alloc).1]? =
        some (some nn) := replace_or_push_self hle2
    have htailset : l2.nodes_[back c]? = some (some { pt with next_ := (l.alloc).1 }) := by
      rw [hl2]
      simp only []
      rw [h.tailEq]
      exact List.getElem?_set_self htlt
    have hatt : ((l2.replace_or_push_ (l.alloc).1 nn).2).nodes_[back c]? =
        some (some { pt with next_ := (l.alloc).1 }) := by
      rw [replace_or_push_other (Ne.symm (Ne.symm hidxt)).symm]
      · exact htailset
    have hother : ∀ j, j ≠ (l.alloc).1 → j ≠ back c →
        ((l2.replace_or_push_ (l.alloc).1 nn).2).nodes_[j]? = l.nodes_[j]? := by
      intro j hj1 hj2
      rw [replace_or_push_other hj1, hl2]
      simp only []
      rw [h.tailEq]
      exact List.getElem?_set_ne (Ne.symm hj2)
    have hlen : ((l2.replace_or_push_ (l.alloc).1 nn).2).nodes_.length =
        if l.id_pool_.isEmpty then l.nodes_.length + 1 else l.nodes_.length := by
      by_cases hpe : l.id_pool_.isEmpty
      · rw [if_pos hpe, replace_or_push_length, hl2len, if_pos ((alloc_eq_length_iff h).mpr hpe)]
      · rw [if_neg hpe, replace_or_push_length, hl2len,
          if_neg (fun hh => hpe ((alloc_eq_length_iff h).mp hh))]
    have hsame : ∀ j, j ≠ (l.alloc).1 →
        isLive ((l2.replace_or_push_ (l.alloc).1 nn).2).nodes_ j = isLive l.nodes_ j ∧
        isTomb ((l2.replace_or_push_ (l.alloc).1 nn).2).nodes_ j = isTomb l.nodes_ j := by
      intro j hj
      by_cases hjt : j = back c
      · subst hjt
        constructor
        · unfold isLive
          rw [hatt, hpt]
        · unfold isTomb
          rw [hatt, hpt]
      · exact ⟨isLive_congr (hother j hj hjt), isTomb_congr (hother j hj hjt)⟩
    obtain ⟨hlive, htomb, hpnd, hplt, hlenlt⟩ :=
      insert_bookkeeping h ((l2.replace_or_push_ (l.alloc).1 nn).2).nodes_ (c ++ [(l.alloc).1]) hb hlen
        (by unfold isLive; rw [hself]) hsame (by intro j; simp)
    have hseg' : segB ((l2.replace_or_push_ (l.alloc).1 nn).2).nodes_ OUT_OF_BOUNDS
        (c ++ [(l.alloc).1]) OUT_OF_BOUNDS = true := by
      rw [segB_append]
      simp only [List.headD_cons, Bool.and_eq_true]
      constructor
      · -- the old chain, with the tail's next_ repointed at the new slot
        conv_lhs => rw [hdec]
        rw [segB_append]
        simp only [List.headD_cons, Bool.and_eq_true]
        constructor
        · -- the prefix before the old tail is untouched
          have hpre : segB l.nodes_ OUT_OF_BOUNDS c.dropLast (back c) = true := by
            have hseg := h.seg
            rw [hdec, segB_append] at hseg
            simp only [Bool.and_eq_true] at hseg
            have := hseg.1
            simpa using this
          have hnm1 : (l.alloc).1 ∉ c.dropLast := fun hm =>
            hnm (hdec ▸ List.mem_append_left _ hm)
          have hnm2 : back c ∉ c.dropLast := back_not_mem_dropLast h.nodup hc
          have hlt1 : ∀ i ∈ c.dropLast, i < l2.nodes_.length := by
            intro i hi
            rw [hl2len]
            exact h.mem_lt (hdec ▸ List.mem_append_left _ hi)
          rw [segB_replace_or_push_not_mem hnm1 hlt1]
          have : segB l2.nodes_ OUT_OF_BOUNDS c.dropLast (back c) =
              segB l.nodes_ OUT_OF_BOUNDS c.dropLast (back c) := by
            rw [hl2]
            simp only []
            rw [h.tailEq]
            exact segB_set_of_not_mem hnm2
          rw [this]
          simpa using hpre
        · -- the old tail now points at the new slot
          rw [segB_cons, hatt]
          simp [segB_nil, hptprev]
      · -- the new node closes the chain
        rw [segB_cons, hself]
        simp only [hnn]
        rw [h.tailEq]
        simp [segB_nil, back]
    have hpool : ((l2.replace_or_push_ (l.alloc).1 nn).2).id_pool_ = (l.alloc).2 :=
      replace_or_push_pool
    refine ⟨(l2.replace_or_push_ (l.alloc).1 nn).2, by rw [hstep, replace_or_push_fst], ?_, ?_, ?_, ?_⟩
    · refine ⟨hseg', ?_, ?_, ?_, hlive, by rw [hpool]; exact hpnd, ?_, ?_, hlenlt⟩
      · rw [replace_or_push_head, front_append hc]
        exact h.headEq
      · rw [replace_or_push_tail]
        unfold back
        rw [List.getLastD_concat]
      · rw [List.nodup_append]
        exact ⟨h.nodup, List.nodup_singleton _, fun a ha hb2 => by
          simp at hb2; exact hnm (hb2 ▸ ha)⟩
      · rw [hpool]
        exact htomb
      · rw [hpool]
        exact hplt
    · have : (⟨back c, OUT_OF_BOUNDS, k, v⟩ : Node K V) = nn := by
        rw [hnn, h.tailEq]
      rw [this]
      exact hself
    · intro j hj
      by_cases hjt : j = back c
      · subst hjt
        have h1 : keyAt ((l2.replace_or_push_ (l.alloc).1 nn).2).nodes_ (back c) =
            some pt.key_ := by
          unfold keyAt
          rw [hatt]
        have h2 : keyAt l.nodes_ (back c) = some pt.key_ := by
          unfold keyAt
          rw [hpt]
        rw [h1, h2]
      · exact keyAt_congr (hother j hj hjt)
    · rw [replace_or_push_length, hl2len]
      split <;> omega

/-! ### `push_front_` -/

theorem getLastD_of_ne_nil {c : List Nat} (h : c ≠ []) (d d' : Nat) :
    c.getLastD d = c.getLastD d' := by
  rw [List.getLastD_eq_getLast?, List.getLastD_eq_getLast?, List.getLast?_eq_getLast _ h]
  rfl

theorem back_cons {x : Nat} {c : List Nat} (h : c ≠ []) : back (x :: c) = back c := by
  unfold back
  rw [List.getLastD_cons]
  exact getLastD_of_ne_nil h x OUT_OF_BOUNDS

theorem push_front_spec {l : LinkedList K V} {c : List Nat} (h : Realizes l c) (k : K) (v : V)
    (hb : l.id_pool_.isEmpty = true → l.nodes_.length + 1 < OUT_OF_BOUNDS) :
    ∃ l', l.push_front_ k v = (.ok (l.alloc).1, l') ∧
      Realizes l' ((l.alloc).1 :: c) ∧
      l'.nodes_[(l.alloc).1]? = some (some ⟨OUT_OF_BOUNDS, front c, k, v⟩) ∧
      (∀ j, j ≠ (l.alloc).1 → keyAt l'.nodes_ j = keyAt l.nodes_ j) ∧
      l'.nodes_.length ≤ l.nodes_.length + 1 := by
  have hle : (l.alloc).1 ≤ l.nodes_.length := alloc_le_length h
  have hnm : (l.alloc).1 ∉ c := alloc_not_mem h
  by_cases hc : c = []
  · subst hc
    have hget : l.nodes_[l.head_]? = none := by
      rw [h.headEq]; exact h.getElem_OOB
    set l2 : LinkedList K V :=
      { head_ := (l.alloc).1, tail_ := (l.alloc).1, nodes_ := l.nodes_,
        id_pool_ := (l.alloc).2 } with hl2
    set nn : Node K V := ⟨OUT_OF_BOUNDS, OUT_OF_BOUNDS, k, v⟩ with hnn
    have hstep : l.push_front_ k v =
        (.ok (l2.replace_or_push_ (l.alloc).1 nn).1, (l2.replace_or_push_ (l.alloc).1 nn).2) := by
      unfold LinkedList.push_front_
      simp only [hget]
    have hself : ((l2.replace_or_push_ (l.alloc).1 nn).2).nodes_[(l.alloc).1]? =
        some (some nn) := replace_or_push_self hle
    have hother : ∀ j, j ≠ (l.alloc).1 →
        ((l2.replace_or_push_ (l.alloc).1 nn).2).nodes_[j]? = l.nodes_[j]? :=
      fun j hj => replace_or_push_other hj
    have hlen : ((l2.replace_or_push_ (l.alloc).1 nn).2).nodes_.length =
        if l.id_pool_.isEmpty then l.nodes_.length + 1 else l.nodes_.length := by
      by_cases hpe : l.id_pool_.isEmpty
      · rw [if_pos hpe, replace_or_push_length, if_pos ((alloc_eq_length_iff h).mpr hpe)]
      · rw [if_neg hpe, replace_or_push_length, if_neg (fun hh => hpe ((alloc_eq_length_iff h).mp hh))]
    obtain ⟨hlive, htomb, hpnd, hplt, hlenlt⟩ :=
      insert_bookkeeping h ((l2.replace_or_push_ (l.alloc).1 nn).2).nodes_ ([(l.alloc).1]) hb hlen
        (by unfold isLive; rw [hself])
        (fun j hj => ⟨isLive_congr (hother j hj), isTomb_congr (hother j hj)⟩)
        (by intro j; simp)
    have hpool : ((l2.replace_or_push_ (l.alloc).1 nn).2).id_pool_ = (l.alloc).2 :=
      replace_or_push_pool
    refine ⟨(l2.replace_or_push_ (l.alloc).1 nn).2, by rw [hstep, replace_or_push_fst], ?_, ?_, ?_, ?_⟩
    · refine ⟨?_, ?_, ?_, by simp, hlive, by rw [hpool]; exact hpnd, ?_, ?_, hlenlt⟩
      · rw [segB_cons, hself]
        simp [segB_nil]
      · rw [replace_or_push_head]
        rfl
      · rw [replace_or_push_tail]
        rfl
      · rw [hpool]
        exact htomb
      · rw [hpool]
        exact hplt
    · exact hself
    · exact fun j hj => keyAt_congr (hother j hj)
    · have hl2len : l2.nodes_.length = l.nodes_.length := rfl
      rw [replace_or_push_length, hl2len]
      split <;> omega
  · obtain ⟨f, c1, rfl⟩ : ∃ f c1, c = f :: c1 := by
      cases c with
      | nil => exact absurd rfl hc
      | cons f c1 => exact ⟨f, c1, rfl⟩
    have hfmem : f ∈ f :: c1 := List.mem_cons_self f c1
    have hflt : f < l.nodes_.length := h.mem_lt hfmem
    have hidxf : (l.alloc).1 ≠ f := fun he => hnm (he ▸ hfmem)
    obtain ⟨pf, hpf, hpfprev, hpfnext, hrest⟩ : ∃ nd, l.nodes_[f]? = some (some nd) ∧
        nd.prev_ = OUT_OF_BOUNDS ∧ nd.next_ = c1.headD OUT_OF_BOUNDS ∧
        segB l.nodes_ f c1 OUT_OF_BOUNDS = true := by
      have hseg := h.seg
      rw [segB_cons] at hseg
      cases hx : l.nodes_[f]? with
      | none => rw [hx] at hseg; exact absurd hseg (by simp)
      | some o => cases o with
        | none => rw [hx] at hseg; exact absurd hseg (by simp)
        | some nd =>
          rw [hx] at hseg
          simp only [Bool.and_eq_true, beq_iff_eq] at hseg
          exact ⟨nd, rfl, hseg.1.1, hseg.1.2, hseg.2⟩
    have hget : l.nodes_[l.head_]? = some (some pf) := by
      rw [h.headEq]; exact hpf
    set l2 : LinkedList K V :=
      { head_ := (l.alloc).1, tail_ := l.tail_,
        nodes_ := l.nodes_.set l.head_ (some { pf with prev_ := (l.alloc).1 }),
        id_pool_ := (l.alloc).2 } with hl2
    set nn : Node K V := ⟨OUT_OF_BOUNDS, l.head_, k, v⟩ with hnn
    have hl2len : l2.nodes_.length = l.nodes_.length := by
      rw [hl2]
      simp
    have hstep : l.push_front_ k v =
        (.ok (l2.replace_or_push_ (l.alloc).1 nn).1, (l2.replace_or_push_ (l.alloc).1 nn).2) := by
      unfold LinkedList.push_front_
      simp only [hget]
    have hle2 : (l.alloc).1 ≤ l2.nodes_.length := by rw [hl2len]; exact hle
    have hself : ((l2.replace_or_push_ (l.alloc).1 nn).2).nodes_[(l.alloc).1]? =
        some (some nn) := replace_or_push_self hle2
    have hatf : ((l2.replace_or_push_ (l.alloc).1 nn).2).nodes_[f]? =
        some (some { pf with prev_ := (l.alloc).1 }) := by
      rw [replace_or_push_other (Ne.symm hidxf)]
      · rw [hl2]
        simp only []
        rw [h.headEq]
        exact List.getElem?_set_self hflt
    have hother : ∀ j, j ≠ (l.alloc).1 → j ≠ f →
        ((l2.replace_or_push_ (l.alloc).1 nn).2).nodes_[j]? = l.nodes_[j]? := by
      intro j hj1 hj2
      rw [replace_or_push_other hj1, hl2]
      simp only []
      rw [h.headEq]
      exact List.getElem?_set_ne (Ne.symm hj2)
    have hlen : ((l2.replace_or_push_ (l.alloc).1 nn).2).nodes_.length =
        if l.id_pool_.isEmpty then l.nodes_.length + 1 else l.nodes_.length := by
      by_cases hpe : l.id_pool_.isEmpty
      · rw [if_pos hpe, replace_or_push_length, hl2len, if_pos ((alloc_eq_length_iff h).mpr hpe)]
      · rw [if_neg hpe, replace_or_push_length, hl2len,
          if_neg (fun hh => hpe ((alloc_eq_length_iff h).mp hh))]
    have hsame : ∀ j, j ≠ (l.alloc).1 →
        isLive ((l2.replace_or_push_ (l.alloc).1 nn).2).nodes_ j = isLive l.nodes_ j ∧
        isTomb ((l2.replace_or_push_ (l.alloc).1 nn).2).nodes_ j = isTomb l.nodes_ j := by
      intro j hj
      by_cases hjf : j = f
      · subst hjf
        constructor
        · unfold isLive
          rw [hatf, hpf]
        · unfold isTomb
          rw [hatf, hpf]
      · exact ⟨isLive_congr (hother j hj hjf), isTomb_congr (hother j hj hjf)⟩
    obtain ⟨hlive, htomb, hpnd, hplt, hlenlt⟩ :=
      insert_bookkeeping h ((l2.replace_or_push_ (l.alloc).1 nn).2).nodes_ ((l.alloc).1 :: f :: c1) hb hlen
        (by unfold isLive; rw [hself]) hsame
        (by intro j; simp; tauto)
    have hseg' : segB ((l2.replace_or_push_ (l.alloc).1 nn).2).nodes_ OUT_OF_BOUNDS
        ((l.alloc).1 :: f :: c1) OUT_OF_BOUNDS = true := by
      rw [segB_cons, hself]
      simp only [List.headD_cons, Bool.and_eq_true, beq_iff_eq]
      refine ⟨⟨?_, ?_⟩, ?_⟩
      · trivial
      · exact h.headEq
      rw [segB_cons, hatf]
      simp only [Bool.and_eq_true, beq_iff_eq]
      refine ⟨⟨?_, ?_⟩, ?_⟩
      · trivial
      · exact hpfnext
      have hfnm : f ∉ c1 := by
        have := h.nodup
        rw [List.nodup_cons] at this
        exact this.1
      have hnm1 : (l.alloc).1 ∉ c1 := fun hm => hnm (List.mem_cons_of_mem f hm)
      have hlt1 : ∀ i ∈ c1, i < l2.nodes_.length := by
        intro i hi
        rw [hl2len]
        exact h.mem_lt (List.mem_cons_of_mem f hi)
      rw [segB_replace_or_push_not_mem hnm1 hlt1]
      have : segB l2.nodes_ f c1 OUT_OF_BOUNDS = segB l.nodes_ f c1 OUT_OF_BOUNDS := by
        rw [hl2]
        simp only []
        rw [h.headEq]
        exact segB_set_of_not_mem hfnm
      rw [this]
      exact hrest
    have hpool : ((l2.replace_or_push_ (l.alloc).1 nn).2).id_pool_ = (l.alloc).2 :=
      replace_or_push_pool
    refine ⟨(l2.replace_or_push_ (l.alloc).1 nn).2, by rw [hstep, replace_or_push_fst], ?_, ?_, ?_, ?_⟩
    · refine ⟨hseg', ?_, ?_, ?_, hlive, by rw [hpool]; exact hpnd, ?_, ?_, hlenlt⟩
      · rw [replace_or_push_head]
        rfl
      · rw [replace_or_push_tail]
        rw [back_cons (by simp : (f :: c1) ≠ [])]
        exact h.tailEq
      · rw [List.nodup_cons]
        exact ⟨hnm, h.nodup⟩
      · rw [hpool]
        exact htomb
      · rw [hpool]
        exact hplt
    · have : (⟨OUT_OF_BOUNDS, front (f :: c1), k, v⟩ : Node K V) = nn := by
        rw [hnn, h.headEq]
      rw [this]
      exact hself
    · intro j hj
      by_cases hjf : j = f
      · rw [hjf]
        have h1 : keyAt ((l2.replace_or_push_ (l.alloc).1 nn).2).nodes_ f = some pf.key_ := by
          unfold keyAt
          rw [hatf]
        have h2 : keyAt l.nodes_ f = some pf.key_ := by
          unfold keyAt
          rw [hpf]
        rw [h1, h2]
      · exact keyAt_congr (hother j hj hjf)
    · rw [replace_or_push_length, hl2len]
      split <;> omega

/-! ### `insert_before_` at a chain member -/

theorem back_append {x y : List Nat} (h : y ≠ []) : back (x ++ y) = back y := by
  unfold back
  rw [List.getLastD_eq_getLast?, List.getLastD_eq_getLast?, List.getLast?_append_of_ne_nil x h]


theorem insert_before_spec {l : LinkedList K V} {c a b : List Nat} {j : Nat}
    (h : Realizes l c) (hdec : c = a ++ j :: b) (k : K) (v : V)
    (hb : l.id_pool_.isEmpty = true → l.nodes_.length + 1 < OUT_OF_BOUNDS) :
    ∃ l', l.insert_before_ j k v = (.ok (l.alloc).1, l') ∧
      Realizes l' (a ++ (l.alloc).1 :: j :: b) ∧
      keyAt l'.nodes_ (l.alloc).1 = some k ∧
      (∀ m, m ≠ (l.alloc).1 → keyAt l'.nodes_ m = keyAt l.nodes_ m) ∧
      l'.nodes_.length ≤ l.nodes_.length + 1 := by
  have hle : (l.alloc).1 ≤ l.nodes_.length := alloc_le_length h
  have hjmem : j ∈ c := by rw [hdec]; exact List.mem_append_right _ (List.mem_cons_self j b)
  have hnm : (l.alloc).1 ∉ c := alloc_not_mem h
  have hidxj : (l.alloc).1 ≠ j := fun he => hnm (he ▸ hjmem)
  have hjOOB : j ≠ OUT_OF_BOUNDS := h.mem_ne_OOB hjmem
  have hjlt : j < l.nodes_.length := h.mem_lt hjmem
  have hndc := h.nodup
  rw [hdec, List.nodup_append] at hndc
  have hjb : j ∉ b := by
    have := hndc.2.1
    rw [List.nodup_cons] at this
    exact this.1
  have hib : (l.alloc).1 ∉ b := fun hm =>
    hnm (hdec ▸ List.mem_append_right _ (List.mem_cons_of_mem j hm))
  obtain ⟨nj, hnj, hnjprev, hnjnext⟩ : ∃ nd, l.nodes_[j]? = some (some nd) ∧
      nd.prev_ = a.getLastD OUT_OF_BOUNDS ∧ nd.next_ = b.headD OUT_OF_BOUNDS := by
    have hseg := h.seg
    rw [hdec] at hseg
    exact segB_node_at hseg
  have hsegsplit : segB l.nodes_ OUT_OF_BOUNDS a j = true ∧
      segB l.nodes_ (a.getLastD OUT_OF_BOUNDS) (j :: b) OUT_OF_BOUNDS = true := by
    have hseg := h.seg
    rw [hdec, segB_append] at hseg
    simp only [List.headD_cons, Bool.and_eq_true] at hseg
    exact hseg
  have hsegb : segB l.nodes_ j b OUT_OF_BOUNDS = true := by
    have h2 := hsegsplit.2
    rw [segB_cons, hnj] at h2
    simp only [Bool.and_eq_true] at h2
    exact h2.2
  set l2 : LinkedList K V :=
    { head_ := l.head_, tail_ := l.tail_,
      nodes_ := l.nodes_.set j (some { nj with prev_ := (l.alloc).1 }),
      id_pool_ := (l.alloc).2 } with hl2
  set nn : Node K V := ⟨nj.prev_, j, k, v⟩ with hnn
  have hl2len : l2.nodes_.length = l.nodes_.length := by rw [hl2]; simp
  have hstep : l.insert_before_ j k v = LinkedList.insert_before_finish l2 (l.alloc).1 nn := by
    unfold LinkedList.insert_before_
    rw [if_neg hjOOB]
    simp only [hnj]
  have hle2 : (l.alloc).1 ≤ l2.nodes_.length := by rw [hl2len]; exact hle
  have hself3 : ((l2.replace_or_push_ (l.alloc).1 nn).2).nodes_[(l.alloc).1]? =
      some (some nn) := replace_or_push_self hle2
  have hatj3 : ((l2.replace_or_push_ (l.alloc).1 nn).2).nodes_[j]? =
      some (some { nj with prev_ := (l.alloc).1 }) := by
    rw [replace_or_push_other hidxj.symm, hl2]
    simp only []
    exact List.getElem?_set_self hjlt
  have hother3 : ∀ m, m ≠ (l.alloc).1 → m ≠ j →
      ((l2.replace_or_push_ (l.alloc).1 nn).2).nodes_[m]? = l.nodes_[m]? := by
    intro m h1 h2
    rw [replace_or_push_other h1, hl2]
    simp only []
    exact List.getElem?_set_ne (Ne.symm h2)
  have hlen3 : ((l2.replace_or_push_ (l.alloc).1 nn).2).nodes_.length =
      if l.id_pool_.isEmpty then l.nodes_.length + 1 else l.nodes_.length := by
    by_cases hpe : l.id_pool_.isEmpty
    · rw [if_pos hpe, replace_or_push_length, hl2len, if_pos ((alloc_eq_length_iff h).mpr hpe)]
    · rw [if_neg hpe, replace_or_push_length, hl2len,
        if_neg (fun hh => hpe ((alloc_eq_length_iff h).mp hh))]
  have hlen3ge : l.nodes_.length ≤ ((l2.replace_or_push_ (l.alloc).1 nn).2).nodes_.length := by
    rw [hlen3]
    split <;> omega
  have hpool3 : ((l2.replace_or_push_ (l.alloc).1 nn).2).id_pool_ = (l.alloc).2 :=
    replace_or_push_pool
  have hmemc' : ∀ m, m ∈ a ++ (l.alloc).1 :: j :: b ↔ m ∈ c ∨ m = (l.alloc).1 := by
    intro m
    rw [hdec]
    simp only [List.mem_append, List.mem_cons]
    tauto
  have hnodup' : (a ++ (l.alloc).1 :: j :: b).Nodup := by
    have hperm : (a ++ (l.alloc).1 :: j :: b).Perm ((l.alloc).1 :: (a ++ j :: b)) :=
      List.perm_middle
    rw [hperm.nodup_iff, List.nodup_cons, ← hdec]
    exact ⟨hnm, h.nodup⟩
  by_cases ha : a = []
  · -- no predecessor: the new node becomes the head
    subst ha
    have hPrf : nn.prev_ = OUT_OF_BOUNDS := by rw [hnn]; simpa using hnjprev
    have hPrf2 : nj.prev_ = OUT_OF_BOUNDS := by simpa using hnjprev
    have hfin : LinkedList.insert_before_finish l2 (l.alloc).1 nn =
        (.ok (l.alloc).1,
         { (l2.replace_or_push_ (l.alloc).1 nn).2 with head_ := (l.alloc).1 }) := by
      unfold LinkedList.insert_before_finish
      simp only [hPrf, hPrf2]
      split
      next hcond => rfl
      next hcond => exact absurd trivial hcond
    set l4 : LinkedList K V :=
      { (l2.replace_or_push_ (l.alloc).1 nn).2 with head_ := (l.alloc).1 } with hl4
    have hl4n : l4.nodes_ = ((l2.replace_or_push_ (l.alloc).1 nn).2).nodes_ := rfl
    have hpool4 : l4.id_pool_ = (l.alloc).2 := hpool3
    obtain ⟨hlive, htomb, hpnd, hplt, hlenlt⟩ :=
      insert_bookkeeping h ((l2.replace_or_push_ (l.alloc).1 nn).2).nodes_ ([] ++ (l.alloc).1 :: j :: b) hb hlen3
        (by unfold isLive; rw [hself3])
        (by
          intro m hm
          by_cases hmj : m = j
          · rw [hmj]
            constructor
            · unfold isLive
              rw [hatj3, hnj]
            · unfold isTomb
              rw [hatj3, hnj]
          · exact ⟨isLive_congr (hother3 m hm hmj), isTomb_congr (hother3 m hm hmj)⟩)
        (by simpa using hmemc')
    have hseg' : segB l4.nodes_ OUT_OF_BOUNDS ([] ++ (l.alloc).1 :: j :: b)
        OUT_OF_BOUNDS = true := by
      rw [hl4n, List.nil_append, segB_cons, hself3]
      simp only [List.headD_cons, Bool.and_eq_true, beq_iff_eq]
      refine ⟨⟨?_, ?_⟩, ?_⟩
      · exact hPrf
      · trivial
      rw [segB_cons, hatj3]
      simp only [Bool.and_eq_true, beq_iff_eq]
      refine ⟨⟨?_, ?_⟩, ?_⟩
      · trivial
      · exact hnjnext
      have hltb : ∀ i ∈ b, i < l2.nodes_.length := by
        intro i hi
        rw [hl2len]
        exact h.mem_lt (hdec ▸ List.mem_append_right _ (List.mem_cons_of_mem j hi))
      rw [segB_replace_or_push_not_mem hib hltb]
      have he2 : segB l2.nodes_ j b OUT_OF_BOUNDS = segB l.nodes_ j b OUT_OF_BOUNDS := by
        rw [hl2]
        simp only []
        exact segB_set_of_not_mem hjb
      rw [he2]
      exact hsegb
    refine ⟨l4, by rw [hstep, hfin], ?_, ?_, ?_, ?_⟩
    · refine ⟨hseg', rfl, ?_, by simpa using hnodup', by simpa using hlive,
        by simp only [hpool4, hpool3]; exact hpnd, ?_, ?_, hlenlt⟩
      · show ((l2.replace_or_push_ (l.alloc).1 nn).2).tail_ = _
        rw [replace_or_push_tail]
        show l.tail_ = _
        have ht := h.tailEq
        rw [hdec] at ht
        simp only [List.nil_append] at ht ⊢
        rw [back_cons (by simp : (j :: b) ≠ [])]
        exact ht
      · simp only [hpool4, hpool3]
        exact htomb
      · simp only [hpool4, hpool3]
        exact hplt
    · unfold keyAt
      rw [hl4n, hself3]
    · intro m hm
      rw [hl4n]
      by_cases hmj : m = j
      · rw [hmj]
        have h1 : keyAt ((l2.replace_or_push_ (l.alloc).1 nn).2).nodes_ j = some nj.key_ := by
          unfold keyAt
          rw [hatj3]
        have h2 : keyAt l.nodes_ j = some nj.key_ := by
          unfold keyAt
          rw [hnj]
        rw [h1, h2]
      · exact keyAt_congr (hother3 m hm hmj)
    · rw [hl4n, replace_or_push_length, hl2len]
      split <;> omega
  · -- a predecessor exists: it is relinked to the new node
    have hPmem_a : a.getLastD OUT_OF_BOUNDS ∈ a := back_mem ha
    have hPmem : a.getLastD OUT_OF_BOUNDS ∈ c := by
      rw [hdec]
      exact List.mem_append_left _ hPmem_a
    have hPj : a.getLastD OUT_OF_BOUNDS ≠ j := fun he =>
      hndc.2.2 hPmem_a (he ▸ List.mem_cons_self j b)
    have hPb : a.getLastD OUT_OF_BOUNDS ∉ b := fun hm =>
      hndc.2.2 hPmem_a (List.mem_cons_of_mem j hm)
    have hPidx : a.getLastD OUT_OF_BOUNDS ≠ (l.alloc).1 := fun he => hnm (he ▸ hPmem)
    have hPOOB : a.getLastD OUT_OF_BOUNDS ≠ OUT_OF_BOUNDS := h.mem_ne_OOB hPmem
    have hPlt : a.getLastD OUT_OF_BOUNDS < l.nodes_.length := h.mem_lt hPmem
    have hP_not_a0 : a.getLastD OUT_OF_BOUNDS ∉ a.dropLast :=
      back_not_mem_dropLast hndc.1 ha
    have hadec : a = a.dropLast ++ [a.getLastD OUT_OF_BOUNDS] := chain_decomp_back ha
    obtain ⟨pp, hpp, hppprev, hppnext⟩ :
        ∃ nd, l.nodes_[a.getLastD OUT_OF_BOUNDS]? = some (some nd) ∧
          nd.prev_ = (a.dropLast).getLastD OUT_OF_BOUNDS ∧ nd.next_ = j := by
      have h1 := hsegsplit.1
      rw [hadec, segB_append] at h1
      simp only [List.headD_cons, Bool.and_eq_true] at h1
      have h2 := h1.2
      rw [segB_cons] at h2
      cases hx : l.nodes_[a.getLastD OUT_OF_BOUNDS]? with
      | none => rw [hx] at h2; exact absurd h2 (by simp)
      | some o => cases o with
        | none => rw [hx] at h2; exact absurd h2 (by simp)
        | some nd =>
          rw [hx] at h2
          simp only [List.headD_nil, Bool.and_eq_true, beq_iff_eq] at h2
          exact ⟨nd, rfl, h2.1.1, h2.1.2⟩
    have hsega0 : segB l.nodes_ OUT_OF_BOUNDS a.dropLast (a.getLastD OUT_OF_BOUNDS) = true := by
      have h1 := hsegsplit.1
      rw [hadec, segB_append] at h1
      simp only [List.headD_cons, Bool.and_eq_true] at h1
      exact h1.1
    have hnnprev : nn.prev_ = a.getLastD OUT_OF_BOUNDS := hnjprev
    have hgetP3 : ((l2.replace_or_push_ (l.alloc).1 nn).2).nodes_[a.getLastD OUT_OF_BOUNDS]? =
        some (some pp) := by
      rw [hother3 _ hPidx hPj]
      exact hpp
    have hfin : LinkedList.insert_before_finish l2 (l.alloc).1 nn =
        (.ok (l.alloc).1,
         { (l2.replace_or_push_ (l.alloc).1 nn).2 with
           nodes_ := ((l2.replace_or_push_ (l.alloc).1 nn).2).nodes_.set
             (a.getLastD OUT_OF_BOUNDS) (some { pp with next_ := (l.alloc).1 }) }) := by
      unfold LinkedList.insert_before_finish
      simp only [hnnprev, hnjprev]
      rw [if_neg hPOOB]
      simp only [hgetP3]
    set l4 : LinkedList K V :=
      { (l2.replace_or_push_ (l.alloc).1 nn).2 with
        nodes_ := ((l2.replace_or_push_ (l.alloc).1 nn).2).nodes_.set
          (a.getLastD OUT_OF_BOUNDS) (some { pp with next_ := (l.alloc).1 }) } with hl4
    have hl4n : l4.nodes_ = ((l2.replace_or_push_ (l.alloc).1 nn).2).nodes_.set
        (a.getLastD OUT_OF_BOUNDS) (some { pp with next_ := (l.alloc).1 }) := rfl
    have hpool4 : l4.id_pool_ = (l.alloc).2 := hpool3
    have hl4len : l4.nodes_.length = ((l2.replace_or_push_ (l.alloc).1 nn).2).nodes_.length := by
      rw [hl4n]
      simp
    have hPlt3 : a.getLastD OUT_OF_BOUNDS <
        ((l2.replace_or_push_ (l.alloc).1 nn).2).nodes_.length :=
      lt_of_lt_of_le hPlt hlen3ge
    have hatP4 : l4.nodes_[a.getLastD OUT_OF_BOUNDS]? =
        some (some { pp with next_ := (l.alloc).1 }) := by
      rw [hl4n]
      exact List.getElem?_set_self hPlt3
    have hatidx4 : l4.nodes_[(l.alloc).1]? = some (some nn) := by
      rw [hl4n, List.getElem?_set_ne hPidx]
      exact hself3
    have hatj4 : l4.nodes_[j]? = some (some { nj with prev_ := (l.alloc).1 }) := by
      rw [hl4n, List.getElem?_set_ne hPj]
      exact hatj3
    have hother4 : ∀ m, m ≠ (l.alloc).1 → m ≠ j → m ≠ a.getLastD OUT_OF_BOUNDS →
        l4.nodes_[m]? = l.nodes_[m]? := by
      intro m h1 h2 h3
      rw [hl4n, List.getElem?_set_ne (Ne.symm h3)]
      exact hother3 m h1 h2
    have hlen4 : l4.nodes_.length =
        if l.id_pool_.isEmpty then l.nodes_.length + 1 else l.nodes_.length := by
      rw [hl4len]
      exact hlen3
    obtain ⟨hlive, htomb, hpnd, hplt, hlenlt⟩ :=
      insert_bookkeeping h l4.nodes_ (a ++ (l.alloc).1 :: j :: b) hb hlen4
        (by unfold isLive; rw [hatidx4])
        (by
          intro m hm
          by_cases hmj : m = j
          · rw [hmj]
            refine ⟨?_, ?_⟩
            · unfold isLive
              rw [hatj4, hnj]
            · unfold isTomb
              rw [hatj4, hnj]
          · by_cases hmP : m = a.getLastD OUT_OF_BOUNDS
            · rw [hmP]
              refine ⟨?_, ?_⟩
              · unfold isLive
                rw [hatP4, hpp]
              · unfold isTomb
                rw [hatP4, hpp]
            · exact ⟨isLive_congr (hother4 m hm hmj hmP),
                isTomb_congr (hother4 m hm hmj hmP)⟩)
        hmemc'
    have hbpart : segB l4.nodes_ j b OUT_OF_BOUNDS = true := by
      have hltb : ∀ i ∈ b, i < l2.nodes_.length := by
        intro i hi
        rw [hl2len]
        exact h.mem_lt (hdec ▸ List.mem_append_right _ (List.mem_cons_of_mem j hi))
      rw [hl4n, segB_set_of_not_mem hPb, segB_replace_or_push_not_mem hib hltb]
      have he2 : segB l2.nodes_ j b OUT_OF_BOUNDS = segB l.nodes_ j b OUT_OF_BOUNDS := by
        rw [hl2]
        simp only []
        exact segB_set_of_not_mem hjb
      rw [he2]
      exact hsegb
    have hjpart : segB l4.nodes_ (l.alloc).1 (j :: b) OUT_OF_BOUNDS = true := by
      rw [segB_cons, hatj4]
      simp only [Bool.and_eq_true, beq_iff_eq]
      refine ⟨⟨?_, ?_⟩, ?_⟩
      · trivial
      · exact hnjnext
      · exact hbpart
    have hidxpart : segB l4.nodes_ (a.getLastD OUT_OF_BOUNDS) ((l.alloc).1 :: j :: b)
        OUT_OF_BOUNDS = true := by
      rw [segB_cons, hatidx4]
      simp only [List.headD_cons, Bool.and_eq_true, beq_iff_eq]
      refine ⟨⟨?_, ?_⟩, ?_⟩
      · exact hnnprev
      · trivial
      · exact hjpart
    have ha0part : segB l4.nodes_ OUT_OF_BOUNDS a.dropLast (a.getLastD OUT_OF_BOUNDS) = true := by
      have ha0idx : (l.alloc).1 ∉ a.dropLast := fun hm =>
        hnm (hdec ▸ List.mem_append_left _ (hadec ▸ List.mem_append_left _ hm))
      have ha0j : j ∉ a.dropLast := fun hm =>
        hndc.2.2 (hadec ▸ List.mem_append_left _ hm) (List.mem_cons_self j b)
      have hlta0 : ∀ i ∈ a.dropLast, i < l2.nodes_.length := by
        intro i hi
        rw [hl2len]
        exact h.mem_lt (hdec ▸ List.mem_append_left _ (hadec ▸ List.mem_append_left _ hi))
      rw [hl4n, segB_set_of_not_mem hP_not_a0,
        segB_replace_or_push_not_mem ha0idx hlta0]
      have he2 : segB l2.nodes_ OUT_OF_BOUNDS a.dropLast (a.getLastD OUT_OF_BOUNDS) =
          segB l.nodes_ OUT_OF_BOUNDS a.dropLast (a.getLastD OUT_OF_BOUNDS) := by
        rw [hl2]
        simp only []
        exact segB_set_of_not_mem ha0j
      rw [he2]
      exact hsega0
    have hPpart : segB l4.nodes_ ((a.dropLast).getLastD OUT_OF_BOUNDS)
        [a.getLastD OUT_OF_BOUNDS] ((l.alloc).1) = true := by
      rw [segB_cons, hatP4]
      simp only [List.headD_nil, Bool.and_eq_true, beq_iff_eq]
      refine ⟨⟨?_, ?_⟩, ?_⟩
      · exact hppprev
      · trivial
      · exact segB_nil
    have hapart : segB l4.nodes_ OUT_OF_BOUNDS a ((l.alloc).1) = true := by
      conv_lhs => rw [hadec]
      rw [segB_append]
      simp only [List.headD_cons, Bool.and_eq_true]
      exact ⟨ha0part, hPpart⟩
    have hseg' : segB l4.nodes_ OUT_OF_BOUNDS (a ++ (l.alloc).1 :: j :: b)
        OUT_OF_BOUNDS = true := by
      rw [segB_append]
      simp only [List.headD_cons, Bool.and_eq_true]
      exact ⟨hapart, hidxpart⟩
    refine ⟨l4, by rw [hstep, hfin], ?_, ?_, ?_, ?_⟩
    · refine ⟨hseg', ?_, ?_, hnodup', hlive, by simp only [hpool4, hpool3]; exact hpnd,
        ?_, ?_, hlenlt⟩
      · show ((l2.replace_or_push_ (l.alloc).1 nn).2).head_ = _
        rw [replace_or_push_head]
        show l.head_ = _
        rw [front_append ha]
        have hh := h.headEq
        rw [hdec, front_append ha] at hh
        exact hh
      · show ((l2.replace_or_push_ (l.alloc).1 nn).2).tail_ = _
        rw [replace_or_push_tail]
        show l.tail_ = _
        rw [back_append (by simp : ((l.alloc).1 :: j :: b) ≠ []),
          back_cons (by simp : (j :: b) ≠ [])]
        have ht := h.tailEq
        rw [hdec, back_append (by simp : (j :: b) ≠ [])] at ht
        exact ht
      · simp only [hpool4, hpool3]
        exact htomb
      · simp only [hpool4, hpool3]
        exact hplt
    · unfold keyAt
      rw [hatidx4]
    · intro m hm
      by_cases hmj : m = j
      · rw [hmj]
        have h1 : keyAt l4.nodes_ j = some nj.key_ := by
          unfold keyAt
          rw [hatj4]
        have h2 : keyAt l.nodes_ j = some nj.key_ := by
          unfold keyAt
          rw [hnj]
        rw [h1, h2]
      · by_cases hmP : m = a.getLastD OUT_OF_BOUNDS
        · rw [hmP]
          have h1 : keyAt l4.nodes_ (a.getLastD OUT_OF_BOUNDS) = some pp.key_ := by
            unfold keyAt
            rw [hatP4]
          have h2 : keyAt l.nodes_ (a.getLastD OUT_OF_BOUNDS) = some pp.key_ := by
            unfold keyAt
            rw [hpp]
          rw [h1, h2]
        · exact keyAt_congr (hother4 m hm hmj hmP)
    · rw [hl4len, replace_or_push_length, hl2len]
      split <;> omega

/-! ### `erase_node_` evaluation lemmas (one per relink shape) -/

theorem erase_node_both (l : LinkedList K V) {P N i : Nat} {nP nN ni : Node K V}
    (hP : l.nodes_[P]? = some (some nP))
    (hN : (l.nodes_.set P (some { nP with next_ := N }))[N]? = some (some nN))
    (hI : ((l.nodes_.set P (some { nP with next_ := N })).set N
        (some { nN with prev_ := P }))[i]? = some (some ni)) :
    l.erase_node_ ⟨some (P, N), i, some (N, P)⟩ =
      (.ok (ni.prev_, (ni.key_, ni.value_), ni.next_),
       ⟨l.head_, l.tail_,
        ((l.nodes_.set P (some { nP with next_ := N })).set N
          (some { nN with prev_ := P })).set i none,
        l.id_pool_ ++ [i]⟩) := by
  unfold LinkedList.erase_node_
  simp only [hP, hN, hI]

theorem erase_node_head (l : LinkedList K V) {N P i : Nat} {nN ni : Node K V}
    (hN : l.nodes_[N]? = some (some nN))
    (hI : (l.nodes_.set N (some { nN with prev_ := P }))[i]? = some (some ni)) :
    l.erase_node_ ⟨none, i, some (N, P)⟩ =
      (.ok (ni.prev_, (ni.key_, ni.value_), ni.next_),
       ⟨N, l.tail_,
        (l.nodes_.set N (some { nN with prev_ := P })).set i none,
        l.id_pool_ ++ [i]⟩) := by
  unfold LinkedList.erase_node_
  simp only [hN, hI]

theorem erase_node_tail (l : LinkedList K V) {P N i : Nat} {nP ni : Node K V}
    (hP : l.nodes_[P]? = some (some nP))
    (hI : (l.nodes_.set P (some { nP with next_ := N }))[i]? = some (some ni)) :
    l.erase_node_ ⟨some (P, N), i, none⟩ =
      (.ok (ni.prev_, (ni.key_, ni.value_), ni.next_),
       ⟨l.head_, P,
        (l.nodes_.set P (some { nP with next_ := N })).set i none,
        l.id_pool_ ++ [i]⟩) := by
  unfold LinkedList.erase_node_
  simp only [hP, hI]

theorem erase_node_sole (l : LinkedList K V) {i : Nat} {ni : Node K V}
    (hI : l.nodes_[i]? = some (some ni)) :
    l.erase_node_ ⟨none, i, none⟩ =
      (.ok (ni.prev_, (ni.key_, ni.value_), ni.next_),
       ⟨OUT_OF_BOUNDS, OUT_OF_BOUNDS, l.nodes_.set i none, l.id_pool_ ++ [i]⟩) := by
  unfold LinkedList.erase_node_
  simp only [hI]

/-! ### `remove__` at a chain member -/

theorem remove_spec {l : LinkedList K V} {c a b : List Nat} {i : Nat}
    (h : Realizes l c) (hdec : c = a ++ i :: b) :
    ∃ nd l', l.nodes_[i]? = some (some nd) ∧
      nd.prev_ = a.getLastD OUT_OF_BOUNDS ∧ nd.next_ = b.headD OUT_OF_BOUNDS ∧
      l.remove__ i = (.ok (nd.prev_, (nd.key_, nd.value_), nd.next_), l') ∧
      Realizes l' (a ++ b) ∧
      l'.id_pool_ = l.id_pool_ ++ [i] ∧
      (∀ m, m ≠ i → keyAt l'.nodes_ m = keyAt l.nodes_ m) ∧
      l'.nodes_.length = l.nodes_.length := by
  have himem : i ∈ c := by rw [hdec]; exact List.mem_append_right _ (List.mem_cons_self i b)
  have hilt : i < l.nodes_.length := h.mem_lt himem
  have hcne : c ≠ [] := by
    rw [hdec]
    simp
  have hheadOOB : l.head_ ≠ OUT_OF_BOUNDS := h.mem_ne_OOB (h.head_mem hcne)
  obtain ⟨ni, hni, hniprev, hninext⟩ : ∃ nd, l.nodes_[i]? = some (some nd) ∧
      nd.prev_ = a.getLastD OUT_OF_BOUNDS ∧ nd.next_ = b.headD OUT_OF_BOUNDS := by
    have hseg := h.seg
    rw [hdec] at hseg
    exact segB_node_at hseg
  have hndc := h.nodup
  rw [hdec, List.nodup_append] at hndc
  have hia : i ∉ a := fun hm => hndc.2.2 hm (List.mem_cons_self i b)
  have hib : i ∉ b := by
    have := hndc.2.1
    rw [List.nodup_cons] at this
    exact this.1
  have hsegsplit : segB l.nodes_ OUT_OF_BOUNDS a i = true ∧
      segB l.nodes_ (a.getLastD OUT_OF_BOUNDS) (i :: b) OUT_OF_BOUNDS = true := by
    have hseg := h.seg
    rw [hdec, segB_append] at hseg
    simp only [List.headD_cons, Bool.and_eq_true] at hseg
    exact hseg
  have hsegb : segB l.nodes_ i b OUT_OF_BOUNDS = true := by
    have h2 := hsegsplit.2
    rw [segB_cons, hni] at h2
    simp only [Bool.and_eq_true] at h2
    exact h2.2
  have hmemc' : ∀ m, m ∈ a ++ b ↔ m ∈ c ∧ m ≠ i := by
    intro m
    rw [hdec]
    simp only [List.mem_append, List.mem_cons]
    constructor
    · rintro (hm | hm)
      · exact ⟨Or.inl hm, fun he => hia (he ▸ hm)⟩
      · exact ⟨Or.inr (Or.inr hm), fun he => hib (he ▸ hm)⟩
    · rintro ⟨hm | hm | hm, hne⟩
      · exact Or.inl hm
      · exact absurd hm hne
      · exact Or.inr hm
  have hnodup' : (a ++ b).Nodup := by
    have hperm : (a ++ i :: b).Perm (i :: (a ++ b)) := List.perm_middle
    have := h.nodup
    rw [hdec, hperm.nodup_iff, List.nodup_cons] at this
    exact this.2
  by_cases hbe : b = []
  · -- the removed node has no successor
    subst hbe
    have hninext2 : ni.next_ = OUT_OF_BOUNDS := by rw [hninext]; rfl
    have hgetN : l.nodes_[ni.next_]? = none := by
      rw [hninext2]
      exact h.getElem_OOB
    by_cases hae : a = []
    · -- sole element: the list becomes empty
      subst hae
      have hniprev2 : ni.prev_ = OUT_OF_BOUNDS := by rw [hniprev]; rfl
      have hgetP : l.nodes_[ni.prev_]? = none := by
        rw [hniprev2]
        exact h.getElem_OOB
      have hstep : l.remove__ i = l.erase_node_ ⟨none, i, none⟩ := by
        unfold LinkedList.remove__
        rw [if_neg hheadOOB]
        simp only [hni, hgetN, hgetP]
      have herase := erase_node_sole l hni
      set l4 : LinkedList K V :=
        ⟨OUT_OF_BOUNDS, OUT_OF_BOUNDS, l.nodes_.set i none, l.id_pool_ ++ [i]⟩ with hl4
      have hl4n : l4.nodes_ = l.nodes_.set i none := rfl
      have hother4 : ∀ m, m ≠ i → l4.nodes_[m]? = l.nodes_[m]? := by
        intro m hm
        rw [hl4n]
        exact List.getElem?_set_ne (Ne.symm hm)
      have hati4 : l4.nodes_[i]? = some none := by
        rw [hl4n]
        exact List.getElem?_set_self hilt
      obtain ⟨hlive, htomb, hpnd, hplt, hlenlt⟩ :=
        erase_bookkeeping h l4.nodes_ ([] ++ []) himem (by rw [hl4n]; simp)
          ⟨by unfold isLive; rw [hati4], by unfold isTomb; rw [hati4]⟩
          (fun m hm => ⟨isLive_congr (hother4 m hm), isTomb_congr (hother4 m hm)⟩)
          (by simpa using hmemc')
      refine ⟨ni, l4, hni, hniprev, hninext, by rw [hstep, herase], ?_, rfl, ?_, ?_⟩
      · exact ⟨segB_nil, rfl, rfl, by simp, by simpa using hlive, hpnd,
          htomb, hplt, hlenlt⟩
      · exact fun m hm => keyAt_congr (hother4 m hm)
      · rw [hl4n]
        simp
    · -- tail removal: the predecessor becomes the tail
      have hadec : a = a.dropLast ++ [a.getLastD OUT_OF_BOUNDS] := chain_decomp_back hae
      have hadec2 : a = a.dropLast ++ [ni.prev_] := by rw [hniprev]; exact hadec
      have hPmem_a : ni.prev_ ∈ a := by rw [hniprev]; exact back_mem hae
      have hPi : ni.prev_ ≠ i := fun he => hia (he ▸ hPmem_a)
      have hP_not_a0 : ni.prev_ ∉ a.dropLast := by
        rw [hniprev]
        exact back_not_mem_dropLast hndc.1 hae
      have hPlt : ni.prev_ < l.nodes_.length :=
        h.mem_lt (by rw [hdec]; exact List.mem_append_left _ hPmem_a)
      obtain ⟨nP, hgetP, hPprev, hPnext, hsega0⟩ :
          ∃ nd, l.nodes_[ni.prev_]? = some (some nd) ∧
            nd.prev_ = (a.dropLast).getLastD OUT_OF_BOUNDS ∧ nd.next_ = i ∧
            segB l.nodes_ OUT_OF_BOUNDS a.dropLast ni.prev_ = true := by
        have h1 := hsegsplit.1
        rw [hadec2, segB_append] at h1
        simp only [List.headD_cons, Bool.and_eq_true] at h1
        have h2 := h1.2
        rw [segB_cons] at h2
        cases hx : l.nodes_[ni.prev_]? with
        | none => rw [hx] at h2; exact absurd h2 (by simp)
        | some o => cases o with
          | none => rw [hx] at h2; exact absurd h2 (by simp)
          | some nd =>
            rw [hx] at h2
            simp only [List.headD_nil, Bool.and_eq_true, beq_iff_eq] at h2
            exact ⟨nd, rfl, h2.1.1, h2.1.2, h1.1⟩
      have hstep : l.remove__ i =
          l.erase_node_ ⟨some (ni.prev_, ni.next_), i, none⟩ := by
        unfold LinkedList.remove__
        rw [if_neg hheadOOB]
        simp only [hni, hgetN, hgetP]
      have hI : (l.nodes_.set ni.prev_
          (some { nP with next_ := ni.next_ }))[i]? = some (some ni) := by
        rw [List.getElem?_set_ne hPi]
        exact hni
      have herase := erase_node_tail l hgetP hI
      set l4 : LinkedList K V :=
        ⟨l.head_, ni.prev_,
         (l.nodes_.set ni.prev_ (some { nP with next_ := ni.next_ })).set i none,
         l.id_pool_ ++ [i]⟩ with hl4
      have hl4n : l4.nodes_ =
          (l.nodes_.set ni.prev_ (some { nP with next_ := ni.next_ })).set i none := rfl
      have hatP4 : l4.nodes_[ni.prev_]? = some (some { nP with next_ := ni.next_ }) := by
        rw [hl4n, List.getElem?_set_ne (Ne.symm hPi)]
        exact List.getElem?_set_self hPlt
      have hati4 : l4.nodes_[i]? = some none := by
        rw [hl4n]
        refine List.getElem?_set_self ?_
        simp [hilt]
      have hother4 : ∀ m, m ≠ i → m ≠ ni.prev_ → l4.nodes_[m]? = l.nodes_[m]? := by
        intro m h1 h2
        rw [hl4n, List.getElem?_set_ne (Ne.symm h1), List.getElem?_set_ne (Ne.symm h2)]
      obtain ⟨hlive, htomb, hpnd, hplt, hlenlt⟩ :=
        erase_bookkeeping h l4.nodes_ (a ++ []) himem (by rw [hl4n]; simp)
          ⟨by unfold isLive; rw [hati4], by unfold isTomb; rw [hati4]⟩
          (by
            intro m hm
            by_cases hmP : m = ni.prev_
            · rw [hmP]
              exact ⟨by unfold isLive; rw [hatP4, hgetP],
                by unfold isTomb; rw [hatP4, hgetP]⟩
            · exact ⟨isLive_congr (hother4 m hm hmP), isTomb_congr (hother4 m hm hmP)⟩)
          hmemc'
      have hsegP : segB l4.nodes_ ((a.dropLast).getLastD OUT_OF_BOUNDS) [ni.prev_]
          OUT_OF_BOUNDS = true := by
        rw [segB_cons, hatP4]
        simp only [List.headD_nil, Bool.and_eq_true, beq_iff_eq]
        refine ⟨⟨?_, ?_⟩, ?_⟩
        · exact hPprev
        · exact hninext2
        · exact segB_nil
      have hsega0' : segB l4.nodes_ OUT_OF_BOUNDS a.dropLast ni.prev_ = true := by
        have ha0i : i ∉ a.dropLast := fun hm =>
          hia (hadec2 ▸ List.mem_append_left _ hm)
        rw [hl4n, segB_set_of_not_mem ha0i, segB_set_of_not_mem hP_not_a0]
        exact hsega0
      have hseg' : segB l4.nodes_ OUT_OF_BOUNDS (a ++ []) OUT_OF_BOUNDS = true := by
        rw [List.append_nil]
        conv_lhs => rw [hadec2]
        rw [segB_append]
        simp only [List.headD_cons, Bool.and_eq_true]
        exact ⟨hsega0', hsegP⟩
      refine ⟨ni, l4, hni, hniprev, hninext, by rw [hstep, herase], ?_, rfl, ?_, ?_⟩
      · refine ⟨hseg', ?_, ?_, by simpa using hnodup', by simpa using hlive, hpnd,
          htomb, hplt, hlenlt⟩
        · show l.head_ = _
          have hh := h.headEq
          rw [hdec, front_append hae] at hh
          rw [List.append_nil]
          exact hh
        · show ni.prev_ = _
          rw [List.append_nil]
          exact hniprev
      · intro m hm
        by_cases hmP : m = ni.prev_
        · rw [hmP]
          have h1 : keyAt l4.nodes_ ni.prev_ = some nP.key_ := by
            unfold keyAt
            rw [hatP4]
          have h2 : keyAt l.nodes_ ni.prev_ = some nP.key_ := by
            unfold keyAt
            rw [hgetP]
          rw [h1, h2]
        · exact keyAt_congr (hother4 m hm hmP)
      · rw [hl4n]
        simp
  · -- the removed node has a successor
    obtain ⟨nb, b1, hbdec⟩ : ∃ nb b1, b = nb :: b1 := by
      cases b with
      | nil => exact absurd rfl hbe
      | cons nb b1 => exact ⟨nb, b1, rfl⟩
    have hninext2 : ni.next_ = nb := by rw [hninext, hbdec]; rfl
    obtain ⟨nN, hnbget, hNprev, hNnext, hsegb1⟩ :
        ∃ nd, l.nodes_[nb]? = some (some nd) ∧ nd.prev_ = i ∧
          nd.next_ = b1.headD OUT_OF_BOUNDS ∧ segB l.nodes_ nb b1 OUT_OF_BOUNDS = true := by
      have h2 := hsegb
      rw [hbdec, segB_cons] at h2
      cases hx : l.nodes_[nb]? with
      | none => rw [hx] at h2; exact absurd h2 (by simp)
      | some o => cases o with
        | none => rw [hx] at h2; exact absurd h2 (by simp)
        | some nd =>
          rw [hx] at h2
          simp only [Bool.and_eq_true, beq_iff_eq] at h2
          exact ⟨nd, rfl, h2.1.1, h2.1.2, h2.2⟩
    have hgetN : l.nodes_[ni.next_]? = some (some nN) := by
      rw [hninext2]
      exact hnbget
    have hNmem_b : nb ∈ b := by rw [hbdec]; exact List.mem_cons_self nb b1
    have hNi : ni.next_ ≠ i := by
      rw [hninext2]
      exact fun he => hib (he ▸ hNmem_b)
    have hN_not_b1 : nb ∉ b1 := by
      have := hndc.2.1
      rw [List.nodup_cons, hbdec, List.nodup_cons] at this
      exact this.2.1
    have hi_not_b1 : i ∉ b1 := fun hm => hib (hbdec ▸ List.mem_cons_of_mem nb hm)
    have hNlt : ni.next_ < l.nodes_.length := by
      rw [hninext2]
      exact h.mem_lt (by rw [hdec]; exact List.mem_append_right _ (List.mem_cons_of_mem i hNmem_b))
    by_cases hae : a = []
    · -- head removal: the successor becomes the head
      subst hae
      have hniprev2 : ni.prev_ = OUT_OF_BOUNDS := by rw [hniprev]; rfl
      have hgetP : l.nodes_[ni.prev_]? = none := by
        rw [hniprev2]
        exact h.getElem_OOB
      have hstep : l.remove__ i =
          l.erase_node_ ⟨none, i, some (ni.next_, ni.prev_)⟩ := by
        unfold LinkedList.remove__
        rw [if_neg hheadOOB]
        simp only [hni, hgetN, hgetP]
      have hI : (l.nodes_.set ni.next_
          (some { nN with prev_ := ni.prev_ }))[i]? = some (some ni) := by
        rw [List.getElem?_set_ne hNi]
        exact hni
      have herase := erase_node_head l hgetN hI
      set l4 : LinkedList K V :=
        ⟨ni.next_, l.tail_,
         (l.nodes_.set ni.next_ (some { nN with prev_ := ni.prev_ })).set i none,
         l.id_pool_ ++ [i]⟩ with hl4
      have hl4n : l4.nodes_ =
          (l.nodes_.set ni.next_ (some { nN with prev_ := ni.prev_ })).set i none := rfl
      have hatN4 : l4.nodes_[ni.next_]? = some (some { nN with prev_ := ni.prev_ }) := by
        rw [hl4n, List.getElem?_set_ne (Ne.symm hNi)]
        exact List.getElem?_set_self hNlt
      have hati4 : l4.nodes_[i]? = some none := by
        rw [hl4n]
        refine List.getElem?_set_self ?_
        simp [hilt]
      have hother4 : ∀ m, m ≠ i → m ≠ ni.next_ → l4.nodes_[m]? = l.nodes_[m]? := by
        intro m h1 h2
        rw [hl4n, List.getElem?_set_ne (Ne.symm h1), List.getElem?_set_ne (Ne.symm h2)]
      obtain ⟨hlive, htomb, hpnd, hplt, hlenlt⟩ :=
        erase_bookkeeping h l4.nodes_ ([] ++ b) himem (by rw [hl4n]; simp)
          ⟨by unfold isLive; rw [hati4], by unfold isTomb; rw [hati4]⟩
          (by
            intro m hm
            by_cases hmN : m = ni.next_
            · rw [hmN]
              exact ⟨by unfold isLive; rw [hatN4, hgetN],
                by unfold isTomb; rw [hatN4, hgetN]⟩
            · exact ⟨isLive_congr (hother4 m hm hmN), isTomb_congr (hother4 m hm hmN)⟩)
          (by simpa using hmemc')
      have hsegb1' : segB l4.nodes_ nb b1 OUT_OF_BOUNDS = true := by
        have hN_not_b1' : ni.next_ ∉ b1 := by rw [hninext2]; exact hN_not_b1
        rw [hl4n, segB_set_of_not_mem hi_not_b1, segB_set_of_not_mem hN_not_b1']
        exact hsegb1
      have hseg' : segB l4.nodes_ OUT_OF_BOUNDS ([] ++ b) OUT_OF_BOUNDS = true := by
        rw [List.nil_append, hbdec, segB_cons]
        have hatnb : l4.nodes_[nb]? = some (some { nN with prev_ := ni.prev_ }) := by
          rw [← hninext2]
          exact hatN4
        rw [hatnb]
        simp only [Bool.and_eq_true, beq_iff_eq]
        refine ⟨⟨?_, ?_⟩, ?_⟩
        · exact hniprev2
        · exact hNnext
        · exact hsegb1'
      refine ⟨ni, l4, hni, hniprev, hninext, by rw [hstep, herase], ?_, rfl, ?_, ?_⟩
      · refine ⟨hseg', ?_, ?_, by simpa using hnodup', by simpa using hlive, hpnd,
          htomb, hplt, hlenlt⟩
        · show ni.next_ = _
          rw [List.nil_append, hbdec, hninext2]
          rfl
        · show l.tail_ = _
          have ht := h.tailEq
          rw [hdec, List.nil_append, back_cons hbe] at ht
          rw [List.nil_append]
          exact ht
      · intro m hm
        by_cases hmN : m = ni.next_
        · rw [hmN]
          have h1 : keyAt l4.nodes_ ni.next_ = some nN.key_ := by
            unfold keyAt
            rw [hatN4]
          have h2 : keyAt l.nodes_ ni.next_ = some nN.key_ := by
            unfold keyAt
            rw [hgetN]
          rw [h1, h2]
        · exact keyAt_congr (hother4 m hm hmN)
      · rw [hl4n]
        simp
    · -- interior removal: both neighbours are relinked
      have hadec : a = a.dropLast ++ [a.getLastD OUT_OF_BOUNDS] := chain_decomp_back hae
      have hadec2 : a = a.dropLast ++ [ni.prev_] := by rw [hniprev]; exact hadec
      have hPmem_a : ni.prev_ ∈ a := by rw [hniprev]; exact back_mem hae
      have hPi : ni.prev_ ≠ i := fun he => hia (he ▸ hPmem_a)
      have hPN : ni.prev_ ≠ ni.next_ := by
        rw [hninext2]
        exact fun he => hndc.2.2 hPmem_a (List.mem_cons_of_mem i (he ▸ hNmem_b))
      have hP_not_a0 : ni.prev_ ∉ a.dropLast := by
        rw [hniprev]
        exact back_not_mem_dropLast hndc.1 hae
      have hP_not_b1 : ni.prev_ ∉ b1 := fun hm =>
        hndc.2.2 hPmem_a (List.mem_cons_of_mem i (hbdec ▸ List.mem_cons_of_mem nb hm))
      have hPlt : ni.prev_ < l.nodes_.length :=
        h.mem_lt (by rw [hdec]; exact List.mem_append_left _ hPmem_a)
      obtain ⟨nP, hgetP, hPprev, hPnext, hsega0⟩ :
          ∃ nd, l.nodes_[ni.prev_]? = some (some nd) ∧
            nd.prev_ = (a.dropLast).getLastD OUT_OF_BOUNDS ∧ nd.next_ = i ∧
            segB l.nodes_ OUT_OF_BOUNDS a.dropLast ni.prev_ = true := by
        have h1 := hsegsplit.1
        rw [hadec2, segB_append] at h1
        simp only [List.headD_cons, Bool.and_eq_true] at h1
        have h2 := h1.2
        rw [segB_cons] at h2
        cases hx : l.nodes_[ni.prev_]? with
        | none => rw [hx] at h2; exact absurd h2 (by simp)
        | some o => cases o with
          | none => rw [hx] at h2; exact absurd h2 (by simp)
          | some nd =>
            rw [hx] at h2
            simp only [List.headD_nil, Bool.and_eq_true, beq_iff_eq] at h2
            exact ⟨nd, rfl, h2.1.1, h2.1.2, h1.1⟩
      have hstep : l.remove__ i =
          l.erase_node_ ⟨some (ni.prev_, ni.next_), i, some (ni.next_, ni.prev_)⟩ := by
        unfold LinkedList.remove__
        rw [if_neg hheadOOB]
        simp only [hni, hgetN, hgetP]
      have hN : (l.nodes_.set ni.prev_
          (some { nP with next_ := ni.next_ }))[ni.next_]? = some (some nN) := by
        rw [List.getElem?_set_ne hPN]
        exact hgetN
      have hI : ((l.nodes_.set ni.prev_ (some { nP with next_ := ni.next_ })).set ni.next_
          (some { nN with prev_ := ni.prev_ }))[i]? = some (some ni) := by
        rw [List.getElem?_set_ne hNi, List.getElem?_set_ne hPi]
        exact hni
      have herase := erase_node_both l hgetP hN hI
      set l4 : LinkedList K V :=
        ⟨l.head_, l.tail_,
         ((l.nodes_.set ni.prev_ (some { nP with next_ := ni.next_ })).set ni.next_
           (some { nN with prev_ := ni.prev_ })).set i none,
         l.id_pool_ ++ [i]⟩ with hl4
      have hl4n : l4.nodes_ =
          ((l.nodes_.set ni.prev_ (some { nP with next_ := ni.next_ })).set ni.next_
            (some { nN with prev_ := ni.prev_ })).set i none := rfl
      have hatP4 : l4.nodes_[ni.prev_]? = some (some { nP with next_ := ni.next_ }) := by
        rw [hl4n, List.getElem?_set_ne (Ne.symm hPi), List.getElem?_set_ne (Ne.symm hPN)]
        exact List.getElem?_set_self hPlt
      have hatN4 : l4.nodes_[ni.next_]? = some (some { nN with prev_ := ni.prev_ }) := by
        rw [hl4n, List.getElem?_set_ne (Ne.symm hNi)]
        refine List.getElem?_set_self ?_
        simp [hNlt]
      have hati4 : l4.nodes_[i]? = some none := by
        rw [hl4n]
        refine List.getElem?_set_self ?_
        simp [hilt]
      have hother4 : ∀ m, m ≠ i → m ≠ ni.prev_ → m ≠ ni.next_ →
          l4.nodes_[m]? = l.nodes_[m]? := by
        intro m h1 h2 h3
        rw [hl4n, List.getElem?_set_ne (Ne.symm h1), List.getElem?_set_ne (Ne.symm h3),
          List.getElem?_set_ne (Ne.symm h2)]
      obtain ⟨hlive, htomb, hpnd, hplt, hlenlt⟩ :=
        erase_bookkeeping h l4.nodes_ (a ++ b) himem (by rw [hl4n]; simp)
          ⟨by unfold isLive; rw [hati4], by unfold isTomb; rw [hati4]⟩
          (by
            intro m hm
            by_cases hmP : m = ni.prev_
            · rw [hmP]
              exact ⟨by unfold isLive; rw [hatP4, hgetP],
                by unfold isTomb; rw [hatP4, hgetP]⟩
            · by_cases hmN : m = ni.next_
              · rw [hmN]
                exact ⟨by unfold isLive; rw [hatN4, hgetN],
                  by unfold isTomb; rw [hatN4, hgetN]⟩
              · exact ⟨isLive_congr (hother4 m hm hmP hmN),
                  isTomb_congr (hother4 m hm hmP hmN)⟩)
          hmemc'
      have hsega0' : segB l4.nodes_ OUT_OF_BOUNDS a.dropLast ni.prev_ = true := by
        have ha0i : i ∉ a.dropLast := fun hm =>
          hia (hadec2 ▸ List.mem_append_left _ hm)
        have ha0N : ni.next_ ∉ a.dropLast := by
          rw [hninext2]
          exact fun hm =>
            hndc.2.2 (hadec2 ▸ List.mem_append_left _ hm) (List.mem_cons_of_mem i hNmem_b)
        rw [hl4n, segB_set_of_not_mem ha0i, segB_set_of_not_mem ha0N,
          segB_set_of_not_mem hP_not_a0]
        exact hsega0
      have hsegP : segB l4.nodes_ ((a.dropLast).getLastD OUT_OF_BOUNDS) [ni.prev_]
          (b.headD OUT_OF_BOUNDS) = true := by
        rw [segB_cons, hatP4]
        simp only [List.headD_nil, Bool.and_eq_true, beq_iff_eq]
        refine ⟨⟨?_, ?_⟩, ?_⟩
        · exact hPprev
        · rw [hninext]
        · exact segB_nil
      have hapart : segB l4.nodes_ OUT_OF_BOUNDS a (b.headD OUT_OF_BOUNDS) = true := by
        conv_lhs => rw [hadec2]
        rw [segB_append]
        simp only [List.headD_cons, Bool.and_eq_true]
        exact ⟨hsega0', hsegP⟩
      have hsegb1' : segB l4.nodes_ nb b1 OUT_OF_BOUNDS = true := by
        have hN_not_b1' : ni.next_ ∉ b1 := by rw [hninext2]; exact hN_not_b1
        rw [hl4n, segB_set_of_not_mem hi_not_b1, segB_set_of_not_mem hN_not_b1',
          segB_set_of_not_mem hP_not_b1]
        exact hsegb1
      have hbpart : segB l4.nodes_ (a.getLastD OUT_OF_BOUNDS) b OUT_OF_BOUNDS = true := by
        rw [hbdec, segB_cons]
        have hatnb : l4.nodes_[nb]? = some (some { nN with prev_ := ni.prev_ }) := by
          rw [← hninext2]
          exact hatN4
        rw [hatnb]
        simp only [Bool.and_eq_true, beq_iff_eq]
        refine ⟨⟨?_, ?_⟩, ?_⟩
        · exact hniprev
        · exact hNnext
        · exact hsegb1'
      have hseg' : segB l4.nodes_ OUT_OF_BOUNDS (a ++ b) OUT_OF_BOUNDS = true := by
        rw [segB_append]
        simp only [Bool.and_eq_true]
        exact ⟨hapart, hbpart⟩
      refine ⟨ni, l4, hni, hniprev, hninext, by rw [hstep, herase], ?_, rfl, ?_, ?_⟩
      · refine ⟨hseg', ?_, ?_, hnodup', hlive, hpnd, htomb, hplt, hlenlt⟩
        · show l.head_ = _
          have hh := h.headEq
          rw [hdec, front_append hae] at hh
          rw [front_append hae]
          exact hh
        · show l.tail_ = _
          have ht := h.tailEq
          rw [hdec, back_append (by simp : (i :: b) ≠ []), back_cons hbe] at ht
          rw [back_append hbe]
          exact ht
      · intro m hm
        by_cases hmP : m = ni.prev_
        · rw [hmP]
          have h1 : keyAt l4.nodes_ ni.prev_ = some nP.key_ := by
            unfold keyAt
            rw [hatP4]
          have h2 : keyAt l.nodes_ ni.prev_ = some nP.key_ := by
            unfold keyAt
            rw [hgetP]
          rw [h1, h2]
        · by_cases hmN : m = ni.next_
          · rw [hmN]
            have h1 : keyAt l4.nodes_ ni.next_ = some nN.key_ := by
              unfold keyAt
              rw [hatN4]
            have h2 : keyAt l.nodes_ ni.next_ = some nN.key_ := by
              unfold keyAt
              rw [hgetN]
            rw [h1, h2]
          · exact keyAt_congr (hother4 m hm hmP hmN)
      · rw [hl4n]
        simp

/-! ### `clear` and `replace_key` -/

theorem clear_realizes (l : LinkedList K V) : Realizes (l.clear) [] := by
  unfold LinkedList.clear
  refine ⟨segB_nil, rfl, rfl, List.nodup_nil, ?_, List.nodup_nil, ?_, ?_, ?_⟩
  · intro i hi
    simp at hi
  · intro i hi
    simp at hi
  · intro i hi
    simp at hi
  · show 0 < OUT_OF_BOUNDS
    decide

theorem default_realizes : Realizes (LinkedList.default : LinkedList K V) [] := by
  unfold LinkedList.default
  refine ⟨segB_nil, rfl, rfl, List.nodup_nil, ?_, List.nodup_nil, ?_, ?_, ?_⟩
  · intro i hi
    simp at hi
  · intro i hi
    simp at hi
  · intro i hi
    simp at hi
  · show 0 < OUT_OF_BOUNDS
    decide

theorem segB_set_samelinks {nodes : List (Option (Node K V))} {cur : Nat} {nd : Node K V}
    (nd' : Node K V)
    (hget : nodes[cur]? = some (some nd)) (hp : nd'.prev_ = nd.prev_)
    (hn : nd'.next_ = nd.next_) {p after : Nat} {cs : List Nat} :
    segB (nodes.set cur (some nd')) p cs after = segB nodes p cs after := by
  have hcurlt : cur < nodes.length := by
    by_contra hlt
    rw [List.getElem?_eq_none (Nat.le_of_not_lt hlt)] at hget
    cases hget
  induction cs generalizing p with
  | nil => rfl
  | cons x rest ih =>
    rw [segB_cons, segB_cons]
    by_cases hxc : x = cur
    · subst hxc
      rw [List.getElem?_set_self hcurlt, hget, ih]
      simp [hp, hn]
    · rw [List.getElem?_set_ne (Ne.symm hxc), ih]

theorem replace_key_realizes {l : LinkedList K V} {c : List Nat} (h : Realizes l c)
    (cur : Nat) (k : K) : Realizes (PIterator.replace_key l cur k).2 c := by
  unfold PIterator.replace_key
  cases hx : l.nodes_[cur]? with
  | none => simp only [hx]; exact h
  | some o => cases o with
    | none => simp only [hx]; exact h
    | some nd =>
      simp only [hx]
      have hcurlt : cur < l.nodes_.length := by
        by_contra hlt
        rw [List.getElem?_eq_none (Nat.le_of_not_lt hlt)] at hx
        cases hx
      have hcmem : cur ∈ c := h.mem_of_live hx
      refine ⟨?_, h.headEq, h.tailEq, h.nodup, ?_, h.poolNodup, ?_, ?_, ?_⟩
      · show segB (l.nodes_.set cur (some { nd with key_ := k })) OUT_OF_BOUNDS c
          OUT_OF_BOUNDS = true
        rw [segB_set_samelinks ({ nd with key_ := k }) hx rfl rfl]
        exact h.seg
      · intro i hi
        rw [List.length_set] at hi
        by_cases hic : i = cur
        · rw [hic]
          have h1 : isLive (l.nodes_.set cur (some { nd with key_ := k })) cur = true := by
            unfold isLive
            rw [List.getElem?_set_self hcurlt]
          rw [h1]
          simp only [true_iff]
          exact hcmem
        · rw [isLive_congr (List.getElem?_set_ne (fun he => hic he.symm))]
          exact h.live_iff i hi
      · intro i hi
        rw [List.length_set] at hi
        by_cases hic : i = cur
        · rw [hic]
          have h1 : isTomb (l.nodes_.set cur (some { nd with key_ := k })) cur = false := by
            unfold isTomb
            rw [List.getElem?_set_self hcurlt]
          rw [h1]
          simp only [Bool.false_eq_true, false_iff]
          exact h.not_mem_pool hcmem
        · rw [isTomb_congr (List.getElem?_set_ne (fun he => hic he.symm))]
          exact h.tomb_iff i hi
      · intro i hi
        have := h.poolLt i hi
        simpa using this
      · show (l.nodes_.set cur (some { nd with key_ := k })).length < OUT_OF_BOUNDS
        rw [List.length_set]
        exact h.lenLt

/-! ### The scans of `ordered_insert_pos` -/

theorem scanFwd_succ [LinearOrder K] {nodes : List (Option (Node K V))} {key : K}
    {fuel curr : Nat} :
    scanFwd nodes key (fuel + 1) curr =
      (match nodes[curr]? with
       | some (some sample) =>
         (match keyCmp key sample.key_ with
          | .eq => .existing curr
          | .lt => .before curr
          | .gt => scanFwd nodes key fuel sample.next_)
       | _ => .atEnd) := rfl

theorem scanBwd_succ [LinearOrder K] {nodes : List (Option (Node K V))} {key : K}
    {fuel curr : Nat} {ib : Option Nat} :
    scanBwd nodes key (fuel + 1) curr ib =
      (match nodes[curr]? with
       | some (some sample) =>
         (match keyCmp key sample.key_ with
          | .eq => .existing curr
          | .lt => scanBwd nodes key fuel sample.prev_ (some curr)
          | .gt => .done ib)
       | _ => .done ib) := rfl

theorem scanFwd_cases [LinearOrder K] {nodes : List (Option (Node K V))} {key : K}
    {s : List Nat} {p : Nat} (hseg : segB nodes p s OUT_OF_BOUNDS = true)
    (hOOB : nodes.length ≤ OUT_OF_BOUNDS)
    {fuel : Nat} (hfuel : s.length + 1 ≤ fuel) :
    (∃ t ∈ s, keyAt nodes t = some key ∧ scanFwd nodes key fuel (front s) = .existing t) ∨
    (∃ t ∈ s, scanFwd nodes key fuel (front s) = .before t) ∨
    scanFwd nodes key fuel (front s) = .atEnd := by
  induction s generalizing p fuel with
  | nil =>
    obtain ⟨f, rfl⟩ : ∃ f, fuel = f + 1 := ⟨fuel - 1, by omega⟩
    right; right
    rw [scanFwd_succ]
    have : nodes[front ([] : List Nat)]? = none := List.getElem?_eq_none hOOB
    rw [this]
  | cons x rest ih =>
    obtain ⟨f, rfl⟩ : ∃ f, fuel = f + 1 := ⟨fuel - 1, by omega⟩
    rw [segB_cons] at hseg
    cases hx : nodes[x]? with
    | none => rw [hx] at hseg; exact absurd hseg (by simp)
    | some o => cases o with
      | none => rw [hx] at hseg; exact absurd hseg (by simp)
      | some nx =>
        rw [hx] at hseg
        simp only [Bool.and_eq_true, beq_iff_eq] at hseg
        have hstep : scanFwd nodes key (f + 1) (front (x :: rest)) =
            (match keyCmp key nx.key_ with
             | .eq => .existing x
             | .lt => .before x
             | .gt => scanFwd nodes key f nx.next_) := by
          rw [show front (x :: rest) = x from rfl, scanFwd_succ, hx]
        cases hc : keyCmp key nx.key_ with
        | eq =>
          left
          refine ⟨x, List.mem_cons_self x rest, ?_, by rw [hstep, hc]⟩
          simp only [keyAt, hx, keyCmp_eq_eq.mp hc]
        | lt =>
          right; left
          exact ⟨x, List.mem_cons_self x rest, by rw [hstep, hc]⟩
        | gt =>
          have hnext : nx.next_ = front rest := hseg.1.2
          have hrec : scanFwd nodes key (f + 1) (front (x :: rest)) =
              scanFwd nodes key f (front rest) := by
            rw [hstep, hc, hnext]
          rw [hrec]
          simp only [List.length_cons] at hfuel
          have hf2 : rest.length + 1 ≤ f := by omega
          rcases ih hseg.2 hf2 with ⟨t, ht, hk, he⟩ | ⟨t, ht, he⟩ | he
          · exact Or.inl ⟨t, List.mem_cons_of_mem x ht, hk, he⟩
          · exact Or.inr (Or.inl ⟨t, List.mem_cons_of_mem x ht, he⟩)
          · exact Or.inr (Or.inr he)

theorem scanBwd_cases [LinearOrder K] {nodes : List (Option (Node K V))} {key : K}
    {s s0 : List Nat} {nret : Nat} (hseg : segRB nodes nret s OUT_OF_BOUNDS = true)
    (hOOB : nodes.length ≤ OUT_OF_BOUNDS) (hsub : ∀ x ∈ s, x ∈ s0)
    {fuel : Nat} (hfuel : s.length + 1 ≤ fuel)
    {ib : Option Nat} (hib : ∀ t, ib = some t → t ∈ s0) :
    (∃ t ∈ s0, keyAt nodes t = some key ∧ scanBwd nodes key fuel (front s) ib = .existing t) ∨
    (∃ ib2, (∀ t, ib2 = some t → t ∈ s0) ∧
      scanBwd nodes key fuel (front s) ib = .done ib2) := by
  induction s generalizing nret fuel ib with
  | nil =>
    obtain ⟨f, rfl⟩ : ∃ f, fuel = f + 1 := ⟨fuel - 1, by omega⟩
    right
    refine ⟨ib, hib, ?_⟩
    rw [scanBwd_succ]
    have : nodes[front ([] : List Nat)]? = none := List.getElem?_eq_none hOOB
    rw [this]
  | cons x rest ih =>
    obtain ⟨f, rfl⟩ : ∃ f, fuel = f + 1 := ⟨fuel - 1, by omega⟩
    rw [segRB_cons] at hseg
    cases hx : nodes[x]? with
    | none => rw [hx] at hseg; exact absurd hseg (by simp)
    | some o => cases o with
      | none => rw [hx] at hseg; exact absurd hseg (by simp)
      | some nx =>
        rw [hx] at hseg
        simp only [Bool.and_eq_true, beq_iff_eq] at hseg
        have hstep : scanBwd nodes key (f + 1) (front (x :: rest)) ib =
            (match keyCmp key nx.key_ with
             | .eq => .existing x
             | .lt => scanBwd nodes key f nx.prev_ (some x)
             | .gt => .done ib) := by
          rw [show front (x :: rest) = x from rfl, scanBwd_succ, hx]
        cases hc : keyCmp key nx.key_ with
        | eq =>
          left
          refine ⟨x, hsub x (List.mem_cons_self x rest), ?_, by rw [hstep, hc]⟩
          simp only [keyAt, hx, keyCmp_eq_eq.mp hc]
        | gt =>
          right
          exact ⟨ib, hib, by rw [hstep, hc]⟩
        | lt =>
          have hprev : nx.prev_ = front rest := hseg.1.2
          have hrec : scanBwd nodes key (f + 1) (front (x :: rest)) ib =
              scanBwd nodes key f (front rest) (some x) := by
            rw [hstep, hc, hprev]
          rw [hrec]
          simp only [List.length_cons] at hfuel
          have hf2 : rest.length + 1 ≤ f := by omega
          exact ih hseg.2 (fun y hy => hsub y (List.mem_cons_of_mem x hy)) hf2
            (fun t ht => by
              injection ht with ht2
              exact ht2 ▸ hsub x (List.mem_cons_self x rest))

/-- `oipCore` on a non-`lt` comparison where the forward scan finds the key:
no-op, return the existing index. -/
theorem oipCore_fwd_existing [LinearOrder K] {l : LinkedList K V} {k : K} {s t : Nat}
    {fn : Node K V} (hc : keyCmp k fn.key_ ≠ .lt)
    (hs : scanFwd l.nodes_ k (l.nodes_.length + 1) s = .existing t) (v : V) :
    l.oipCore k v s fn = (.ok t, l) := by
  unfold LinkedList.oipCore
  cases hcc : keyCmp k fn.key_ with
  | lt => exact absurd hcc hc
  | eq => simp only [hs]
  | gt => simp only [hs]

/-- `oipCore` on a non-`lt` comparison where the forward scan records an
insertion point: insert before it. -/
theorem oipCore_fwd_before [LinearOrder K] {l : LinkedList K V} {k : K} {s t : Nat}
    {fn : Node K V} (hc : keyCmp k fn.key_ ≠ .lt)
    (hs : scanFwd l.nodes_ k (l.nodes_.length + 1) s = .before t) (v : V) :
    l.oipCore k v s fn = l.insert_before_ t k v := by
  unfold LinkedList.oipCore
  cases hcc : keyCmp k fn.key_ with
  | lt => exact absurd hcc hc
  | eq => simp only [hs]
  | gt => simp only [hs]

/-- `oipCore` on a non-`lt` comparison where the forward scan runs off the
tail: append at the back. -/
theorem oipCore_fwd_atEnd [LinearOrder K] {l : LinkedList K V} {k : K} {s : Nat}
    {fn : Node K V} (hc : keyCmp k fn.key_ ≠ .lt)
    (hs : scanFwd l.nodes_ k (l.nodes_.length + 1) s = .atEnd) (v : V) :
    l.oipCore k v s fn = l.push_back_ k v := by
  unfold LinkedList.oipCore
  cases hcc : keyCmp k fn.key_ with
  | lt => exact absurd hcc hc
  | eq => simp only [hs]
  | gt => simp only [hs]

/-- `oipCore` on a `lt` comparison where the backward scan finds the key:
no-op, return the existing index. -/
theorem oipCore_bwd_existing [LinearOrder K] {l : LinkedList K V} {k : K} {s t : Nat}
    {fn : Node K V} (hc : keyCmp k fn.key_ = .lt)
    (hs : scanBwd l.nodes_ k (l.nodes_.length + 1) s (some s) = .existing t) (v : V) :
    l.oipCore k v s fn = (.ok t, l) := by
  unfold LinkedList.oipCore
  rw [hc]
  simp only [hs]

/-- `oipCore` on a `lt` comparison where the backward scan ends with a
recorded insertion point: insert before it. -/
theorem oipCore_bwd_before [LinearOrder K] {l : LinkedList K V} {k : K} {s t : Nat}
    {fn : Node K V} (hc : keyCmp k fn.key_ = .lt)
    (hs : scanBwd l.nodes_ k (l.nodes_.length + 1) s (some s) = .done (some t)) (v : V) :
    l.oipCore k v s fn = l.insert_before_ t k v := by
  unfold LinkedList.oipCore
  rw [hc]
  simp only [hs]

/-- `oipCore` on a `lt` comparison where the backward scan ends with no
recorded insertion point: append at the back. -/
theorem oipCore_bwd_none [LinearOrder K] {l : LinkedList K V} {k : K} {s : Nat}
    {fn : Node K V} (hc : keyCmp k fn.key_ = .lt)
    (hs : scanBwd l.nodes_ k (l.nodes_.length + 1) s (some s) = .done none) (v : V) :
    l.oipCore k v s fn = l.push_back_ k v := by
  unfold LinkedList.oipCore
  rw [hc]
  simp only [hs]

/-- On an empty list (`head_` is the sentinel), `ordered_insert_pos` is a
plain `push_back_`, whatever the hint. -/
theorem oip_empty [LinearOrder K] {l : LinkedList K V} (hhead : l.head_ = OUT_OF_BOUNDS)
    (k : K) (v : V) (pos : Nat) : l.ordered_insert_pos k v pos = l.push_back_ k v := by
  unfold LinkedList.ordered_insert_pos
  rw [if_pos hhead]

/-- When the hinted slot is live, `ordered_insert_pos` anchors the scan there. -/
theorem oip_hint_live [LinearOrder K] {l : LinkedList K V} (hhead : ¬ l.head_ = OUT_OF_BOUNDS)
    {pos : Nat} {fn : Node K V} (hget : l.nodes_[pos]? = some (some fn)) (k : K) (v : V) :
    l.ordered_insert_pos k v pos = l.oipCore k v pos fn := by
  unfold LinkedList.ordered_insert_pos
  rw [if_neg hhead]
  simp only [hget]

/-- When the hinted slot is not live, `ordered_insert_pos` falls back to
anchoring the scan at the (live) head. -/
theorem oip_hint_fallback [LinearOrder K] {l : LinkedList K V} (hhead : ¬ l.head_ = OUT_OF_BOUNDS)
    {pos : Nat} (hget : l.nodes_[pos]? = some none ∨ l.nodes_[pos]? = none)
    {fh : Node K V} (hhget : l.nodes_[l.head_]? = some (some fh)) (k : K) (v : V) :
    l.ordered_insert_pos k v pos = l.oipCore k v l.head_ fh := by
  unfold LinkedList.ordered_insert_pos
  rw [if_neg hhead]
  rcases hget with hg | hg <;> simp only [hg, hhget]

/-- On a well-formed non-empty list, the hint resolution of
`ordered_insert_pos` always lands on a live chain member. -/
theorem oip_anchor [LinearOrder K] {l : LinkedList K V} {c : List Nat} (h : Realizes l c)
    (hhead : ¬ l.head_ = OUT_OF_BOUNDS) (pos : Nat) :
    ∃ s fn, s ∈ c ∧ l.nodes_[s]? = some (some fn) ∧
      ∀ (k : K) (v : V), l.ordered_insert_pos k v pos = l.oipCore k v s fn := by
  have hcne : c ≠ [] := by
    intro he
    apply hhead
    rw [h.headEq, he]
    rfl
  cases hpos : l.nodes_[pos]? with
  | some o =>
    cases o with
    | some fn =>
      exact ⟨pos, fn, h.mem_of_live hpos, hpos, fun k v => oip_hint_live hhead hpos k v⟩
    | none =>
      obtain ⟨fh, hfh⟩ := h.mem_live (h.head_mem hcne)
      exact ⟨l.head_, fh, h.head_mem hcne, hfh,
        fun k v => oip_hint_fallback hhead (Or.inl hpos) hfh k v⟩
  | none =>
    obtain ⟨fh, hfh⟩ := h.mem_live (h.head_mem hcne)
    exact ⟨l.head_, fh, h.head_mem hcne, hfh,
      fun k v => oip_hint_fallback hhead (Or.inr hpos) hfh k v⟩

/-- Any successful `ordered_insert_pos` preserves well-formedness: the
resulting state is realized by some chain. -/
theorem ordered_insert_pos_realizes [LinearOrder K] {l : LinkedList K V} {c : List Nat}
    (h : Realizes l c) (hb : l.nodes_.length + 1 < OUT_OF_BOUNDS)
    {k : K} {v : V} {pos i : Nat} {l2 : LinkedList K V}
    (hok : l.ordered_insert_pos k v pos = (.ok i, l2)) :
    ∃ c2, Realizes l2 c2 := by
  have hb2 : l.id_pool_.isEmpty = true → l.nodes_.length + 1 < OUT_OF_BOUNDS := fun _ => hb
  have hOOB : l.nodes_.length ≤ OUT_OF_BOUNDS := Nat.le_of_lt h.lenLt
  by_cases hhead : l.head_ = OUT_OF_BOUNDS
  · obtain ⟨L, heq, hreal, -, -, -⟩ := push_back_spec h k v hb2
    rw [oip_empty hhead, heq] at hok
    have hL : L = l2 := congrArg Prod.snd hok
    exact ⟨_, hL ▸ hreal⟩
  · obtain ⟨s, fn, hsmem, hsget, hoip⟩ := oip_anchor h hhead pos
    rw [hoip k v] at hok
    obtain ⟨a, b, hab⟩ := List.append_of_mem hsmem
    have hlenc : c.length ≤ l.nodes_.length := h.chain_len_le
    have hablen : c.length = a.length + (b.length + 1) := by
      rw [hab]
      simp [List.length_append]
    cases hc2 : keyCmp k fn.key_ with
    | lt =>
      have hsegr : segRB l.nodes_ OUT_OF_BOUNDS c.reverse OUT_OF_BOUNDS = true :=
        segRB_of_segB h.seg
      have hcrev : c.reverse = b.reverse ++ (s :: a.reverse) := by
        rw [hab]
        simp
      rw [hcrev, segRB_append] at hsegr
      simp only [Bool.and_eq_true] at hsegr
      have hsegb := hsegr.2
      have hfuel : (s :: a.reverse).length + 1 ≤ l.nodes_.length + 1 := by
        simp only [List.length_cons, List.length_reverse]
        omega
      have hsub : ∀ x ∈ s :: a.reverse, x ∈ c := by
        intro x hx
        rcases List.mem_cons.mp hx with hx | hx
        · exact hx ▸ hsmem
        · rw [hab]
          exact List.mem_append_left _ (List.mem_reverse.mp hx)
      have hib : ∀ t, (some s : Option Nat) = some t → t ∈ c := by
        intro t ht
        injection ht with ht
        exact ht ▸ hsmem
      rcases scanBwd_cases hsegb hOOB hsub hfuel hib with
        ⟨t, htc, hkt, hsc⟩ | ⟨ib2, hib2, hsc⟩
      · rw [show front (s :: a.reverse) = s from rfl] at hsc
        rw [oipCore_bwd_existing hc2 hsc v] at hok
        have hL : l = l2 := congrArg Prod.snd hok
        exact ⟨c, hL ▸ h⟩
      · rw [show front (s :: a.reverse) = s from rfl] at hsc
        cases ib2 with
        | some t =>
          have htc : t ∈ c := hib2 t rfl
          obtain ⟨a2, b2, hab2⟩ := List.append_of_mem htc
          obtain ⟨L, heq, hreal, -, -, -⟩ := insert_before_spec h hab2 k v hb2
          rw [oipCore_bwd_before hc2 hsc v, heq] at hok
          have hL : L = l2 := congrArg Prod.snd hok
          exact ⟨_, hL ▸ hreal⟩
        | none =>
          obtain ⟨L, heq, hreal, -, -, -⟩ := push_back_spec h k v hb2
          rw [oipCore_bwd_none hc2 hsc v, heq] at hok
          have hL : L = l2 := congrArg Prod.snd hok
          exact ⟨_, hL ▸ hreal⟩
    | eq =>
      have hcne2 : keyCmp k fn.key_ ≠ .lt := by rw [hc2]; intro hx; cases hx
      have hs0 := h.seg
      rw [hab, segB_append] at hs0
      simp only [Bool.and_eq_true] at hs0
      have hsegf := hs0.2
      have hfuel : (s :: b).length + 1 ≤ l.nodes_.length + 1 := by
        simp only [List.length_cons]
        omega
      rcases scanFwd_cases hsegf hOOB hfuel with
        ⟨t, htc, hkt, hsc⟩ | ⟨t, htc, hsc⟩ | hsc
      · rw [show front (s :: b) = s from rfl] at hsc
        rw [oipCore_fwd_existing hcne2 hsc v] at hok
        have hL : l = l2 := congrArg Prod.snd hok
        exact ⟨c, hL ▸ h⟩
      · rw [show front (s :: b) = s from rfl] at hsc
        have htc2 : t ∈ c := by
          rw [hab]
          exact List.mem_append_right _ htc
        obtain ⟨a2, b2, hab2⟩ := List.append_of_mem htc2
        obtain ⟨L, heq, hreal, -, -, -⟩ := insert_before_spec h hab2 k v hb2
        rw [oipCore_fwd_before hcne2 hsc v, heq] at hok
        have hL : L = l2 := congrArg Prod.snd hok
        exact ⟨_, hL ▸ hreal⟩
      · rw [show front (s :: b) = s from rfl] at hsc
        obtain ⟨L, heq, hreal, -, -, -⟩ := push_back_spec h k v hb2
        rw [oipCore_fwd_atEnd hcne2 hsc v, heq] at hok
        have hL : L = l2 := congrArg Prod.snd hok
        exact ⟨_, hL ▸ hreal⟩
    | gt =>
      have hcne2 : keyCmp k fn.key_ ≠ .lt := by rw [hc2]; intro hx; cases hx
      have hs0 := h.seg
      rw [hab, segB_append] at hs0
      simp only [Bool.and_eq_true] at hs0
      have hsegf := hs0.2
      have hfuel : (s :: b).length + 1 ≤ l.nodes_.length + 1 := by
        simp only [List.length_cons]
        omega
      rcases scanFwd_cases hsegf hOOB hfuel with
        ⟨t, htc, hkt, hsc⟩ | ⟨t, htc, hsc⟩ | hsc
      · rw [show front (s :: b) = s from rfl] at hsc
        rw [oipCore_fwd_existing hcne2 hsc v] at hok
        have hL : l = l2 := congrArg Prod.snd hok
        exact ⟨c, hL ▸ h⟩
      · rw [show front (s :: b) = s from rfl] at hsc
        have htc2 : t ∈ c := by
          rw [hab]
          exact List.mem_append_right _ htc
        obtain ⟨a2, b2, hab2⟩ := List.append_of_mem htc2
        obtain ⟨L, heq, hreal, -, -, -⟩ := insert_before_spec h hab2 k v hb2
        rw [oipCore_fwd_before hcne2 hsc v, heq] at hok
        have hL : L = l2 := congrArg Prod.snd hok
        exact ⟨_, hL ▸ hreal⟩
      · rw [show front (s :: b) = s from rfl] at hsc
        obtain ⟨L, heq, hreal, -, -, -⟩ := push_back_spec h k v hb2
        rw [oipCore_fwd_atEnd hcne2 hsc v, heq] at hok
        have hL : L = l2 := congrArg Prod.snd hok
        exact ⟨_, hL ▸ hreal⟩

/-- An element produced by `getLast?` is a member. -/
theorem getLast?_mem_self {A : Type} {l : List A} {a : A} (h : l.getLast? = some a) :
    a ∈ l := by
  obtain ⟨hne, hx⟩ := List.mem_getLast?_eq_getLast (Option.mem_def.mpr h)
  rw [hx]
  exact List.getLast_mem hne

theorem chainKeys_append {K V : Type} (nodes : List (Option (Node K V))) (u w : List Nat) :
    chainKeys nodes (u ++ w) = chainKeys nodes u ++ chainKeys nodes w :=
  List.filterMap_append u w (keyAt nodes)

theorem chainEntries_append {K V : Type} (nodes : List (Option (Node K V))) (u w : List Nat) :
    chainEntries nodes (u ++ w) = chainEntries nodes u ++ chainEntries nodes w :=
  List.filterMap_append u w (entryAt nodes)

/-- Slot keys unchanged along a list of indices means unchanged chain keys. -/
theorem chainKeys_congr {K V : Type} {nodes nodes2 : List (Option (Node K V))} {u : List Nat}
    (h : ∀ x ∈ u, keyAt nodes2 x = keyAt nodes x) :
    chainKeys nodes2 u = chainKeys nodes u :=
  List.filterMap_congr h

theorem chainKeys_cons_live {K V : Type} {nodes : List (Option (Node K V))} {x : Nat} {kx : K}
    (h : keyAt nodes x = some kx) (u : List Nat) :
    chainKeys nodes (x :: u) = kx :: chainKeys nodes u := by
  unfold chainKeys
  rw [List.filterMap_cons, h]

theorem mem_chainKeys {K V : Type} {nodes : List (Option (Node K V))} {u : List Nat} {x : Nat}
    {kx : K} (hx : x ∈ u) (hk : keyAt nodes x = some kx) : kx ∈ chainKeys nodes u :=
  List.mem_filterMap.mpr ⟨x, hx, hk⟩

theorem of_mem_chainKeys {K V : Type} {nodes : List (Option (Node K V))} {u : List Nat} {kx : K}
    (h : kx ∈ chainKeys nodes u) : ∃ x ∈ u, keyAt nodes x = some kx :=
  List.mem_filterMap.mp h

/-- Inserting a key between a prefix bounded above by it and a suffix bounded
below by it preserves strict sortedness. -/
theorem chain'_lt_append_cons {K : Type} [LinearOrder K] {u w : List K} {k : K}
    (h : List.Chain' (· < ·) (u ++ w))
    (hu : ∀ x, u.getLast? = some x → x < k)
    (hw : ∀ y, w.head? = some y → k < y) :
    List.Chain' (· < ·) (u ++ k :: w) := by
  rw [List.chain'_append] at h
  obtain ⟨h1, h2, h3⟩ := h
  rw [List.chain'_append]
  refine ⟨h1, ?_, ?_⟩
  · rw [List.chain'_cons']
    exact ⟨fun y hy => hw y (Option.mem_def.mp hy), h2⟩
  · intro x hx y hy
    simp only [List.head?_cons, Option.mem_def, Option.some.injEq] at hy
    rw [← hy]
    exact hu x (Option.mem_def.mp hx)

/-- In a strictly sorted chain a key is held by at most one slot. -/
theorem sorted_key_unique {K V : Type} [LinearOrder K] {nodes : List (Option (Node K V))}
    {c : List Nat} (hs : List.Pairwise (· < ·) (chainKeys nodes c)) {x y : Nat} {k : K}
    (hx : x ∈ c) (hy : y ∈ c) (hkx : keyAt nodes x = some k) (hky : keyAt nodes y = some k) :
    x = y := by
  by_contra hne
  obtain ⟨u, w, rfl⟩ := List.append_of_mem hx
  rw [chainKeys_append, chainKeys_cons_live hkx, List.pairwise_append] at hs
  obtain ⟨h1, h2, h3⟩ := hs
  rcases List.mem_append.mp hy with hyu | hyw
  · exact absurd (h3 k (mem_chainKeys hyu hky) k (List.mem_cons_self _ _)) (lt_irrefl k)
  · rcases List.mem_cons.mp hyw with he | hyw
    · exact hne he.symm
    · rw [List.pairwise_cons] at h2
      exact absurd (h2.1 k (mem_chainKeys hyw hky)) (lt_irrefl k)

/-- The forward scan of `ordered_insert_pos` along a linked segment, in terms
of where it lands: an equal key at some member; or the first member with a
strictly greater key, every earlier member being strictly smaller; or the end
of the segment, every member being strictly smaller. -/
theorem scanFwd_split [LinearOrder K] {nodes : List (Option (Node K V))} {key : K}
    {s : List Nat} {p : Nat} (hseg : segB nodes p s OUT_OF_BOUNDS = true)
    (hOOB : nodes.length ≤ OUT_OF_BOUNDS) {fuel : Nat} (hfuel : s.length + 1 ≤ fuel) :
    (∃ w t b2, s = w ++ t :: b2 ∧
        keyAt nodes t = some key ∧
        scanFwd nodes key fuel (front s) = .existing t) ∨
    (∃ w t b2, s = w ++ t :: b2 ∧
        (∀ x ∈ w, ∀ kx, keyAt nodes x = some kx → kx < key) ∧
        (∀ kt, keyAt nodes t = some kt → key < kt) ∧
        scanFwd nodes key fuel (front s) = .before t) ∨
    ((∀ x ∈ s, ∀ kx, keyAt nodes x = some kx → kx < key) ∧
        scanFwd nodes key fuel (front s) = .atEnd) := by
  induction s generalizing p fuel with
  | nil =>
    obtain ⟨f, rfl⟩ : ∃ f, fuel = f + 1 := ⟨fuel - 1, by omega⟩
    right; right
    refine ⟨by simp, ?_⟩
    rw [scanFwd_succ]
    have : nodes[front ([] : List Nat)]? = none := List.getElem?_eq_none hOOB
    rw [this]
  | cons x rest ih =>
    obtain ⟨f, rfl⟩ : ∃ f, fuel = f + 1 := ⟨fuel - 1, by omega⟩
    rw [segB_cons] at hseg
    cases hx : nodes[x]? with
    | none => rw [hx] at hseg; exact absurd hseg (by simp)
    | some o => cases o with
      | none => rw [hx] at hseg; exact absurd hseg (by simp)
      | some nx =>
        rw [hx] at hseg
        simp only [Bool.and_eq_true, beq_iff_eq] at hseg
        have hkx : keyAt nodes x = some nx.key_ := by
          unfold keyAt; rw [hx]
        have hstep : scanFwd nodes key (f + 1) (front (x :: rest)) =
            (match keyCmp key nx.key_ with
             | .eq => .existing x
             | .lt => .before x
             | .gt => scanFwd nodes key f nx.next_) := by
          rw [show front (x :: rest) = x from rfl, scanFwd_succ, hx]
        cases hc : keyCmp key nx.key_ with
        | eq =>
          left
          refine ⟨[], x, rest, rfl, ?_, by rw [hstep, hc]⟩
          rw [hkx, keyCmp_eq_eq.mp hc]
        | lt =>
          right; left
          refine ⟨[], x, rest, rfl, by simp, ?_, by rw [hstep, hc]⟩
          intro kt hkt
          rw [hkx] at hkt
          injection hkt with hkt
          rw [← hkt]
          exact keyCmp_eq_lt.mp hc
        | gt =>
          have hxlt : nx.key_ < key := keyCmp_eq_gt.mp hc
          have hxfact : ∀ kx, keyAt nodes x = some kx → kx < key := by
            intro kx hk
            rw [hkx] at hk
            injection hk with hk
            rw [← hk]
            exact hxlt
          have hnext : nx.next_ = front rest := hseg.1.2
          have hrec : scanFwd nodes key (f + 1) (front (x :: rest)) =
              scanFwd nodes key f (front rest) := by
            rw [hstep, hc, hnext]
          rw [hrec]
          simp only [List.length_cons] at hfuel
          have hf2 : rest.length + 1 ≤ f := by omega
          rcases ih hseg.2 hf2 with ⟨w, t, b2, hdec, hkt, he⟩ |
            ⟨w, t, b2, hdec, hw, hkt, he⟩ | ⟨hall, he⟩
          · exact Or.inl ⟨x :: w, t, b2, by rw [hdec, List.cons_append], hkt, he⟩
          · refine Or.inr (Or.inl ⟨x :: w, t, b2, by rw [hdec, List.cons_append], ?_, hkt, he⟩)
            intro y hy
            rcases List.mem_cons.mp hy with he2 | hy2
            · exact he2 ▸ hxfact
            · exact hw y hy2
          · refine Or.inr (Or.inr ⟨?_, he⟩)
            intro y hy
            rcases List.mem_cons.mp hy with he2 | hy2
            · exact he2 ▸ hxfact
            · exact hall y hy2

theorem getLastOr_cons {x : Nat} {w : List Nat} {ib : Option Nat} :
    ((x :: w).getLast?).or ib = (w.getLast?).or (some x) := by
  cases w with
  | nil => rfl
  | cons y ys =>
    rw [List.getLast?_cons_cons]
    obtain ⟨z, hz⟩ : ∃ z, (y :: ys).getLast? = some z :=
      ⟨(y :: ys).getLast (by simp), List.getLast?_eq_getLast _ _⟩
    rw [hz]
    rfl

/-- The backward scan of `ordered_insert_pos` along a backward-linked segment:
an equal key at some member; or a stop at the first member with a strictly
smaller key, every earlier member being strictly greater and the last of them
(if any, else the incoming candidate) recorded; or a walk off the far end with
every member strictly greater and the last one recorded. -/
theorem scanBwd_split [LinearOrder K] {nodes : List (Option (Node K V))} {key : K}
    {r : List Nat} {nret : Nat} (hseg : segRB nodes nret r OUT_OF_BOUNDS = true)
    (hOOB : nodes.length ≤ OUT_OF_BOUNDS) {fuel : Nat} (hfuel : r.length + 1 ≤ fuel)
    (ib : Option Nat) :
    (∃ w t b2, r = w ++ t :: b2 ∧
        keyAt nodes t = some key ∧
        scanBwd nodes key fuel (front r) ib = .existing t) ∨
    (∃ w x b2, r = w ++ x :: b2 ∧
        (∀ y ∈ w, ∀ ky, keyAt nodes y = some ky → key < ky) ∧
        (∀ kx, keyAt nodes x = some kx → kx < key) ∧
        scanBwd nodes key fuel (front r) ib = .done ((w.getLast?).or ib)) ∨
    ((∀ y ∈ r, ∀ ky, keyAt nodes y = some ky → key < ky) ∧
        scanBwd nodes key fuel (front r) ib = .done ((r.getLast?).or ib)) := by
  induction r generalizing nret fuel ib with
  | nil =>
    obtain ⟨f, rfl⟩ : ∃ f, fuel = f + 1 := ⟨fuel - 1, by omega⟩
    right; right
    refine ⟨by simp, ?_⟩
    rw [scanBwd_succ]
    have : nodes[front ([] : List Nat)]? = none := List.getElem?_eq_none hOOB
    rw [this]
    rfl
  | cons x rest ih =>
    obtain ⟨f, rfl⟩ : ∃ f, fuel = f + 1 := ⟨fuel - 1, by omega⟩
    rw [segRB_cons] at hseg
    cases hx : nodes[x]? with
    | none => rw [hx] at hseg; exact absurd hseg (by simp)
    | some o => cases o with
      | none => rw [hx] at hseg; exact absurd hseg (by simp)
      | some nx =>
        rw [hx] at hseg
        simp only [Bool.and_eq_true, beq_iff_eq] at hseg
        have hkx : keyAt nodes x = some nx.key_ := by
          unfold keyAt; rw [hx]
        have hstep : scanBwd nodes key (f + 1) (front (x :: rest)) ib =
            (match keyCmp key nx.key_ with
             | .eq => .existing x
             | .lt => scanBwd nodes key f nx.prev_ (some x)
             | .gt => .done ib) := by
          rw [show front (x :: rest) = x from rfl, scanBwd_succ, hx]
        cases hc : keyCmp key nx.key_ with
        | eq =>
          left
          refine ⟨[], x, rest, rfl, ?_, by rw [hstep, hc]⟩
          rw [hkx, keyCmp_eq_eq.mp hc]
        | gt =>
          right; left
          refine ⟨[], x, rest, rfl, by simp, ?_, by rw [hstep, hc]; rfl⟩
          intro kx hk
          rw [hkx] at hk
          injection hk with hk
          rw [← hk]
          exact keyCmp_eq_gt.mp hc
        | lt =>
          have hxgt : key < nx.key_ := keyCmp_eq_lt.mp hc
          have hxfact : ∀ kx, keyAt nodes x = some kx → key < kx := by
            intro kx hk
            rw [hkx] at hk
            injection hk with hk
            rw [← hk]
            exact hxgt
          have hprev : nx.prev_ = front rest := hseg.1.2
          have hrec : scanBwd nodes key (f + 1) (front (x :: rest)) ib =
              scanBwd nodes key f (front rest) (some x) := by
            rw [hstep, hc, hprev]
          rw [hrec]
          simp only [List.length_cons] at hfuel
          have hf2 : rest.length + 1 ≤ f := by omega
          rcases ih hseg.2 hf2 (some x) with ⟨w, t, b2, hdec, hkt, he⟩ |
            ⟨w, x2, b2, hdec, hw, hkx2, he⟩ | ⟨hall, he⟩
          · exact Or.inl ⟨x :: w, t, b2, by rw [hdec, List.cons_append], hkt, he⟩
          · refine Or.inr (Or.inl ⟨x :: w, x2, b2, by rw [hdec, List.cons_append], ?_, hkx2, ?_⟩)
            · intro y hy
              rcases List.mem_cons.mp hy with he2 | hy2
              · exact he2 ▸ hxfact
              · exact hw y hy2
            · rw [he, getLastOr_cons]
          · refine Or.inr (Or.inr ⟨?_, ?_⟩)
            · intro y hy
              rcases List.mem_cons.mp hy with he2 | hy2
              · exact he2 ▸ hxfact
              · exact hall y hy2
            · rw [he, getLastOr_cons]

/-- Master characterization of `oipCore` on a well-formed, strictly sorted
chain, for any live anchor: either the key is already present and the call is
a no-op returning that member, or the chain splits into a strictly-smaller
prefix and a strictly-greater suffix and the call inserts exactly at the
junction (`insert_before_` the first member of the suffix, or `push_back_`
when the suffix is empty). -/
theorem oipCore_sorted [LinearOrder K] {l : LinkedList K V} {c : List Nat} (h : Realizes l c)
    (hs : SortedChain l.nodes_ c) {s : Nat} {fn : Node K V} (hsmem : s ∈ c)
    (hsget : l.nodes_[s]? = some (some fn)) (k : K) (v : V) :
    (∃ t ∈ c, keyAt l.nodes_ t = some k ∧ l.oipCore k v s fn = (.ok t, l)) ∨
    (∃ a2 b2, c = a2 ++ b2 ∧
      (∀ x ∈ a2, ∀ kx, keyAt l.nodes_ x = some kx → kx < k) ∧
      (∀ y ∈ b2, ∀ ky, keyAt l.nodes_ y = some ky → k < ky) ∧
      ((b2 = [] ∧ l.oipCore k v s fn = l.push_back_ k v) ∨
       (∃ t b3, b2 = t :: b3 ∧ l.oipCore k v s fn = l.insert_before_ t k v))) := by
  have hOOB : l.nodes_.length ≤ OUT_OF_BOUNDS := Nat.le_of_lt h.lenLt
  obtain ⟨a, b, hab⟩ := List.append_of_mem hsmem
  have hlenc : c.length ≤ l.nodes_.length := h.chain_len_le
  have hablen : c.length = a.length + (b.length + 1) := by
    rw [hab]; simp [List.length_append]
  have hkeyAts : keyAt l.nodes_ s = some fn.key_ := by
    unfold keyAt; rw [hsget]
  have hpw : List.Pairwise (· < ·) (chainKeys l.nodes_ c) := by
    have hs2 := hs
    unfold SortedChain at hs2
    exact List.chain'_iff_pairwise.mp hs2
  have hpw2 := hpw
  rw [hab, chainKeys_append, chainKeys_cons_live hkeyAts, List.pairwise_append] at hpw2
  have ha_lt_s : ∀ x ∈ a, ∀ kx, keyAt l.nodes_ x = some kx → kx < fn.key_ := by
    intro x hx kx hkx
    exact hpw2.2.2 kx (mem_chainKeys hx hkx) fn.key_ (List.mem_cons_self _ _)
  have hb_gt_s : ∀ y ∈ b, ∀ ky, keyAt l.nodes_ y = some ky → fn.key_ < ky := by
    intro y hy ky hky
    have hh := hpw2.2.1
    rw [List.pairwise_cons] at hh
    exact hh.1 ky (mem_chainKeys hy hky)
  have hpwsb : List.Pairwise (· < ·) (chainKeys l.nodes_ (s :: b)) := by
    rw [chainKeys_cons_live hkeyAts]
    exact hpw2.2.1
  cases hc2 : keyCmp k fn.key_ with
  | eq =>
    have hscan : scanFwd l.nodes_ k (l.nodes_.length + 1) s = .existing s := by
      rw [scanFwd_succ]
      simp only [hsget, hc2]
    have hcne : keyCmp k fn.key_ ≠ .lt := by
      rw [hc2]; intro hx; cases hx
    refine Or.inl ⟨s, hsmem, ?_, oipCore_fwd_existing hcne hscan v⟩
    rw [hkeyAts, keyCmp_eq_eq.mp hc2]
  | gt =>
    have hslt : fn.key_ < k := keyCmp_eq_gt.mp hc2
    have hcne : keyCmp k fn.key_ ≠ .lt := by
      rw [hc2]; intro hx; cases hx
    have hs0 := h.seg
    rw [hab, segB_append] at hs0
    simp only [Bool.and_eq_true] at hs0
    have hsegf := hs0.2
    have hfuel : (s :: b).length + 1 ≤ l.nodes_.length + 1 := by
      simp only [List.length_cons]
      omega
    rcases scanFwd_split hsegf hOOB hfuel with ⟨w, t, b3, hdec, hkt, he⟩ |
      ⟨w, t, b3, hdec, hwlt, htgt, he⟩ | ⟨hall, he⟩
    · rw [show front (s :: b) = s from rfl] at he
      have htc : t ∈ c := by
        rw [hab]
        exact List.mem_append_right a (hdec ▸ List.mem_append_right w (List.mem_cons_self t b3))
      exact Or.inl ⟨t, htc, hkt, oipCore_fwd_existing hcne he v⟩
    · rw [show front (s :: b) = s from rfl] at he
      have htc : t ∈ c := by
        rw [hab]
        exact List.mem_append_right a (hdec ▸ List.mem_append_right w (List.mem_cons_self t b3))
      obtain ⟨nt, hnt⟩ := h.mem_live htc
      have hkAtt : keyAt l.nodes_ t = some nt.key_ := by
        unfold keyAt; rw [hnt]
      have hpwt := hpwsb
      rw [hdec, chainKeys_append, chainKeys_cons_live hkAtt, List.pairwise_append] at hpwt
      have hb3 : ∀ z ∈ b3, ∀ kz, keyAt l.nodes_ z = some kz → nt.key_ < kz := by
        intro z hz kz hkz
        have hh := hpwt.2.1
        rw [List.pairwise_cons] at hh
        exact hh.1 kz (mem_chainKeys hz hkz)
      refine Or.inr ⟨a ++ w, t :: b3, ?_, ?_, ?_, Or.inr ⟨t, b3, rfl, oipCore_fwd_before hcne he v⟩⟩
      · rw [hab, hdec, List.append_assoc]
      · intro x hx kx hkx
        rcases List.mem_append.mp hx with hx | hx
        · exact lt_trans (ha_lt_s x hx kx hkx) hslt
        · exact hwlt x hx kx hkx
      · intro y hy ky hky
        rcases List.mem_cons.mp hy with he2 | hy2
        · exact htgt ky (he2 ▸ hky)
        · exact lt_trans (htgt nt.key_ hkAtt) (hb3 y hy2 ky hky)
    · rw [show front (s :: b) = s from rfl] at he
      refine Or.inr ⟨c, [], (List.append_nil c).symm, ?_, by simp,
        Or.inl ⟨rfl, oipCore_fwd_atEnd hcne he v⟩⟩
      intro x hx kx hkx
      rw [hab] at hx
      rcases List.mem_append.mp hx with hx | hx
      · exact lt_trans (ha_lt_s x hx kx hkx) hslt
      · exact hall x hx kx hkx
  | lt =>
    have hklt : k < fn.key_ := keyCmp_eq_lt.mp hc2
    have hsegr0 : segRB l.nodes_ OUT_OF_BOUNDS c.reverse OUT_OF_BOUNDS = true :=
      segRB_of_segB h.seg
    have hcrev : c.reverse = b.reverse ++ (s :: a.reverse) := by
      rw [hab]; simp
    rw [hcrev, segRB_append] at hsegr0
    simp only [Bool.and_eq_true] at hsegr0
    have hsegr := hsegr0.2
    have hfuelr : (s :: a.reverse).length + 1 ≤ l.nodes_.length + 1 := by
      simp only [List.length_cons, List.length_reverse]
      omega
    have hrmem : ∀ z ∈ s :: a.reverse, z ∈ c := by
      intro z hz
      rcases List.mem_cons.mp hz with he2 | hz2
      · exact he2 ▸ hsmem
      · rw [hab]
        exact List.mem_append_left (s :: b) (List.mem_reverse.mp hz2)
    rcases scanBwd_split hsegr hOOB hfuelr (some s) with ⟨w, t, b3, hdec, hkt, he⟩ |
      ⟨w, xs, b3, hdec, hwgt, hxlt, he⟩ | ⟨hall, he⟩
    · rw [show front (s :: a.reverse) = s from rfl] at he
      have htc : t ∈ c :=
        hrmem t (hdec ▸ List.mem_append_right w (List.mem_cons_self t b3))
      exact Or.inl ⟨t, htc, hkt, oipCore_bwd_existing hc2 he v⟩
    · rw [show front (s :: a.reverse) = s from rfl] at he
      have hwne : w ≠ [] := by
        intro hwnil
        rw [hwnil, List.nil_append] at hdec
        have hxs : xs = s := by
          injection hdec with h1 h2
          exact h1.symm
        have := hxlt fn.key_ (hxs ▸ hkeyAts)
        exact absurd hklt (not_lt_of_lt this)
      set t := w.getLast hwne with htdef
      have hgl : w.getLast? = some t := List.getLast?_eq_getLast w hwne
      have he2 : scanBwd l.nodes_ k (l.nodes_.length + 1) s (some s) = .done (some t) := by
        rw [he, hgl]
        rfl
      have htw : t ∈ w := List.getLast_mem hwne
      obtain ⟨t2, w2, hwrev⟩ := List.exists_cons_of_ne_nil
        (fun hx => hwne (List.reverse_eq_nil_iff.mp hx))
      have ht2 : t2 = t := by
        have hh : w.reverse.head? = w.getLast? := List.head?_reverse w
        rw [hwrev, hgl] at hh
        injection hh
      rw [ht2] at hwrev
      have hrev1 : a ++ [s] = (b3.reverse ++ [xs]) ++ t :: w2 := by
        have hr : (s :: a.reverse).reverse = (w ++ xs :: b3).reverse := by rw [hdec]
        rw [List.reverse_cons, List.reverse_reverse, List.reverse_append,
          List.reverse_cons, hwrev] at hr
        rw [hr]
      have hc_dec : c = (b3.reverse ++ [xs]) ++ t :: (w2 ++ b) := by
        rw [hab, show a ++ s :: b = (a ++ [s]) ++ b by simp, hrev1]
        simp [List.append_assoc]
      have hxsc : xs ∈ c :=
        hrmem xs (hdec ▸ List.mem_append_right w (List.mem_cons_self xs b3))
      obtain ⟨nxx, hnxx⟩ := h.mem_live hxsc
      have hkAtx : keyAt l.nodes_ xs = some nxx.key_ := by
        unfold keyAt; rw [hnxx]
      have hpwa2 : List.Pairwise (· < ·) (chainKeys l.nodes_ (b3.reverse ++ [xs])) := by
        have hpw3 := hpw
        rw [hc_dec, chainKeys_append, List.pairwise_append] at hpw3
        exact hpw3.1
      have hb3lt : ∀ z ∈ b3.reverse, ∀ kz, keyAt l.nodes_ z = some kz → kz < nxx.key_ := by
        intro z hz kz hkz
        rw [chainKeys_append, chainKeys_cons_live hkAtx, List.pairwise_append] at hpwa2
        exact hpwa2.2.2 kz (mem_chainKeys hz hkz) nxx.key_ (List.mem_cons_self _ _)
      have hw2w : ∀ y ∈ w2, y ∈ w := by
        intro y hy
        have : y ∈ w.reverse := by
          rw [hwrev]
          exact List.mem_cons_of_mem t hy
        exact List.mem_reverse.mp this
      refine Or.inr ⟨b3.reverse ++ [xs], t :: (w2 ++ b), hc_dec, ?_, ?_,
        Or.inr ⟨t, w2 ++ b, rfl, oipCore_bwd_before hc2 he2 v⟩⟩
      · intro z hz kz hkz
        rcases List.mem_append.mp hz with hz2 | hz2
        · exact lt_trans (hb3lt z hz2 kz hkz) (hxlt nxx.key_ hkAtx)
        · rcases List.mem_cons.mp hz2 with he3 | he3
          · exact hxlt kz (he3 ▸ hkz)
          · cases he3
      · intro y hy ky hky
        rcases List.mem_cons.mp hy with he3 | hy2
        · exact hwgt t htw ky (he3 ▸ hky)
        · rcases List.mem_append.mp hy2 with hy3 | hy3
          · exact hwgt y (hw2w y hy3) ky hky
          · exact lt_trans hklt (hb_gt_s y hy3 ky hky)
    · rw [show front (s :: a.reverse) = s from rfl] at he
      have hrne : (s :: a.reverse) ≠ [] := List.cons_ne_nil s a.reverse
      set t := (s :: a.reverse).getLast hrne with htdef
      have hgl : (s :: a.reverse).getLast? = some t :=
        List.getLast?_eq_getLast (s :: a.reverse) hrne
      have he2 : scanBwd l.nodes_ k (l.nodes_.length + 1) s (some s) = .done (some t) := by
        rw [he, hgl]
        rfl
      obtain ⟨t2, w2, hwrev⟩ := List.exists_cons_of_ne_nil
        (show (s :: a.reverse).reverse ≠ [] by simp)
      have ht2 : t2 = t := by
        have hh : (s :: a.reverse).reverse.head? = (s :: a.reverse).getLast? :=
          List.head?_reverse (s :: a.reverse)
        rw [hwrev, hgl] at hh
        injection hh
      rw [ht2] at hwrev
      have hrev1 : a ++ [s] = t :: w2 := by
        have hr := hwrev
        rw [List.reverse_cons, List.reverse_reverse] at hr
        exact hr
      have hc_dec : c = t :: (w2 ++ b) := by
        rw [hab, show a ++ s :: b = (a ++ [s]) ++ b by simp, hrev1]
        rfl
      refine Or.inr ⟨[], c, rfl, by simp, ?_,
        Or.inr ⟨t, w2 ++ b, hc_dec, oipCore_bwd_before hc2 he2 v⟩⟩
      intro y hy ky hky
      rw [hab] at hy
      rcases List.mem_append.mp hy with hy2 | hy2
      · exact hall y (List.mem_cons_of_mem s (List.mem_reverse.mpr hy2)) ky hky
      · rcases List.mem_cons.mp hy2 with he3 | hy3
        · exact hall s (List.mem_cons_self s a.reverse) ky (he3 ▸ hky)
        · exact lt_trans hklt (hb_gt_s y hy3 ky hky)

/-- Inserting a key already present in a well-formed sorted list is a complete
no-op returning the index of the existing node, for any hint. -/
theorem ordered_insert_pos_duplicate [LinearOrder K] {l : LinkedList K V} {c : List Nat}
    (h : Realizes l c) (hs : SortedChain l.nodes_ c) {t : Nat} {k : K}
    (ht : t ∈ c) (hk : keyAt l.nodes_ t = some k) (v : V) (pos : Nat) :
    l.ordered_insert_pos k v pos = (.ok t, l) := by
  have hpw : List.Pairwise (· < ·) (chainKeys l.nodes_ c) := by
    have hs2 := hs
    unfold SortedChain at hs2
    exact List.chain'_iff_pairwise.mp hs2
  have hcne : c ≠ [] := by
    rintro rfl
    cases ht
  have hhead : ¬ l.head_ = OUT_OF_BOUNDS := h.mem_ne_OOB (h.head_mem hcne)
  obtain ⟨s, fn, hsmem, hsget, hoip⟩ := oip_anchor h hhead pos
  rw [hoip k v]
  rcases oipCore_sorted h hs hsmem hsget k v with ⟨t2, ht2c, hkt2, hres⟩ |
    ⟨a2, b2, hdec, hlt, hgt, hjunction⟩
  · rw [hres, sorted_key_unique hpw ht2c ht hkt2 hk]
  · rw [hdec] at ht
    rcases List.mem_append.mp ht with hta | htb
    · exact absurd (hlt t hta k hk) (lt_irrefl k)
    · exact absurd (hgt t htb k hk) (lt_irrefl k)

/-- A single `ordered_insert_pos` on a well-formed sorted list (with room in
the arena) succeeds and preserves well-formedness and sortedness, growing the
arena by at most one slot. -/
theorem ordered_insert_pos_sorted [LinearOrder K] {l : LinkedList K V} {c : List Nat}
    (h : Realizes l c) (hs : SortedChain l.nodes_ c)
    (hroom2 : l.id_pool_.isEmpty = true → l.nodes_.length + 1 < OUT_OF_BOUNDS)
    (k : K) (v : V) (pos : Nat) :
    ∃ i l2 c2, l.ordered_insert_pos k v pos = (.ok i, l2) ∧ Realizes l2 c2 ∧
      SortedChain l2.nodes_ c2 ∧ l2.nodes_.length ≤ l.nodes_.length + 1 ∧
      (l2 = l ∨ i = (l.alloc).1) := by
  by_cases hhead : l.head_ = OUT_OF_BOUNDS
  · have hcnil : c = [] := by
      by_contra hne
      exact h.mem_ne_OOB (h.head_mem hne) hhead
    obtain ⟨l2, heq, hreal, hnode, hpres, hlen⟩ := push_back_spec h k v hroom2
    refine ⟨(l.alloc).1, l2, c ++ [(l.alloc).1], by rw [oip_empty hhead, heq], hreal, ?_, hlen,
      Or.inr rfl⟩
    rw [hcnil]
    unfold SortedChain
    rw [List.nil_append]
    have hkf : keyAt l2.nodes_ (l.alloc).1 = some k := by
      unfold keyAt; rw [hnode]
    rw [chainKeys_cons_live hkf]
    exact List.chain'_singleton k
  · obtain ⟨s, fn, hsmem, hsget, hoip⟩ := oip_anchor h hhead pos
    rcases oipCore_sorted h hs hsmem hsget k v with ⟨t, htc, hkt, hres⟩ |
      ⟨a2, b2, hdec, hlt, hgt, hjunction⟩
    · exact ⟨t, l, c, by rw [hoip k v, hres], h, hs, Nat.le_succ _, Or.inl rfl⟩
    · have hf : (l.alloc).1 ∉ c := alloc_not_mem h
      rcases hjunction with ⟨hb2nil, hres⟩ | ⟨t, b3, hb2cons, hres⟩
      · obtain ⟨l2, heq, hreal, hnode, hpres, hlen⟩ := push_back_spec h k v hroom2
        refine ⟨(l.alloc).1, l2, c ++ [(l.alloc).1], by rw [hoip k v, hres, heq], hreal, ?_, hlen,
          Or.inr rfl⟩
        unfold SortedChain
        have hkf : keyAt l2.nodes_ (l.alloc).1 = some k := by
          unfold keyAt; rw [hnode]
        rw [chainKeys_append, chainKeys_cons_live hkf,
          chainKeys_congr (fun x hx => hpres x (fun hxe => hf (hxe ▸ hx)))]
        apply chain'_lt_append_cons
        · rw [show chainKeys l2.nodes_ ([] : List Nat) = [] from rfl, List.append_nil]
          exact hs
        · intro x hx
          obtain ⟨z, hz, hkz⟩ := of_mem_chainKeys (getLast?_mem_self hx)
          have hza2 : z ∈ a2 := by
            rw [hdec, hb2nil, List.append_nil] at hz
            exact hz
          exact hlt z hza2 x hkz
        · intro y hy
          simp [chainKeys] at hy
      · have hdec2 : c = a2 ++ t :: b3 := by
          rw [hdec, hb2cons]
        obtain ⟨l2, heq, hreal, hkf, hpres, hlen⟩ := insert_before_spec h hdec2 k v hroom2
        refine ⟨(l.alloc).1, l2, a2 ++ (l.alloc).1 :: t :: b3,
          by rw [hoip k v, hres, heq], hreal, ?_, hlen, Or.inr rfl⟩
        unfold SortedChain
        have hpa2 : chainKeys l2.nodes_ a2 = chainKeys l.nodes_ a2 := by
          apply chainKeys_congr
          intro x hx
          exact hpres x (fun hxe => hf (hxe ▸ (hdec2 ▸ List.mem_append_left (t :: b3) hx)))
        have hptb : chainKeys l2.nodes_ (t :: b3) = chainKeys l.nodes_ (t :: b3) := by
          apply chainKeys_congr
          intro x hx
          exact hpres x (fun hxe => hf (hxe ▸ (hdec2 ▸ List.mem_append_right a2 hx)))
        rw [chainKeys_append, chainKeys_cons_live hkf, hpa2, hptb]
        apply chain'_lt_append_cons
        · rw [← chainKeys_append, ← hdec2]
          exact hs
        · intro x hx
          obtain ⟨z, hz, hkz⟩ := of_mem_chainKeys (getLast?_mem_self hx)
          exact hlt z hz x hkz
        · intro y hy
          have htc : t ∈ c := by
            rw [hdec2]
            exact List.mem_append_right a2 (List.mem_cons_self t b3)
          obtain ⟨nt, hnt⟩ := h.mem_live htc
          have hkAtt : keyAt l.nodes_ t = some nt.key_ := by
            unfold keyAt; rw [hnt]
          rw [chainKeys_cons_live hkAtt] at hy
          simp only [List.head?_cons, Option.some.injEq] at hy
          rw [← hy]
          exact hgt t (hb2cons ▸ List.mem_cons_self t b3) nt.key_ hkAtt

/-- Folding a batch of ordered inserts over a well-formed sorted list keeps it
well formed and sorted, as long as the arena cannot run into the sentinel. -/
theorem inserts_foldl_sorted [LinearOrder K] {ops : List (K × V)} :
    ∀ {l : LinkedList K V} {c : List Nat}, Realizes l c → SortedChain l.nodes_ c →
      l.nodes_.length + ops.length < OUT_OF_BOUNDS →
      ∃ c2, Realizes (ops.foldl (fun l3 kv => (l3.ordered_insert kv.1 kv.2).2) l) c2 ∧
        SortedChain (ops.foldl (fun l3 kv => (l3.ordered_insert kv.1 kv.2).2) l).nodes_ c2 := by
  induction ops with
  | nil =>
    intro l c h hs _
    exact ⟨c, h, hs⟩
  | cons kv rest ih =>
    intro l c h hs hlen
    simp only [List.foldl_cons]
    simp only [List.length_cons] at hlen
    obtain ⟨i, l2, c2, heq, h2, hs2, hle, -⟩ :=
      ordered_insert_pos_sorted h hs (fun _ => by omega) kv.1 kv.2 l.head_
    have hstep : (l.ordered_insert kv.1 kv.2).2 = l2 := by
      unfold LinkedList.ordered_insert
      rw [heq]
    rw [hstep]
    exact ih h2 hs2 (by omega)

/-- A list built by `ordered_insert` calls from the empty list is well formed
and its chain is strictly sorted. -/
theorem runInserts_sorted [LinearOrder K] (ops : List (K × V))
    (hlen : ops.length < OUT_OF_BOUNDS) :
    ∃ c, Realizes (runInserts ops) c ∧ SortedChain (runInserts ops).nodes_ c := by
  unfold runInserts
  have hd := default_realizes (K := K) (V := V)
  exact inserts_foldl_sorted hd (by
      unfold SortedChain chainKeys
      exact List.chain'_nil)
    (by
      show (LinkedList.default : LinkedList K V).nodes_.length + ops.length < OUT_OF_BOUNDS
      simp [LinkedList.default]
      exact hlen)

theorem iterGo_succ {K V : Type} {l : LinkedList K V} {fuel curr : Nat} :
    iterGo l (fuel + 1) curr =
      (match iterNext l curr with
       | none => []
       | some (entry, nxt) => entry :: iterGo l fuel nxt) := rfl

theorem iterNext_OOB {K V : Type} (l : LinkedList K V) :
    iterNext l OUT_OF_BOUNDS = none := by
  unfold iterNext
  rw [if_pos rfl]

theorem iterGo_OOB {K V : Type} (l : LinkedList K V) : ∀ fuel,
    iterGo l fuel OUT_OF_BOUNDS = [] := by
  intro fuel
  cases fuel with
  | zero => rfl
  | succ f =>
    rw [iterGo_succ, iterNext_OOB]

/-- Driving `ListIterator::next` along a suffix of the chain yields exactly
the entries of that suffix. -/
theorem iterGo_chain {K V : Type} {l : LinkedList K V} {c : List Nat} (h : Realizes l c) :
    ∀ (a s : List Nat), c = a ++ s → ∀ fuel, s.length ≤ fuel →
      iterGo l fuel (front s) = chainEntries l.nodes_ s := by
  intro a s
  induction s generalizing a with
  | nil =>
    intro _ fuel _
    exact iterGo_OOB l fuel
  | cons x rest ih =>
    intro hdec fuel hfuel
    obtain ⟨f, rfl⟩ : ∃ f, fuel = f + 1 := ⟨fuel - 1, by simp at hfuel; omega⟩
    have hxmem : x ∈ c := by
      rw [hdec]
      exact List.mem_append_right a (List.mem_cons_self x rest)
    obtain ⟨nd, hnd, hprev, hnext⟩ := segB_node_at (hdec ▸ h.seg)
    have hxOOB : x ≠ OUT_OF_BOUNDS := h.mem_ne_OOB hxmem
    have hentry : entryAt l.nodes_ x = some (nd.key_, nd.value_) := by
      unfold entryAt; rw [hnd]
    have hstep : iterNext l x =
        some ((nd.key_, nd.value_), if x = l.tail_ then OUT_OF_BOUNDS else nd.next_) := by
      unfold iterNext
      rw [if_neg hxOOB, hnd]
    cases rest with
    | nil =>
      have hxtail : x = l.tail_ := by
        rw [h.tailEq, hdec, back_append (List.cons_ne_nil x [])]
        rfl
      rw [iterGo_succ, show front [x] = x from rfl, hstep, if_pos hxtail]
      show (nd.key_, nd.value_) :: iterGo l f OUT_OF_BOUNDS = chainEntries l.nodes_ [x]
      rw [iterGo_OOB]
      unfold chainEntries
      rw [List.filterMap_cons, hentry]
      rfl
    | cons y ys =>
      have hxtail : ¬ x = l.tail_ := by
        intro hx
        have hback : l.tail_ = back (y :: ys) := by
          rw [h.tailEq, hdec, back_append (List.cons_ne_nil x (y :: ys)), back_cons
            (List.cons_ne_nil y ys)]
        have hmem : x ∈ y :: ys := by
          rw [hx, hback]
          exact back_mem (List.cons_ne_nil y ys)
        have hnd2 := h.nodup
        rw [hdec, List.nodup_append] at hnd2
        have := hnd2.2.1
        rw [List.nodup_cons] at this
        exact this.1 hmem
      rw [iterGo_succ, show front (x :: y :: ys) = x from rfl, hstep,
        if_neg (fun hx => hxtail hx)]
      show (nd.key_, nd.value_) :: iterGo l f nd.next_ = chainEntries l.nodes_ (x :: y :: ys)
      have hnext2 : nd.next_ = front (y :: ys) := hnext
      rw [hnext2]
      have hdec2 : c = (a ++ [x]) ++ y :: ys := by
        rw [hdec]
        simp
      simp only [List.length_cons] at hfuel
      rw [ih (a ++ [x]) hdec2 f (by simp only [List.length_cons]; omega)]
      unfold chainEntries
      rw [List.filterMap_cons (entryAt l.nodes_) x (y :: ys)]
      simp only [hentry]

/-- A fresh forward iteration of a well-formed list yields exactly the chain
entries in chain order. -/
theorem iter_collect_eq {K V : Type} {l : LinkedList K V} {c : List Nat} (h : Realizes l c) :
    iter_collect l = chainEntries l.nodes_ c := by
  unfold iter_collect
  have hfront : l.head_ = front c := h.headEq
  rw [hfront]
  exact iterGo_chain h [] c rfl (l.nodes_.length + 1) (by
    have := h.chain_len_le
    omega)

/-- Keys of the iterated entries are the chain keys. -/
theorem chainKeys_eq_map_fst {K V : Type} (nodes : List (Option (Node K V))) (c : List Nat) :
    List.map Prod.fst (chainEntries nodes c) = chainKeys nodes c := by
  unfold chainEntries chainKeys
  rw [List.map_filterMap]
  apply List.filterMap_congr
  intro x _
  unfold entryAt keyAt
  cases nodes[x]? with
  | none => rfl
  | some o =>
    cases o with
    | none => rfl
    | some nd => rfl

theorem getLastD_snoc {u : List Nat} {x d : Nat} : (u ++ [x]).getLastD d = x := by
  rw [List.getLastD_eq_getLast?, List.getLast?_concat]
  rfl

/-- `next_free_index` on an empty free stack is the append position. -/
theorem next_free_nil {K V : Type} {l : LinkedList K V} (h : l.id_pool_ = []) :
    l.next_free_index = l.nodes_.length := by
  unfold LinkedList.next_free_index
  rw [h]
  rfl

/-- `next_free_index` on a non-empty free stack is its top (the most recently
freed slot). -/
theorem next_free_concat {K V : Type} {l : LinkedList K V} {ps : List Nat} {p : Nat}
    (h : l.id_pool_ = ps ++ [p]) : l.next_free_index = p := by
  unfold LinkedList.next_free_index
  rw [h]
  rw [if_neg (by simp)]
  exact getLastD_snoc

/-- Every successful `push_front_` returns the index `next_free_index`
predicts. -/
theorem push_front_ret {K V : Type} {l : LinkedList K V} {k : K} {v : V} {i : Nat}
    {l2 : LinkedList K V} (hok : l.push_front_ k v = (.ok i, l2)) :
    i = l.next_free_index := by
  simp only [LinkedList.push_front_] at hok
  split at hok
  · have h1 : (Except.ok (LinkedList.replace_or_push_
        { l with
            nodes_ := l.nodes_.set l.head_ _, head_ := (l.alloc).1, id_pool_ := (l.alloc).2 }
        (l.alloc).1 _).1 : Except MapError Nat) = .ok i := congrArg Prod.fst hok
    rw [replace_or_push_fst] at h1
    injection h1 with h2
    rw [← h2, alloc_fst]
  · exact absurd (congrArg Prod.fst hok) (by simp)
  · have h1 : (Except.ok (LinkedList.replace_or_push_
        { l with head_ := (l.alloc).1, tail_ := (l.alloc).1, id_pool_ := (l.alloc).2 }
        (l.alloc).1 _).1 : Except MapError Nat) = .ok i := congrArg Prod.fst hok
    rw [replace_or_push_fst] at h1
    injection h1 with h2
    rw [← h2, alloc_fst]

/-- Every successful `push_back_` returns the index `next_free_index`
predicts. -/
theorem push_back_ret {K V : Type} {l : LinkedList K V} {k : K} {v : V} {i : Nat}
    {l2 : LinkedList K V} (hok : l.push_back_ k v = (.ok i, l2)) :
    i = l.next_free_index := by
  simp only [LinkedList.push_back_] at hok
  split at hok
  · have h1 : (Except.ok (LinkedList.replace_or_push_
        { l with
            nodes_ := l.nodes_.set l.tail_ _, tail_ := (l.alloc).1, id_pool_ := (l.alloc).2 }
        (l.alloc).1 _).1 : Except MapError Nat) = .ok i := congrArg Prod.fst hok
    rw [replace_or_push_fst] at h1
    injection h1 with h2
    rw [← h2, alloc_fst]
  · exact absurd (congrArg Prod.fst hok) (by simp)
  · have h1 : (Except.ok (LinkedList.replace_or_push_
        { l with head_ := (l.alloc).1, tail_ := (l.alloc).1, id_pool_ := (l.alloc).2 }
        (l.alloc).1 _).1 : Except MapError Nat) = .ok i := congrArg Prod.fst hok
    rw [replace_or_push_fst] at h1
    injection h1 with h2
    rw [← h2, alloc_fst]

/-- `insert_before_finish` can only succeed with the insertion index it was
given. -/
theorem insert_before_finish_ret {K V : Type} {l : LinkedList K V} {idx : Nat}
    {nn : Node K V} {i : Nat} {l2 : LinkedList K V}
    (hok : l.insert_before_finish idx nn = (.ok i, l2)) : i = idx := by
  simp only [LinkedList.insert_before_finish] at hok
  split at hok
  · have h1 : (Except.ok idx : Except MapError Nat) = .ok i := congrArg Prod.fst hok
    injection h1 with h2
    exact h2.symm
  · split at hok
    · have h1 : (Except.ok idx : Except MapError Nat) = .ok i := congrArg Prod.fst hok
      injection h1 with h2
      exact h2.symm
    · exact absurd (congrArg Prod.fst hok) (by simp)
    · exact absurd (congrArg Prod.fst hok) (by simp)

/-- Every successful `insert_before_` returns the index `next_free_index`
predicts. -/
theorem insert_before_ret {K V : Type} {l : LinkedList K V} {j : Nat} {k : K} {v : V}
    {i : Nat} {l2 : LinkedList K V} (hok : l.insert_before_ j k v = (.ok i, l2)) :
    i = l.next_free_index := by
  unfold LinkedList.insert_before_ at hok
  split at hok
  · exact push_front_ret hok
  · simp only [] at hok
    split at hok
    · rw [insert_before_finish_ret hok, alloc_fst]
    · exact absurd (congrArg Prod.fst hok) (by simp)
    · rw [insert_before_finish_ret hok, alloc_fst]

/-- A successful `remove__` is exactly an erase of a live chain member:
the chain loses that member, and the freed slot is pushed on the free stack,
becoming the next index to be handed out. -/
theorem remove___ok_full [LinearOrder K] {l : LinkedList K V} {c : List Nat}
    (h : Realizes l c) {idx : Nat} {rv : Nat × (K × V) × Nat} {l2 : LinkedList K V}
    (hok : l.remove__ idx = (.ok rv, l2)) :
    ∃ a b, c = a ++ idx :: b ∧ Realizes l2 (a ++ b) ∧
      l2.id_pool_ = l.id_pool_ ++ [idx] ∧
      (∀ m, m ≠ idx → keyAt l2.nodes_ m = keyAt l.nodes_ m) ∧
      l2.nodes_.length = l.nodes_.length ∧
      l2.next_free_index = idx := by
  by_cases hhead : l.head_ = OUT_OF_BOUNDS
  · unfold LinkedList.remove__ at hok
    rw [if_pos hhead] at hok
    exact absurd (congrArg Prod.fst hok) (by simp)
  · cases hcur : l.nodes_[idx]? with
    | some o =>
      cases o with
      | some nd =>
        have hmem : idx ∈ c := h.mem_of_live hcur
        obtain ⟨a, b, hdec⟩ := List.append_of_mem hmem
        obtain ⟨nd2, l3, hnd2, -, -, heq, hreal, hpool, hkeys, hlen⟩ := remove_spec h hdec
        rw [heq] at hok
        have hl : l3 = l2 := congrArg Prod.snd hok
        subst hl
        exact ⟨a, b, hdec, hreal, hpool, hkeys, hlen, next_free_concat hpool⟩
      | none =>
        unfold LinkedList.remove__ at hok
        rw [if_neg hhead] at hok
        simp only [hcur] at hok
        exact absurd (congrArg Prod.fst hok) (by simp)
    | none =>
      unfold LinkedList.remove__ at hok
      rw [if_neg hhead] at hok
      simp only [hcur] at hok
      exact absurd (congrArg Prod.fst hok) (by simp)

/-- A successful `remove__` preserves well-formedness. -/
theorem remove___ok_realizes [LinearOrder K] {l : LinkedList K V} {c : List Nat}
    (h : Realizes l c) {idx : Nat} {rv : Nat × (K × V) × Nat} {l2 : LinkedList K V}
    (hok : l.remove__ idx = (.ok rv, l2)) : ∃ c2, Realizes l2 c2 := by
  obtain ⟨a, b, -, hreal, -⟩ := remove___ok_full h hok
  exact ⟨a ++ b, hreal⟩

/-- Pointer symmetry on a well-formed state: a live node's neighbours point
back at it. -/
theorem realizes_backlinks {K V : Type} {l : LinkedList K V} {c : List Nat}
    (h : Realizes l c) : ∀ (i : Nat) (nd : Node K V), l.nodes_[i]? = some (some nd) →
      (nd.prev_ ≠ OUT_OF_BOUNDS →
        ∃ ndp, l.nodes_[nd.prev_]? = some (some ndp) ∧ ndp.next_ = i) ∧
      (nd.next_ ≠ OUT_OF_BOUNDS →
        ∃ ndn, l.nodes_[nd.next_]? = some (some ndn) ∧ ndn.prev_ = i) := by
  intro i nd hnd
  have hmem : i ∈ c := h.mem_of_live hnd
  obtain ⟨a, b, hdec⟩ := List.append_of_mem hmem
  obtain ⟨nd2, hnd2, hprev, hnext⟩ := segB_node_at (hdec ▸ h.seg)
  rw [hnd] at hnd2
  injection hnd2 with hnd2
  injection hnd2 with hnd2
  rw [← hnd2] at hprev hnext
  constructor
  · intro hpne
    have hane : a ≠ [] := by
      rintro rfl
      exact hpne hprev
    have hadec : a = a.dropLast ++ [back a] := chain_decomp_back hane
    have hdec2 : c = a.dropLast ++ back a :: i :: b := by
      rw [hdec]
      conv_lhs => rw [hadec]
      simp
    obtain ⟨ndp, hndp, -, hndpnext⟩ := segB_node_at (hdec2 ▸ h.seg)
    refine ⟨ndp, ?_, ?_⟩
    · rw [hprev, show a.getLastD OUT_OF_BOUNDS = back a from rfl]
      exact hndp
    · rw [hndpnext]
      rfl
  · intro hnne
    have hbne : b ≠ [] := by
      rintro rfl
      exact hnne hnext
    obtain ⟨t, b2, rfl⟩ := List.exists_cons_of_ne_nil hbne
    have hdec2 : c = (a ++ [i]) ++ t :: b2 := by
      rw [hdec]
      simp
    obtain ⟨ndn, hndn, hndnprev, -⟩ := segB_node_at (hdec2 ▸ h.seg)
    refine ⟨ndn, ?_, ?_⟩
    · rw [hnext, show (t :: b2).headD OUT_OF_BOUNDS = t from rfl]
      exact hndn
    · rw [hndnprev, show (a ++ [i]).getLastD OUT_OF_BOUNDS = (a ++ [i]).getLastD OUT_OF_BOUNDS from rfl]
      exact getLastD_snoc

/-- The live slots of a well-formed state are exactly the chain members, with
no range side condition. -/
theorem realizes_live_iff {K V : Type} {l : LinkedList K V} {c : List Nat}
    (h : Realizes l c) : ∀ i, isLive l.nodes_ i = true ↔ i ∈ c := by
  intro i
  by_cases hi : i < l.nodes_.length
  · exact h.live_iff i hi
  · constructor
    · intro hl
      unfold isLive at hl
      rw [List.getElem?_eq_none (Nat.le_of_not_lt hi)] at hl
      cases hl
    · intro hm
      exact absurd (h.mem_lt hm) hi

/-- Every state reachable through successful public operations is well
formed. -/
theorem reachable_realizes [LinearOrder K] {l : LinkedList K V} (h : Reachable l) :
    ∃ c, Realizes l c := by
  induction h with
  | init => exact ⟨[], default_realizes⟩
  | ordered_insert_pos l0 k v pos i l2 hr hroom hok ih =>
    obtain ⟨c, hc⟩ := ih
    exact ordered_insert_pos_realizes hc hroom hok
  | push_front l0 k v i l2 hr hroom hok ih =>
    obtain ⟨c, hc⟩ := ih
    obtain ⟨l3, heq, hreal, -, -, -⟩ := push_front_spec hc k v (fun _ => hroom)
    rw [heq] at hok
    have hl : l3 = l2 := congrArg Prod.snd hok
    exact ⟨_, hl ▸ hreal⟩
  | push_back l0 k v i l2 hr hroom hok ih =>
    obtain ⟨c, hc⟩ := ih
    obtain ⟨l3, heq, hreal, -, -, -⟩ := push_back_spec hc k v (fun _ => hroom)
    rw [heq] at hok
    have hl : l3 = l2 := congrArg Prod.snd hok
    exact ⟨_, hl ▸ hreal⟩
  | pop_front l0 r l2 hr hok ih =>
    obtain ⟨c, hc⟩ := ih
    unfold LinkedList.pop_front LinkedList.remove_ at hok
    cases hrm : l0.remove__ l0.head_ with
    | mk res l1 =>
      rw [hrm] at hok
      cases res with
      | ok rv =>
        have hok2 : ((Except.ok (some rv.2.1) : Except MapError (Option (K × V))), l1) =
            (.ok r, l2) := hok
        have hl : l1 = l2 := congrArg Prod.snd hok2
        obtain ⟨c2, hc2⟩ := remove___ok_realizes hc hrm
        exact ⟨c2, hl ▸ hc2⟩
      | error e =>
        have hok2 : ((Except.error e : Except MapError (Option (K × V))), l1) =
            (.ok r, l2) := hok
        exact absurd (congrArg Prod.fst hok2) (by simp)
  | pop_back l0 r l2 hr hok ih =>
    obtain ⟨c, hc⟩ := ih
    unfold LinkedList.pop_back LinkedList.remove_ at hok
    cases hrm : l0.remove__ l0.tail_ with
    | mk res l1 =>
      rw [hrm] at hok
      cases res with
      | ok rv =>
        have hok2 : ((Except.ok (some rv.2.1) : Except MapError (Option (K × V))), l1) =
            (.ok r, l2) := hok
        have hl : l1 = l2 := congrArg Prod.snd hok2
        obtain ⟨c2, hc2⟩ := remove___ok_realizes hc hrm
        exact ⟨c2, hl ▸ hc2⟩
      | error e =>
        have hok2 : ((Except.error e : Except MapError (Option (K × V))), l1) =
            (.ok r, l2) := hok
        exact absurd (congrArg Prod.fst hok2) (by simp)
  | remove_current l0 cur r l2 hr hok ih =>
    obtain ⟨c, hc⟩ := ih
    unfold PIterator.remove_current at hok
    cases hrm : l0.remove__ cur with
    | mk res l1 =>
      rw [hrm] at hok
      cases res with
      | ok rv =>
        have hok2 : ((Except.ok (rv.2.1, if rv.1 ≠ OUT_OF_BOUNDS then rv.1 else rv.2.2) :
            Except MapError ((K × V) × Nat)), l1) = (.ok r, l2) := hok
        have hl : l1 = l2 := congrArg Prod.snd hok2
        obtain ⟨c2, hc2⟩ := remove___ok_realizes hc hrm
        exact ⟨c2, hl ▸ hc2⟩
      | error e =>
        have hok2 : ((Except.error e : Except MapError ((K × V) × Nat)), l1) =
            (.ok r, l2) := hok
        exact absurd (congrArg Prod.fst hok2) (by simp)
  | replace_key l0 cur k hr ih =>
    obtain ⟨c, hc⟩ := ih
    exact ⟨c, replace_key_realizes hc cur k⟩
  | clear l0 hr ih =>
    exact ⟨[], clear_realizes l0⟩

/-- The top of a non-empty free stack is what `alloc` hands out. -/
theorem alloc_concat {K V : Type} {l : LinkedList K V} {ps : List Nat} {p : Nat}
    (h : l.id_pool_ = ps ++ [p]) : (l.alloc).1 = p := by
  rw [alloc_fst]
  exact next_free_concat h

/-- A successful `remove__` on a sorted well-formed list leaves a sorted
well-formed list (the chain loses one member, all other keys untouched). -/
theorem remove___ok_sorted [LinearOrder K] {l : LinkedList K V} {c : List Nat}
    (h : Realizes l c) (hs : SortedChain l.nodes_ c) {idx : Nat}
    {rv : Nat × (K × V) × Nat} {l2 : LinkedList K V}
    (hok : l.remove__ idx = (.ok rv, l2)) :
    ∃ c2, Realizes l2 c2 ∧ SortedChain l2.nodes_ c2 ∧
      l2.id_pool_ = l.id_pool_ ++ [idx] := by
  obtain ⟨a, b, hdec, hreal, hpool, hkeys, hlen, hnext⟩ := remove___ok_full h hok
  refine ⟨a ++ b, hreal, ?_, hpool⟩
  unfold SortedChain
  have hnd := h.nodup
  rw [hdec, List.nodup_append] at hnd
  have hidxa : idx ∉ a := fun hx => (hnd.2.2 hx) (List.mem_cons_self idx b)
  have hidxb : idx ∉ b := by
    have := hnd.2.1
    rw [List.nodup_cons] at this
    exact this.1
  have hcongr : chainKeys l2.nodes_ (a ++ b) = chainKeys l.nodes_ (a ++ b) := by
    apply chainKeys_congr
    intro x hx
    refine hkeys x (fun hxe => ?_)
    subst hxe
    rcases List.mem_append.mp hx with h1 | h1
    · exact hidxa h1
    · exact hidxb h1
  rw [hcongr]
  have hsub : List.Sublist (a ++ b) (a ++ idx :: b) :=
    List.Sublist.append_left (List.sublist_cons_self idx b) a
  have hp : List.Pairwise (· < ·) (chainKeys l.nodes_ c) := List.chain'_iff_pairwise.mp hs
  rw [hdec] at hp
  exact List.chain'_iff_pairwise.mpr (hp.sublist (hsub.filterMap (keyAt l.nodes_)))

instance {K V : Type} (l : LinkedList K V) (c : List Nat) : Decidable (Realizes l c) :=
  decidable_of_iff
    (segB l.nodes_ OUT_OF_BOUNDS c OUT_OF_BOUNDS = true ∧
      l.head_ = front c ∧ l.tail_ = back c ∧ c.Nodup ∧
      (∀ i, i < l.nodes_.length → (isLive l.nodes_ i = true ↔ i ∈ c)) ∧
      l.id_pool_.Nodup ∧
      (∀ i, i < l.nodes_.length → (isTomb l.nodes_ i = true ↔ i ∈ l.id_pool_)) ∧
      (∀ i ∈ l.id_pool_, i < l.nodes_.length) ∧
      l.nodes_.length < OUT_OF_BOUNDS) Iff.rfl

instance {K V : Type} [LinearOrder K] (nodes : List (Option (Node K V))) (c : List Nat) :
    Decidable (SortedChain nodes c) :=
  decidable_of_iff (List.Pairwise (· < ·) (chainKeys nodes c)) List.chain'_iff_pairwise.symm

/-- `lower_bound` on a list whose tail is the sentinel (an empty list)
returns `none` whatever the query key. -/
theorem lower_bound_empty {K V : Type} [LinearOrder K] {l : LinkedList K V}
    (h : l.tail_ = OUT_OF_BOUNDS) (k : K) : l.lower_bound k = .ok none := by
  unfold LinkedList.lower_bound
  rw [if_pos h]

/-! ### The claims -/

/-- C1: for every sequence of `ordered_insert(key, value)` calls (default head
hint) starting from the empty list, under the total order on `K`, forward
iteration of the resulting list yields a non-decreasing key sequence. -/
theorem claim_C1 {K V : Type} [LinearOrder K] (ops : List (K × V))
    (hlen : ops.length < OUT_OF_BOUNDS) :
    List.Chain' (· ≤ ·) (List.map Prod.fst (iter_collect (runInserts ops))) := by
  obtain ⟨c, hreal, hsort⟩ := runInserts_sorted ops hlen
  rw [iter_collect_eq hreal, chainKeys_eq_map_fst]
  exact List.Chain'.imp (fun a b hab => le_of_lt hab) hsort

theorem claim_C1_witness :
    ([(2, 20), (1, 10), (3, 30)] : List (Nat × Nat)).length < OUT_OF_BOUNDS ∧
    List.Chain' (· ≤ ·) (List.map Prod.fst
      (iter_collect (runInserts ([(2, 20), (1, 10), (3, 30)] : List (Nat × Nat))))) :=
  ⟨by decide, claim_C1 [(2, 20), (1, 10), (3, 30)] (by decide)⟩

/-- C2: inserting a key already present in a well-formed sorted list — with
any hint and any new value — is a no-op returning the index of the existing
node: the state, and hence the length, the iteration order, and the stored
value at that key, are unchanged. -/
theorem claim_C2 {K V : Type} [LinearOrder K] {l : LinkedList K V} {c : List Nat}
    (h : Realizes l c) (hs : SortedChain l.nodes_ c) {t : Nat} {k : K}
    (ht : t ∈ c) (hk : keyAt l.nodes_ t = some k) (v : V) (pos : Nat) :
    l.ordered_insert_pos k v pos = (.ok t, l) ∧
    l.ordered_insert k v = (.ok t, l) ∧
    (l.ordered_insert_pos k v pos).2.len = l.len ∧
    iter_collect (l.ordered_insert_pos k v pos).2 = iter_collect l ∧
    (l.ordered_insert_pos k v pos).2.get_v t = l.get_v t := by
  have h1 := ordered_insert_pos_duplicate h hs ht hk v pos
  have h2 := ordered_insert_pos_duplicate h hs ht hk v l.head_
  refine ⟨h1, ?_, by rw [h1], by rw [h1], by rw [h1]⟩
  unfold LinkedList.ordered_insert
  exact h2

theorem claim_C2_witness :
    Realizes (⟨0, 1, [some ⟨OUT_OF_BOUNDS, 1, 1, 10⟩, some ⟨0, OUT_OF_BOUNDS, 2, 20⟩], []⟩ :
        LinkedList Nat Nat) [0, 1] ∧
    SortedChain (⟨0, 1, [some ⟨OUT_OF_BOUNDS, 1, 1, 10⟩, some ⟨0, OUT_OF_BOUNDS, 2, 20⟩], []⟩ :
        LinkedList Nat Nat).nodes_ [0, 1] ∧
    ((⟨0, 1, [some ⟨OUT_OF_BOUNDS, 1, 1, 10⟩, some ⟨0, OUT_OF_BOUNDS, 2, 20⟩], []⟩ :
          LinkedList Nat Nat).ordered_insert_pos 1 99 5 =
        (.ok 0, ⟨0, 1, [some ⟨OUT_OF_BOUNDS, 1, 1, 10⟩, some ⟨0, OUT_OF_BOUNDS, 2, 20⟩], []⟩) ∧
      (⟨0, 1, [some ⟨OUT_OF_BOUNDS, 1, 1, 10⟩, some ⟨0, OUT_OF_BOUNDS, 2, 20⟩], []⟩ :
          LinkedList Nat Nat).ordered_insert 1 99 =
        (.ok 0, ⟨0, 1, [some ⟨OUT_OF_BOUNDS, 1, 1, 10⟩, some ⟨0, OUT_OF_BOUNDS, 2, 20⟩], []⟩) ∧
      ((⟨0, 1, [some ⟨OUT_OF_BOUNDS, 1, 1, 10⟩, some ⟨0, OUT_OF_BOUNDS, 2, 20⟩], []⟩ :
          LinkedList Nat Nat).ordered_insert_pos 1 99 5).2.len =
        (⟨0, 1, [some ⟨OUT_OF_BOUNDS, 1, 1, 10⟩, some ⟨0, OUT_OF_BOUNDS, 2, 20⟩], []⟩ :
          LinkedList Nat Nat).len ∧
      iter_collect ((⟨0, 1, [some ⟨OUT_OF_BOUNDS, 1, 1, 10⟩, some ⟨0, OUT_OF_BOUNDS, 2, 20⟩], []⟩ :
          LinkedList Nat Nat).ordered_insert_pos 1 99 5).2 =
        iter_collect (⟨0, 1, [some ⟨OUT_OF_BOUNDS, 1, 1, 10⟩, some ⟨0, OUT_OF_BOUNDS, 2, 20⟩], []⟩ :
          LinkedList Nat Nat) ∧
      ((⟨0, 1, [some ⟨OUT_OF_BOUNDS, 1, 1, 10⟩, some ⟨0, OUT_OF_BOUNDS, 2, 20⟩], []⟩ :
          LinkedList Nat Nat).ordered_insert_pos 1 99 5).2.get_v 0 =
        (⟨0, 1, [some ⟨OUT_OF_BOUNDS, 1, 1, 10⟩, some ⟨0, OUT_OF_BOUNDS, 2, 20⟩], []⟩ :
          LinkedList Nat Nat).get_v 0) :=
  ⟨by decide, by decide,
    @claim_C2 Nat Nat _
      ⟨0, 1, [some ⟨OUT_OF_BOUNDS, 1, 1, 10⟩, some ⟨0, OUT_OF_BOUNDS, 2, 20⟩], []⟩ [0, 1]
      (by decide) (by decide) 0 1 (by decide) (by decide) 99 5⟩

/-- C3: with keys `[0,1,2,5]` inserted by `ordered_insert`, `lower_bound k`
for `k ∈ {0,1,2,5}` returns the index of the node holding exactly key `k`
(checked through `get_k`); `lower_bound 15` returns `none`; and on an empty
list `lower_bound` returns `none` for every query key. -/
theorem claim_C3 :
    ((runInserts [(0, 100), (1, 101), (2, 102), (5, 105)] : LinkedList Nat Nat).lower_bound 0 =
        .ok (some 0) ∧
      (runInserts [(0, 100), (1, 101), (2, 102), (5, 105)] : LinkedList Nat Nat).get_k 0 =
        .ok 0) ∧
    ((runInserts [(0, 100), (1, 101), (2, 102), (5, 105)] : LinkedList Nat Nat).lower_bound 1 =
        .ok (some 1) ∧
      (runInserts [(0, 100), (1, 101), (2, 102), (5, 105)] : LinkedList Nat Nat).get_k 1 =
        .ok 1) ∧
    ((runInserts [(0, 100), (1, 101), (2, 102), (5, 105)] : LinkedList Nat Nat).lower_bound 2 =
        .ok (some 2) ∧
      (runInserts [(0, 100), (1, 101), (2, 102), (5, 105)] : LinkedList Nat Nat).get_k 2 =
        .ok 2) ∧
    ((runInserts [(0, 100), (1, 101), (2, 102), (5, 105)] : LinkedList Nat Nat).lower_bound 5 =
        .ok (some 3) ∧
      (runInserts [(0, 100), (1, 101), (2, 102), (5, 105)] : LinkedList Nat Nat).get_k 3 =
        .ok 5) ∧
    (runInserts [(0, 100), (1, 101), (2, 102), (5, 105)] : LinkedList Nat Nat).lower_bound 15 =
      .ok none ∧
    ∀ (K2 V2 : Type) [LinearOrder K2] (k : K2),
      (LinkedList.default : LinkedList K2 V2).lower_bound k = .ok none := by
  refine ⟨⟨by decide, by decide⟩, ⟨by decide, by decide⟩, ⟨by decide, by decide⟩,
    ⟨by decide, by decide⟩, by decide, ?_⟩
  intro K2 V2 inst k
  exact lower_bound_empty rfl k

/-- C4: after every sequence of successful public operations there is a chain
of slot indices such that following `next_` from `head_` visits exactly the
live slots, each exactly once, ending at `tail_`; following `prev_` from
`tail_` walks the reversed chain; and every live node's neighbours point back
at it (`prev/next` symmetry). -/
theorem claim_C4 {K V : Type} [LinearOrder K] {l : LinkedList K V} (h : Reachable l) :
    ∃ c : List Nat,
      segB l.nodes_ OUT_OF_BOUNDS c OUT_OF_BOUNDS = true ∧
      l.head_ = front c ∧
      l.tail_ = back c ∧
      c.Nodup ∧
      (∀ i, isLive l.nodes_ i = true ↔ i ∈ c) ∧
      segRB l.nodes_ OUT_OF_BOUNDS c.reverse OUT_OF_BOUNDS = true ∧
      (∀ (i : Nat) (nd : Node K V), l.nodes_[i]? = some (some nd) →
        (nd.prev_ ≠ OUT_OF_BOUNDS →
          ∃ ndp, l.nodes_[nd.prev_]? = some (some ndp) ∧ ndp.next_ = i) ∧
        (nd.next_ ≠ OUT_OF_BOUNDS →
          ∃ ndn, l.nodes_[nd.next_]? = some (some ndn) ∧ ndn.prev_ = i)) := by
  obtain ⟨c, hc⟩ := reachable_realizes h
  exact ⟨c, hc.seg, hc.headEq, hc.tailEq, hc.nodup, realizes_live_iff hc,
    segRB_of_segB hc.seg, realizes_backlinks hc⟩

theorem claim_C4_witness :
    ∃ c : List Nat,
      segB [some (⟨OUT_OF_BOUNDS, OUT_OF_BOUNDS, 1, 10⟩ : Node Nat Nat)] OUT_OF_BOUNDS c
        OUT_OF_BOUNDS = true ∧
      (0 : Nat) = front c ∧
      (0 : Nat) = back c ∧
      c.Nodup ∧
      (∀ i, isLive [some (⟨OUT_OF_BOUNDS, OUT_OF_BOUNDS, 1, 10⟩ : Node Nat Nat)] i = true ↔
        i ∈ c) ∧
      segRB [some (⟨OUT_OF_BOUNDS, OUT_OF_BOUNDS, 1, 10⟩ : Node Nat Nat)] OUT_OF_BOUNDS
        c.reverse OUT_OF_BOUNDS = true ∧
      (∀ (i : Nat) (nd : Node Nat Nat),
        [some (⟨OUT_OF_BOUNDS, OUT_OF_BOUNDS, 1, 10⟩ : Node Nat Nat)][i]? = some (some nd) →
        (nd.prev_ ≠ OUT_OF_BOUNDS →
          ∃ ndp, [some (⟨OUT_OF_BOUNDS, OUT_OF_BOUNDS, 1, 10⟩ : Node Nat Nat)][nd.prev_]? =
            some (some ndp) ∧ ndp.next_ = i) ∧
        (nd.next_ ≠ OUT_OF_BOUNDS →
          ∃ ndn, [some (⟨OUT_OF_BOUNDS, OUT_OF_BOUNDS, 1, 10⟩ : Node Nat Nat)][nd.next_]? =
            some (some ndn) ∧ ndn.prev_ = i)) :=
  claim_C4 (Reachable.push_back LinkedList.default 1 10 0
    ⟨0, 0, [some ⟨OUT_OF_BOUNDS, OUT_OF_BOUNDS, 1, 10⟩], []⟩ Reachable.init (by decide)
    (by decide))

/-- C5 (refuting the spec - code bug): on the non-empty list built by
inserting `(1,10)` then `(2,20)`, a fresh iterator driven only backward
yields `[(1,10)]` - the head entry - rather than `[(2,20),(1,10)]`, the
reverse of the forward sequence: `next_back` shares the single `my_next_`
cursor that `iter()` initialises to `head_`, so backward traversal does not
start at the tail. -/
theorem claim_C5 :
    (runInserts [(1, 10), (2, 20)] : LinkedList Nat Nat).len ≠ 0 ∧
    iter_collect_back (runInserts [(1, 10), (2, 20)] : LinkedList Nat Nat) = [(1, 10)] ∧
    (iter_collect (runInserts [(1, 10), (2, 20)] : LinkedList Nat Nat)).reverse =
      [(2, 20), (1, 10)] ∧
    iter_collect_back (runInserts [(1, 10), (2, 20)] : LinkedList Nat Nat) ≠
      (iter_collect (runInserts [(1, 10), (2, 20)] : LinkedList Nat Nat)).reverse := by
  decide

/-- C6: after erasing the node in slot `i`, the freed index sits on top of the
free stack and is exactly `next_free_index`; the next insert of any kind
(`push_front_`, `push_back_`, `insert_before_`, and `ordered_insert_pos`
unless it is a duplicate no-op) hands out exactly that index — LIFO reuse —
while an empty free stack hands out the append position. -/
theorem claim_C6 {K V : Type} [LinearOrder K] {l : LinkedList K V} {c : List Nat}
    (h : Realizes l c) (hs : SortedChain l.nodes_ c)
    {i : Nat} {rv : Nat × (K × V) × Nat} {l2 : LinkedList K V}
    (hok : l.remove__ i = (.ok rv, l2)) (k : K) (v : V) (pos : Nat) :
    l2.id_pool_ = l.id_pool_ ++ [i] ∧
    l2.next_free_index = i ∧
    (l2.push_front_ k v).1 = .ok i ∧
    (l2.push_back_ k v).1 = .ok i ∧
    (l2.insert_before_ l2.tail_ k v).1 = .ok i ∧
    ((l2.ordered_insert_pos k v pos).1 = .ok i ∨ (l2.ordered_insert_pos k v pos).2 = l2) ∧
    (l.id_pool_ = [] → l.next_free_index = l.nodes_.length) := by
  obtain ⟨c2, hreal2, hsort2, hpool2⟩ := remove___ok_sorted h hs hok
  have hnfi : l2.next_free_index = i := next_free_concat hpool2
  have halloc : (l2.alloc).1 = i := alloc_concat hpool2
  have hroom : l2.id_pool_.isEmpty = true → l2.nodes_.length + 1 < OUT_OF_BOUNDS := by
    intro he
    rw [hpool2] at he
    simp at he
  have hpf : (l2.push_front_ k v).1 = .ok i := by
    obtain ⟨l3, heq, -⟩ := push_front_spec hreal2 k v hroom
    rw [heq, halloc]
  have hpb : (l2.push_back_ k v).1 = .ok i := by
    obtain ⟨l3, heq, -⟩ := push_back_spec hreal2 k v hroom
    rw [heq, halloc]
  have hib : (l2.insert_before_ l2.tail_ k v).1 = .ok i := by
    by_cases hc2 : c2 = []
    · have ht : l2.tail_ = OUT_OF_BOUNDS := by
        rw [hreal2.tailEq, hc2]
        rfl
      have hieq : l2.insert_before_ l2.tail_ k v = l2.push_front_ k v := by
        unfold LinkedList.insert_before_
        rw [if_pos ht]
      rw [hieq]
      exact hpf
    · have hdec2 : c2 = c2.dropLast ++ back c2 :: [] := chain_decomp_back hc2
      obtain ⟨l3, heq, -⟩ := insert_before_spec hreal2 hdec2 k v hroom
      rw [hreal2.tailEq, heq, halloc]
  have hoi : (l2.ordered_insert_pos k v pos).1 = .ok i ∨
      (l2.ordered_insert_pos k v pos).2 = l2 := by
    obtain ⟨j, l3, c3, heq, -, -, -, hd⟩ := ordered_insert_pos_sorted hreal2 hsort2 hroom k v pos
    rcases hd with hl | hj
    · right
      rw [heq, hl]
    · left
      rw [heq, hj, halloc]
  exact ⟨hpool2, hnfi, hpf, hpb, hib, hoi, fun hp => next_free_nil hp⟩

theorem claim_C6_witness :
    Realizes (⟨0, 1, [some ⟨OUT_OF_BOUNDS, 1, 1, 10⟩, some ⟨0, OUT_OF_BOUNDS, 2, 20⟩], []⟩ :
        LinkedList Nat Nat) [0, 1] ∧
    SortedChain (⟨0, 1, [some ⟨OUT_OF_BOUNDS, 1, 1, 10⟩, some ⟨0, OUT_OF_BOUNDS, 2, 20⟩], []⟩ :
        LinkedList Nat Nat).nodes_ [0, 1] ∧
    (⟨0, 1, [some ⟨OUT_OF_BOUNDS, 1, 1, 10⟩, some ⟨0, OUT_OF_BOUNDS, 2, 20⟩], []⟩ :
        LinkedList Nat Nat).remove__ 0 =
      (.ok (OUT_OF_BOUNDS, (1, 10), 1),
        ⟨1, 1, [none, some ⟨OUT_OF_BOUNDS, OUT_OF_BOUNDS, 2, 20⟩], [0]⟩) ∧
    ((⟨1, 1, [none, some ⟨OUT_OF_BOUNDS, OUT_OF_BOUNDS, 2, 20⟩], [0]⟩ :
          LinkedList Nat Nat).id_pool_ =
        (⟨0, 1, [some ⟨OUT_OF_BOUNDS, 1, 1, 10⟩, some ⟨0, OUT_OF_BOUNDS, 2, 20⟩], []⟩ :
          LinkedList Nat Nat).id_pool_ ++ [0] ∧
      (⟨1, 1, [none, some ⟨OUT_OF_BOUNDS, OUT_OF_BOUNDS, 2, 20⟩], [0]⟩ :
          LinkedList Nat Nat).next_free_index = 0 ∧
      ((⟨1, 1, [none, some ⟨OUT_OF_BOUNDS, OUT_OF_BOUNDS, 2, 20⟩], [0]⟩ :
          LinkedList Nat Nat).push_front_ 7 70).1 = .ok 0 ∧
      ((⟨1, 1, [none, some ⟨OUT_OF_BOUNDS, OUT_OF_BOUNDS, 2, 20⟩], [0]⟩ :
          LinkedList Nat Nat).push_back_ 7 70).1 = .ok 0 ∧
      ((⟨1, 1, [none, some ⟨OUT_OF_BOUNDS, OUT_OF_BOUNDS, 2, 20⟩], [0]⟩ :
          LinkedList Nat Nat).insert_before_
          (⟨1, 1, [none, some ⟨OUT_OF_BOUNDS, OUT_OF_BOUNDS, 2, 20⟩], [0]⟩ :
            LinkedList Nat Nat).tail_ 7 70).1 = .ok 0 ∧
      (((⟨1, 1, [none, some ⟨OUT_OF_BOUNDS, OUT_OF_BOUNDS, 2, 20⟩], [0]⟩ :
            LinkedList Nat Nat).ordered_insert_pos 7 70 0).1 = .ok 0 ∨
        ((⟨1, 1, [none, some ⟨OUT_OF_BOUNDS, OUT_OF_BOUNDS, 2, 20⟩], [0]⟩ :
            LinkedList Nat Nat).ordered_insert_pos 7 70 0).2 =
          ⟨1, 1, [none, some ⟨OUT_OF_BOUNDS, OUT_OF_BOUNDS, 2, 20⟩], [0]⟩) ∧
      ((⟨0, 1, [some ⟨OUT_OF_BOUNDS, 1, 1, 10⟩, some ⟨0, OUT_OF_BOUNDS, 2, 20⟩], []⟩ :
          LinkedList Nat Nat).id_pool_ = [] →
        (⟨0, 1, [some ⟨OUT_OF_BOUNDS, 1, 1, 10⟩, some ⟨0, OUT_OF_BOUNDS, 2, 20⟩], []⟩ :
          LinkedList Nat Nat).next_free_index =
          (⟨0, 1, [some ⟨OUT_OF_BOUNDS, 1, 1, 10⟩, some ⟨0, OUT_OF_BOUNDS, 2, 20⟩], []⟩ :
            LinkedList Nat Nat).nodes_.length)) :=
  ⟨by decide, by decide, by decide,
    @claim_C6 Nat Nat _
      ⟨0, 1, [some ⟨OUT_OF_BOUNDS, 1, 1, 10⟩, some ⟨0, OUT_OF_BOUNDS, 2, 20⟩], []⟩ [0, 1]
      (by decide) (by decide) 0 (OUT_OF_BOUNDS, (1, 10), 1)
      ⟨1, 1, [none, some ⟨OUT_OF_BOUNDS, OUT_OF_BOUNDS, 2, 20⟩], [0]⟩ (by decide) 7 70 0⟩

/-- C7: `pop_front()` and `pop_back()` on an empty list fail with an error
(the modelled `InvariantViolation` condition, the source string
`"Could not find element to remove"`) rather than returning a value, and the
list state is unchanged — in particular still empty — after the failed call. -/
theorem claim_C7 {K V : Type} [LinearOrder K] {l : LinkedList K V} {c : List Nat}
    (h : Realizes l c) (hz : l.len = 0) :
    l.pop_front = (.error (.InternalError "Could not find element to remove"), l) ∧
    l.pop_back = (.error (.InternalError "Could not find element to remove"), l) ∧
    (l.pop_front).2.len = 0 ∧
    (l.pop_back).2.len = 0 := by
  have hcnil : c = [] := h.nil_of_len_zero hz
  subst hcnil
  have hh : l.head_ = OUT_OF_BOUNDS := by
    rw [h.headEq]
    rfl
  have hrm : ∀ j, l.remove__ j =
      (.error (.InternalError "Could not find element to remove"), l) := by
    intro j
    unfold LinkedList.remove__
    rw [if_pos hh]
  have h1 : l.pop_front = (.error (.InternalError "Could not find element to remove"), l) := by
    unfold LinkedList.pop_front LinkedList.remove_
    rw [hrm l.head_]
  have h2 : l.pop_back = (.error (.InternalError "Could not find element to remove"), l) := by
    unfold LinkedList.pop_back LinkedList.remove_
    rw [hrm l.tail_]
  exact ⟨h1, h2, by rw [h1]; exact hz, by rw [h2]; exact hz⟩

theorem claim_C7_witness :
    Realizes (LinkedList.default : LinkedList Nat Nat) [] ∧
    (LinkedList.default : LinkedList Nat Nat).len = 0 ∧
    ((LinkedList.default : LinkedList Nat Nat).pop_front =
        (.error (.InternalError "Could not find element to remove"), LinkedList.default) ∧
      (LinkedList.default : LinkedList Nat Nat).pop_back =
        (.error (.InternalError "Could not find element to remove"), LinkedList.default) ∧
      ((LinkedList.default : LinkedList Nat Nat).pop_front).2.len = 0 ∧
      ((LinkedList.default : LinkedList Nat Nat).pop_back).2.len = 0) :=
  ⟨by decide, by decide, @claim_C7 Nat Nat _ LinkedList.default [] (by decide) (by decide)⟩

/-- C8: `push_front_(k, v)` on an empty list followed by `pop_front()`
returns exactly the pair `(k, v)` and leaves the list empty (`len = 0`). -/
theorem claim_C8 {K V : Type} [LinearOrder K] {l : LinkedList K V} {c : List Nat}
    (h : Realizes l c) (hz : l.len = 0) (k : K) (v : V) :
    ∃ i l2 l3, l.push_front_ k v = (.ok i, l2) ∧
      l2.pop_front = (.ok (some (k, v)), l3) ∧ l3.len = 0 := by
  have hcnil : c = [] := h.nil_of_len_zero hz
  subst hcnil
  have hroom : l.id_pool_.isEmpty = true → l.nodes_.length + 1 < OUT_OF_BOUNDS := by
    intro he
    have hpl : l.id_pool_ = [] := List.isEmpty_iff.mp he
    unfold LinkedList.len at hz
    rw [hpl] at hz
    simp at hz
    rw [hz]
    simp only [List.length_nil]
    decide
  obtain ⟨l2, heq2, hreal2, hnode2, -, -⟩ := push_front_spec h k v hroom
  have hdec2 : (l.alloc).1 :: ([] : List Nat) = [] ++ (l.alloc).1 :: [] := rfl
  obtain ⟨nd2, l3, hnd3, -, -, heq3, hreal3, -, -, -⟩ := remove_spec hreal2 hdec2
  have hndeq : nd2 = ⟨OUT_OF_BOUNDS, front ([] : List Nat), k, v⟩ := by
    rw [hnd3] at hnode2
    simp only [Option.some.injEq] at hnode2
    exact hnode2
  refine ⟨(l.alloc).1, l2, l3, heq2, ?_, ?_⟩
  · unfold LinkedList.pop_front LinkedList.remove_
    have hh2 : l2.head_ = (l.alloc).1 := by
      rw [hreal2.headEq]
      rfl
    rw [hh2, heq3, hndeq]
  · rw [hreal3.len_eq]
    rfl

theorem claim_C8_witness :
    Realizes (LinkedList.default : LinkedList Nat Nat) [] ∧
    (LinkedList.default : LinkedList Nat Nat).len = 0 ∧
    (∃ i l2 l3, (LinkedList.default : LinkedList Nat Nat).push_front_ 5 50 = (.ok i, l2) ∧
      l2.pop_front = (.ok (some (5, 50)), l3) ∧ l3.len = 0) :=
  ⟨by decide, by decide, @claim_C8 Nat Nat _ LinkedList.default [] (by decide) (by decide) 5 50⟩

/-- C9: the index-addressed accessors (`get`, `get_k`, `get_v`, `get_prev_k`)
fail with the modelled `NotFound` condition (`"error, item not found"`, or the
sentinel message for `get` at `usize::MAX`) when the index is outside the
arena, and with a distinct modelled `Tombstoned` condition
(`"error, item was not active"` / `"error, item was None"`) when the slot is
in range but empty; the two error values are distinguishable. -/
theorem claim_C9 {K V : Type} {l : LinkedList K V} {i1 i2 : Nat}
    (h1 : l.nodes_[i1]? = none) (h2 : l.nodes_[i2]? = some none)
    (hlen : l.nodes_.length ≤ OUT_OF_BOUNDS) :
    (l.get_k i1 = .error (.InternalError "error, item not found") ∧
      l.get_v i1 = .error (.InternalError "error, item not found") ∧
      l.get_prev_k i1 = .error (.InternalError "error, item not found") ∧
      l.get i1 = .error (.InternalError
        (if i1 = OUT_OF_BOUNDS then "Invalid pointer (moved past start/end)."
         else "error, item not found"))) ∧
    (l.get_k i2 = .error (.InternalError "error, item was not active") ∧
      l.get_v i2 = .error (.InternalError "error, item was not active") ∧
      l.get_prev_k i2 = .error (.InternalError "error, item was None") ∧
      l.get i2 = .error (.InternalError "error, item was not active")) ∧
    l.get_k i1 ≠ l.get_k i2 ∧
    l.get_v i1 ≠ l.get_v i2 ∧
    l.get_prev_k i1 ≠ l.get_prev_k i2 ∧
    l.get i1 ≠ l.get i2 := by
  have hi2OOB : i2 ≠ OUT_OF_BOUNDS := by
    have hlt : i2 < l.nodes_.length := by
      by_contra hlt
      rw [List.getElem?_eq_none (Nat.le_of_not_lt hlt)] at h2
      cases h2
    omega
  have e1 : l.get_k i1 = .error (.InternalError "error, item not found") := by
    unfold LinkedList.get_k
    simp only [h1]
  have e2 : l.get_v i1 = .error (.InternalError "error, item not found") := by
    unfold LinkedList.get_v
    simp only [h1]
  have e3 : l.get_prev_k i1 = .error (.InternalError "error, item not found") := by
    unfold LinkedList.get_prev_k
    simp only [h1]
  have e4 : l.get i1 = .error (.InternalError
      (if i1 = OUT_OF_BOUNDS then "Invalid pointer (moved past start/end)."
       else "error, item not found")) := by
    unfold LinkedList.get
    by_cases hOOB : i1 = OUT_OF_BOUNDS
    · rw [if_pos hOOB, if_pos hOOB]
    · rw [if_neg hOOB, if_neg hOOB]
      simp only [h1]
  have f1 : l.get_k i2 = .error (.InternalError "error, item was not active") := by
    unfold LinkedList.get_k
    simp only [h2]
  have f2 : l.get_v i2 = .error (.InternalError "error, item was not active") := by
    unfold LinkedList.get_v
    simp only [h2]
  have f3 : l.get_prev_k i2 = .error (.InternalError "error, item was None") := by
    unfold LinkedList.get_prev_k
    simp only [h2]
  have f4 : l.get i2 = .error (.InternalError "error, item was not active") := by
    unfold LinkedList.get
    rw [if_neg hi2OOB]
    simp only [h2]
  refine ⟨⟨e1, e2, e3, e4⟩, ⟨f1, f2, f3, f4⟩, ?_, ?_, ?_, ?_⟩
  · rw [e1, f1]
    intro he
    injection he with he2
    injection he2 with he3
    exact absurd he3 (by decide)
  · rw [e2, f2]
    intro he
    injection he with he2
    injection he2 with he3
    exact absurd he3 (by decide)
  · rw [e3, f3]
    intro he
    injection he with he2
    injection he2 with he3
    exact absurd he3 (by decide)
  · rw [e4, f4]
    intro he
    injection he with he2
    injection he2 with he3
    split at he3
    · exact absurd he3 (by decide)
    · exact absurd he3 (by decide)

theorem claim_C9_witness :
    (⟨OUT_OF_BOUNDS, OUT_OF_BOUNDS, [none], [0]⟩ : LinkedList Nat Nat).nodes_[5]? = none ∧
    (⟨OUT_OF_BOUNDS, OUT_OF_BOUNDS, [none], [0]⟩ :
        LinkedList Nat Nat).nodes_[0]? = some none ∧
    (⟨OUT_OF_BOUNDS, OUT_OF_BOUNDS, [none], [0]⟩ :
        LinkedList Nat Nat).nodes_.length ≤ OUT_OF_BOUNDS ∧
    (((⟨OUT_OF_BOUNDS, OUT_OF_BOUNDS, [none], [0]⟩ : LinkedList Nat Nat).get_k 5 =
        .error (.InternalError "error, item not found") ∧
      (⟨OUT_OF_BOUNDS, OUT_OF_BOUNDS, [none], [0]⟩ : LinkedList Nat Nat).get_v 5 =
        .error (.InternalError "error, item not found") ∧
      (⟨OUT_OF_BOUNDS, OUT_OF_BOUNDS, [none], [0]⟩ : LinkedList Nat Nat).get_prev_k 5 =
        .error (.InternalError "error, item not found") ∧
      (⟨OUT_OF_BOUNDS, OUT_OF_BOUNDS, [none], [0]⟩ : LinkedList Nat Nat).get 5 =
        .error (.InternalError
          (if (5 : Nat) = OUT_OF_BOUNDS then "Invalid pointer (moved past start/end)."
           else "error, item not found"))) ∧
    ((⟨OUT_OF_BOUNDS, OUT_OF_BOUNDS, [none], [0]⟩ : LinkedList Nat Nat).get_k 0 =
        .error (.InternalError "error, item was not active") ∧
      (⟨OUT_OF_BOUNDS, OUT_OF_BOUNDS, [none], [0]⟩ : LinkedList Nat Nat).get_v 0 =
        .error (.InternalError "error, item was not active") ∧
      (⟨OUT_OF_BOUNDS, OUT_OF_BOUNDS, [none], [0]⟩ : LinkedList Nat Nat).get_prev_k 0 =
        .error (.InternalError "error, item was None") ∧
      (⟨OUT_OF_BOUNDS, OUT_OF_BOUNDS, [none], [0]⟩ : LinkedList Nat Nat).get 0 =
        .error (.InternalError "error, item was not active")) ∧
    (⟨OUT_OF_BOUNDS, OUT_OF_BOUNDS, [none], [0]⟩ : LinkedList Nat Nat).get_k 5 ≠
      (⟨OUT_OF_BOUNDS, OUT_OF_BOUNDS, [none], [0]⟩ : LinkedList Nat Nat).get_k 0 ∧
    (⟨OUT_OF_BOUNDS, OUT_OF_BOUNDS, [none], [0]⟩ : LinkedList Nat Nat).get_v 5 ≠
      (⟨OUT_OF_BOUNDS, OUT_OF_BOUNDS, [none], [0]⟩ : LinkedList Nat Nat).get_v 0 ∧
    (⟨OUT_OF_BOUNDS, OUT_OF_BOUNDS, [none], [0]⟩ : LinkedList Nat Nat).get_prev_k 5 ≠
      (⟨OUT_OF_BOUNDS, OUT_OF_BOUNDS, [none], [0]⟩ : LinkedList Nat Nat).get_prev_k 0 ∧
    (⟨OUT_OF_BOUNDS, OUT_OF_BOUNDS, [none], [0]⟩ : LinkedList Nat Nat).get 5 ≠
      (⟨OUT_OF_BOUNDS, OUT_OF_BOUNDS, [none], [0]⟩ : LinkedList Nat Nat).get 0) :=
  ⟨by decide, by decide, by decide,
    @claim_C9 Nat Nat ⟨OUT_OF_BOUNDS, OUT_OF_BOUNDS, [none], [0]⟩ 5 0
      (by decide) (by decide) (by decide)⟩

/-- C10: when the cursor does not address a live node (sentinel, out of
range, or a tombstoned slot), `PIterator::replace_key` returns `Ok` and
leaves the list completely unchanged — it silently does nothing — whereas
`get_k`/`get_v` fail in the same situation. -/
theorem claim_C10 {K V : Type} {l : LinkedList K V} {cur : Nat}
    (hdead : isLive l.nodes_ cur = false) (k : K) :
    PIterator.replace_key l cur k = (.ok (), l) ∧
    (∃ e, PIterator.get_k l cur = .error e) ∧
    (∃ e, PIterator.get_v l cur = .error e) := by
  cases hx : l.nodes_[cur]? with
  | some o =>
    cases o with
    | some nd =>
      unfold isLive at hdead
      rw [hx] at hdead
      cases hdead
    | none =>
      refine ⟨?_, ?_, ?_⟩
      · unfold PIterator.replace_key
        simp only [hx]
      · unfold PIterator.get_k LinkedList.get
        by_cases hOOB : cur = OUT_OF_BOUNDS
        · rw [if_pos hOOB]
          exact ⟨.InternalError "Invalid pointer (moved past start/end).", rfl⟩
        · rw [if_neg hOOB]
          simp only [hx]
          exact ⟨.InternalError "error, item was not active", rfl⟩
      · unfold PIterator.get_v LinkedList.get
        by_cases hOOB : cur = OUT_OF_BOUNDS
        · rw [if_pos hOOB]
          exact ⟨.InternalError "Invalid pointer (moved past start/end).", rfl⟩
        · rw [if_neg hOOB]
          simp only [hx]
          exact ⟨.InternalError "error, item was not active", rfl⟩
  | none =>
    refine ⟨?_, ?_, ?_⟩
    · unfold PIterator.replace_key
      simp only [hx]
    · unfold PIterator.get_k LinkedList.get
      by_cases hOOB : cur = OUT_OF_BOUNDS
      · rw [if_pos hOOB]
        exact ⟨.InternalError "Invalid pointer (moved past start/end).", rfl⟩
      · rw [if_neg hOOB]
        simp only [hx]
        exact ⟨.InternalError "error, item not found", rfl⟩
    · unfold PIterator.get_v LinkedList.get
      by_cases hOOB : cur = OUT_OF_BOUNDS
      · rw [if_pos hOOB]
        exact ⟨.InternalError "Invalid pointer (moved past start/end).", rfl⟩
      · rw [if_neg hOOB]
        simp only [hx]
        exact ⟨.InternalError "error, item not found", rfl⟩

theorem claim_C10_witness :
    isLive (⟨OUT_OF_BOUNDS, OUT_OF_BOUNDS, [none], [0]⟩ : LinkedList Nat Nat).nodes_ 0 =
      false ∧
    (PIterator.replace_key (⟨OUT_OF_BOUNDS, OUT_OF_BOUNDS, [none], [0]⟩ : LinkedList Nat Nat)
        0 42 = (.ok (), ⟨OUT_OF_BOUNDS, OUT_OF_BOUNDS, [none], [0]⟩) ∧
      (∃ e, PIterator.get_k (⟨OUT_OF_BOUNDS, OUT_OF_BOUNDS, [none], [0]⟩ : LinkedList Nat Nat)
        0 = .error e) ∧
      (∃ e, PIterator.get_v (⟨OUT_OF_BOUNDS, OUT_OF_BOUNDS, [none], [0]⟩ : LinkedList Nat Nat)
        0 = .error e)) :=
  ⟨by decide,
    @claim_C10 Nat Nat ⟨OUT_OF_BOUNDS, OUT_OF_BOUNDS, [none], [0]⟩ 0 (by decide) 42⟩

end CppMap
